import Mathlib

namespace Yb

/-!
Verification of the `yb` on-card blob-store engine.

This file shallowly embeds the core of the `yb` repository
(`src/yb/constants.py`, `src/yb/store.py`, `src/yb/orchestrator.py`,
`src/yb/crypto.py`) into Lean 4 and proves / refutes the frozen claims
about it.

Modelling conventions:
* Python `bytes` values are `List Nat` whose elements are `< 256`;
  `from_serialization` receives a `bytes`-typed argument in Python, so the
  embedded decoder checks the byte bound explicitly.
* Python `int` is `Nat` where the source guarantees non-negativity and
  `Int` where subtraction can go negative (payload capacities).
* Exceptions are `Option`/`Except`: a Python `raise` becomes `none` /
  `.error`.
* A Python `Object` knows its own `object_index_in_store`; throughout the
  program the object stored at position `i` of `Store.objects` has index
  `i` (load appends in order, `commit_object` stores at the index,
  `reset` keeps the index), so records are modelled positionally and the
  tail test `next == own index` compares against the list position.
* `is_dirty` lives on the Python object; it is modelled as a parallel
  `List Bool` in the embedded `Store` so that the record codec operates on
  the pure record value.
-/

/-! ### Constants (src/yb/constants.py) -/

def YBLOB_MAGIC : Nat := 0xF2ed5F0b
def OBJECT_MIN_SIZE : Nat := 10
def OBJECT_MAX_SIZE : Nat := 3052
-- ZERO = b'\x00' * OBJECT_MAX_SIZE ; ZERO[:n] is modelled where used.
def MAX_OBJECT_COUNT : Nat := 16

@[simp] def YBLOB_MAGIC_O : Nat := 0
@[simp] def YBLOB_MAGIC_S : Nat := 4
@[simp] def OBJECT_COUNT_IN_STORE_O : Nat := YBLOB_MAGIC_O + YBLOB_MAGIC_S
@[simp] def OBJECT_COUNT_IN_STORE_S : Nat := 1
@[simp] def STORE_ENCRYPTION_KEY_SLOT_O : Nat :=
  OBJECT_COUNT_IN_STORE_O + OBJECT_COUNT_IN_STORE_S
@[simp] def STORE_ENCRYPTION_KEY_SLOT_S : Nat := 1
@[simp] def OBJECT_AGE_O : Nat := STORE_ENCRYPTION_KEY_SLOT_O + STORE_ENCRYPTION_KEY_SLOT_S
@[simp] def OBJECT_AGE_S : Nat := 3
@[simp] def CHUNK_POS_IN_BLOB_O : Nat := OBJECT_AGE_O + OBJECT_AGE_S
@[simp] def CHUNK_POS_IN_BLOB_S : Nat := 1
@[simp] def NEXT_CHUNK_INDEX_IN_STORE_O : Nat := CHUNK_POS_IN_BLOB_O + CHUNK_POS_IN_BLOB_S
@[simp] def NEXT_CHUNK_INDEX_IN_STORE_S : Nat := 1
@[simp] def BLOB_MODIFICATION_TIME_O : Nat :=
  NEXT_CHUNK_INDEX_IN_STORE_O + NEXT_CHUNK_INDEX_IN_STORE_S
@[simp] def BLOB_MODIFICATION_TIME_S : Nat := 4
@[simp] def BLOB_SIZE_O : Nat := BLOB_MODIFICATION_TIME_O + BLOB_MODIFICATION_TIME_S
@[simp] def BLOB_SIZE_S : Nat := 3
@[simp] def BLOB_ENCRYPTION_KEY_SLOT_O : Nat := BLOB_SIZE_O + BLOB_SIZE_S
@[simp] def BLOB_ENCRYPTION_KEY_SLOT_S : Nat := 1
@[simp] def BLOB_UNENCRYPTED_SIZE_O : Nat :=
  BLOB_ENCRYPTION_KEY_SLOT_O + BLOB_ENCRYPTION_KEY_SLOT_S
@[simp] def BLOB_UNENCRYPTED_SIZE_S : Nat := 3
@[simp] def BLOB_NAME_UTF8_LEN_O : Nat := BLOB_UNENCRYPTED_SIZE_O + BLOB_UNENCRYPTED_SIZE_S
@[simp] def BLOB_NAME_UTF8_LEN_S : Nat := 1
@[simp] def BLOB_NAME_O : Nat := BLOB_NAME_UTF8_LEN_O + BLOB_NAME_UTF8_LEN_S

/-! ### Byte-level helpers -/

/-- `int.to_bytes(n, "little")`: `n` little-endian bytes of `v`. -/
def toBytesLE : Nat → Nat → List Nat
  | 0, _ => []
  | n + 1, v => (v % 256) :: toBytesLE n (v / 256)

/-- `int.from_bytes(bs, "little")`. -/
def fromBytesLE : List Nat → Nat
  | [] => 0
  | b :: bs => b % 256 * 1 + 256 * fromBytesLE bs

/- Note: Python's `int.from_bytes` receives genuine bytes; the `% 256`
above makes the function agree with it on byte lists and keeps it total. -/

/-- `bs.ljust(n, b'\x00')`: right-pad with NUL bytes to length `n`. -/
def padRight (bs : List Nat) (n : Nat) : List Nat :=
  bs ++ List.replicate (n - bs.length) 0

/-- Python slice `xs[start:stop]` for integer bounds (negative indices count
from the end; out-of-range bounds are clamped). -/
def pySlice (xs : List Nat) (start stop : Int) : List Nat :=
  let n : Int := xs.length
  let lo : Int := if start < 0 then max (n + start) 0 else min start n
  let hi : Int := if stop < 0 then max (n + stop) 0 else min stop n
  (xs.take hi.toNat).drop lo.toNat

/-! ### UTF-8 validity (what Python's `bytes.decode('utf-8')` accepts:
RFC 3629 — no overlong forms, no surrogates, nothing above U+10FFFF). -/

def isUtf8Cont (b : Nat) : Bool := 128 ≤ b && b < 192

def isValidUtf8 : List Nat → Bool
  | [] => true
  | b :: rest =>
    if b < 128 then isValidUtf8 rest
    else if b < 194 then false
    else if b < 224 then
      match rest with
      | c1 :: r => isUtf8Cont c1 && isValidUtf8 r
      | [] => false
    else if b < 240 then
      match rest with
      | c1 :: c2 :: r =>
        (if b = 224 then 160 ≤ c1 && c1 < 192
         else if b = 237 then 128 ≤ c1 && c1 < 160
         else isUtf8Cont c1) && isUtf8Cont c2 && isValidUtf8 r
      | _ => false
    else if b < 245 then
      match rest with
      | c1 :: c2 :: c3 :: r =>
        (if b = 240 then 144 ≤ c1 && c1 < 192
         else if b = 244 then 128 ≤ c1 && c1 < 144
         else isUtf8Cont c1) && isUtf8Cont c2 && isUtf8Cont c3 && isValidUtf8 r
      | _ => false
    else false

/-! ### Store geometry and records (src/yb/store.py) -/

/-- The store-wide parameters every `Object` copies from its `Store`
(`yblob_magic`, `object_size_in_store`, `object_count_in_store`,
`store_encryption_key_slot`). -/
structure Geometry where
  yblobMagic : Nat
  objectSizeInStore : Nat
  objectCountInStore : Nat
  storeEncryptionKeySlot : Nat
deriving Repr, DecidableEq

/-- The ranges the `Object` constructor enforces on the geometry fields it
copies (`Store.__init__` values flow in unchecked; `Object.__init__`
raises `ValueError` outside these ranges). -/
def GeometryWF (g : Geometry) : Prop :=
  g.yblobMagic < 256 ^ YBLOB_MAGIC_S ∧
  g.objectCountInStore < 256 ^ OBJECT_COUNT_IN_STORE_S ∧
  g.storeEncryptionKeySlot < 256 ^ STORE_ENCRYPTION_KEY_SLOT_S

instance : DecidablePred GeometryWF := fun _ => by
  unfold GeometryWF; infer_instance

/-- One in-memory record.  `object_age = 0` is `free`; otherwise
`chunk_pos_in_blob = 0` is a blob `head` carrying the blob metadata and
`chunk_pos_in_blob ≠ 0` is a `body` chunk.  These are exactly the three
attribute layouts `Object.__init__` can produce. -/
inductive Obj where
  | free (chunkPayload : List Nat)
  | body (objectAge chunkPosInBlob nextChunkIndexInStore : Nat)
      (chunkPayload : List Nat)
  | head (objectAge nextChunkIndexInStore : Nat)
      (blobModificationTime blobSize blobEncryptionKeySlot
        blobUnencryptedSize : Nat)
      (blobName : List Nat) (chunkPayload : List Nat)
deriving Repr, DecidableEq

instance : Inhabited Obj := ⟨.free []⟩

def Obj.objectAge : Obj → Nat
  | .free _ => 0
  | .body a _ _ _ => a
  | .head a _ _ _ _ _ _ _ => a

def Obj.chunkPosInBlob : Obj → Nat
  | .free _ => 0
  | .body _ p _ _ => p
  | .head _ _ _ _ _ _ _ _ => 0

def Obj.nextChunkIndexInStore : Obj → Nat
  | .free _ => 0
  | .body _ _ n _ => n
  | .head _ n _ _ _ _ _ _ => n

def Obj.chunkPayload : Obj → List Nat
  | .free p => p
  | .body _ _ _ p => p
  | .head _ _ _ _ _ _ _ p => p

def Obj.blobName : Obj → List Nat
  | .head _ _ _ _ _ _ nm _ => nm
  | _ => []

def Obj.blobSize : Obj → Nat
  | .head _ _ _ bs _ _ _ _ => bs
  | _ => 0

def Obj.blobEncryptionKeySlot : Obj → Nat
  | .head _ _ _ _ ks _ _ _ => ks
  | _ => 0

def Obj.blobUnencryptedSize : Obj → Nat
  | .head _ _ _ _ _ us _ _ => us
  | _ => 0

def Obj.blobModificationTime : Obj → Nat
  | .head _ _ mt _ _ _ _ _ => mt
  | _ => 0

/-- `obj.object_age != 0 and obj.chunk_pos_in_blob == 0`: the record is a
live blob head. -/
def Obj.isAliveHead (o : Obj) : Bool :=
  o.objectAge ≠ 0 && o.chunkPosInBlob = 0

def bytesOk (bs : List Nat) : Prop := ∀ b ∈ bs, b < 256

instance : DecidablePred bytesOk := fun bs => by
  unfold bytesOk; infer_instance

/-- The records `Object.__init__` accepts (for the given geometry): the
range checks it performs, together with the payload shape it stores
(arbitrary payload for free records; `ljust`-padded to the chunk capacity
for live records).  `Object.from_serialization` also only ever produces
such records. -/
def ObjWF (g : Geometry) : Obj → Prop
  | .free p => bytesOk p
  | .body a pos nxt p =>
      0 < a ∧ a < 256 ^ OBJECT_AGE_S ∧
      0 < pos ∧ pos < 256 ^ CHUNK_POS_IN_BLOB_S ∧
      nxt < 256 ^ NEXT_CHUNK_INDEX_IN_STORE_S ∧
      BLOB_MODIFICATION_TIME_O ≤ g.objectSizeInStore ∧
      p.length = g.objectSizeInStore - BLOB_MODIFICATION_TIME_O ∧
      bytesOk p
  | .head a nxt mt bs eks us nm p =>
      0 < a ∧ a < 256 ^ OBJECT_AGE_S ∧
      nxt < 256 ^ NEXT_CHUNK_INDEX_IN_STORE_S ∧
      mt < 256 ^ BLOB_MODIFICATION_TIME_S ∧
      bs < 256 ^ BLOB_SIZE_S ∧
      eks < 256 ^ BLOB_ENCRYPTION_KEY_SLOT_S ∧
      us < 256 ^ BLOB_UNENCRYPTED_SIZE_S ∧
      0 < nm.length ∧ nm.length < 256 ^ BLOB_NAME_UTF8_LEN_S ∧
      isValidUtf8 nm = true ∧ bytesOk nm ∧
      BLOB_NAME_O + nm.length ≤ g.objectSizeInStore ∧
      p.length = g.objectSizeInStore - (BLOB_NAME_O + nm.length) ∧
      bytesOk p

instance (g : Geometry) : DecidablePred (ObjWF g) := fun o => by
  cases o <;> (unfold ObjWF; infer_instance)

/-! ### Record codec: `Object.serialize` and `Object.from_serialization` -/

/-- `Object.serialize`.  The Python method `assert`s each field range
before emitting it; a failed assertion (an `AssertionError`) is `none`.
The record's copies of the geometry fields always equal the store's, so
they are taken from `g`. -/
def serializeO (g : Geometry) (o : Obj) : Option (List Nat) :=
  if ¬ (GeometryWF g ∧ o.objectAge < 256 ^ OBJECT_AGE_S) then none
  else
  let hdr := toBytesLE YBLOB_MAGIC_S g.yblobMagic
    ++ toBytesLE OBJECT_COUNT_IN_STORE_S g.objectCountInStore
    ++ toBytesLE STORE_ENCRYPTION_KEY_SLOT_S g.storeEncryptionKeySlot
    ++ toBytesLE OBJECT_AGE_S o.objectAge
  -- "We are done for empty objects"
  if o.objectAge = 0 then some (hdr ++ o.chunkPayload) else
  match o with
  | .free p => some (hdr ++ p)   -- unreachable: free records have age 0
  | .body _ pos nxt p =>
      if pos < 256 ^ CHUNK_POS_IN_BLOB_S ∧
          nxt < 256 ^ NEXT_CHUNK_INDEX_IN_STORE_S then
        some (hdr ++ toBytesLE CHUNK_POS_IN_BLOB_S pos
          ++ toBytesLE NEXT_CHUNK_INDEX_IN_STORE_S nxt ++ p)
      else none
  | .head _ nxt mt bs eks us nm p =>
      if nxt < 256 ^ NEXT_CHUNK_INDEX_IN_STORE_S ∧
          mt < 256 ^ BLOB_MODIFICATION_TIME_S ∧
          0 < bs ∧ bs < 256 ^ BLOB_SIZE_S ∧
          eks < 256 ^ BLOB_ENCRYPTION_KEY_SLOT_S ∧
          us < 256 ^ BLOB_UNENCRYPTED_SIZE_S ∧
          0 < nm.length ∧ nm.length < 256 ^ BLOB_NAME_UTF8_LEN_S then
        some (hdr ++ toBytesLE CHUNK_POS_IN_BLOB_S 0
          ++ toBytesLE NEXT_CHUNK_INDEX_IN_STORE_S nxt
          ++ toBytesLE BLOB_MODIFICATION_TIME_S mt
          ++ toBytesLE BLOB_SIZE_S bs
          ++ toBytesLE BLOB_ENCRYPTION_KEY_SLOT_S eks
          ++ toBytesLE BLOB_UNENCRYPTED_SIZE_S us
          ++ toBytesLE BLOB_NAME_UTF8_LEN_S nm.length
          ++ nm ++ p)
      else none

/-- `Object.from_serialization` followed by the `Object.__init__`
validation it triggers.  Any raised exception (`ClickException` for a
short read or geometry mismatch, `UnicodeDecodeError` for an invalid
name, `ValueError` from the constructor) is `none`.  The leading byte
check models the `bytes` type of the Python argument.  Reading a field
whose `nxt(length)` call would run past the end raises, and `nxt(0)`
returns everything from the cursor on — in particular a declared name
length of 0 makes the whole remainder the name. -/
def fromSerializationBody (g : Geometry)
    (objectAge chunkPosInBlob nextChunkIndexInStore : Nat) (s : List Nat) :
    Option Obj :=
  let payload := s.drop BLOB_MODIFICATION_TIME_O
  let capacity : Int := (g.objectSizeInStore : Int) - BLOB_MODIFICATION_TIME_O
  if (payload.length : Int) > capacity then none else
  some (.body objectAge chunkPosInBlob nextChunkIndexInStore
    (padRight payload capacity.toNat))

def fromSerializationHead (g : Geometry)
    (objectAge nextChunkIndexInStore : Nat) (s : List Nat) : Option Obj :=
  if s.length < BLOB_MODIFICATION_TIME_O + BLOB_MODIFICATION_TIME_S then none else
  let blobModificationTime :=
    fromBytesLE ((s.drop BLOB_MODIFICATION_TIME_O).take BLOB_MODIFICATION_TIME_S)
  if s.length < BLOB_SIZE_O + BLOB_SIZE_S then none else
  let blobSize := fromBytesLE ((s.drop BLOB_SIZE_O).take BLOB_SIZE_S)
  if s.length < BLOB_ENCRYPTION_KEY_SLOT_O + BLOB_ENCRYPTION_KEY_SLOT_S
    then none else
  let blobEncryptionKeySlot := fromBytesLE
    ((s.drop BLOB_ENCRYPTION_KEY_SLOT_O).take BLOB_ENCRYPTION_KEY_SLOT_S)
  if s.length < BLOB_UNENCRYPTED_SIZE_O + BLOB_UNENCRYPTED_SIZE_S then none else
  let blobUnencryptedSize :=
    fromBytesLE ((s.drop BLOB_UNENCRYPTED_SIZE_O).take BLOB_UNENCRYPTED_SIZE_S)
  if s.length < BLOB_NAME_UTF8_LEN_O + BLOB_NAME_UTF8_LEN_S then none else
  let blobNameUtf8Len :=
    fromBytesLE ((s.drop BLOB_NAME_UTF8_LEN_O).take BLOB_NAME_UTF8_LEN_S)
  -- nxt(0) semantics: a zero declared length takes the whole remainder
  let blobName := if blobNameUtf8Len = 0 then s.drop BLOB_NAME_O
    else (s.drop BLOB_NAME_O).take blobNameUtf8Len
  if blobNameUtf8Len ≠ 0 ∧ s.length < BLOB_NAME_O + blobNameUtf8Len then none else
  let payload := if blobNameUtf8Len = 0 then []
    else s.drop (BLOB_NAME_O + blobNameUtf8Len)
  if ¬ (isValidUtf8 blobName = true) then none else
  if ¬ (0 < blobName.length ∧ blobName.length < 256 ^ BLOB_NAME_UTF8_LEN_S)
    then none else
  let capacity : Int :=
    (g.objectSizeInStore : Int) - (BLOB_NAME_O + blobName.length)
  if (payload.length : Int) > capacity then none else
  some (.head objectAge nextChunkIndexInStore
    blobModificationTime blobSize blobEncryptionKeySlot blobUnencryptedSize
    blobName (padRight payload capacity.toNat))

def fromSerialization (g : Geometry) (s : List Nat) : Option Obj :=
  if ¬ (s.all (· < 256) = true) then none else
  if s.length < YBLOB_MAGIC_S then none else
  if fromBytesLE (s.take YBLOB_MAGIC_S) ≠ g.yblobMagic then none else
  if s.length < OBJECT_COUNT_IN_STORE_O + OBJECT_COUNT_IN_STORE_S then none else
  if fromBytesLE ((s.drop OBJECT_COUNT_IN_STORE_O).take OBJECT_COUNT_IN_STORE_S)
    ≠ g.objectCountInStore then none else
  if s.length < STORE_ENCRYPTION_KEY_SLOT_O + STORE_ENCRYPTION_KEY_SLOT_S
    then none else
  if fromBytesLE
      ((s.drop STORE_ENCRYPTION_KEY_SLOT_O).take STORE_ENCRYPTION_KEY_SLOT_S)
    ≠ g.storeEncryptionKeySlot then none else
  if s.length < OBJECT_AGE_O + OBJECT_AGE_S then none else
  let objectAge := fromBytesLE ((s.drop OBJECT_AGE_O).take OBJECT_AGE_S)
  -- "We are done for empty objects"
  if objectAge = 0 then some (.free (s.drop CHUNK_POS_IN_BLOB_O)) else
  if s.length < CHUNK_POS_IN_BLOB_O + CHUNK_POS_IN_BLOB_S then none else
  let chunkPosInBlob :=
    fromBytesLE ((s.drop CHUNK_POS_IN_BLOB_O).take CHUNK_POS_IN_BLOB_S)
  if s.length < NEXT_CHUNK_INDEX_IN_STORE_O + NEXT_CHUNK_INDEX_IN_STORE_S
    then none else
  let nextChunkIndexInStore := fromBytesLE
    ((s.drop NEXT_CHUNK_INDEX_IN_STORE_O).take NEXT_CHUNK_INDEX_IN_STORE_S)
  -- "We are done for non-head objects"
  if chunkPosInBlob ≠ 0 then
    fromSerializationBody g objectAge chunkPosInBlob nextChunkIndexInStore s
  else
    fromSerializationHead g objectAge nextChunkIndexInStore s

/-! ### Codec round trip -/

/-- A record's head discriminator. -/
def Obj.isHead : Obj → Bool
  | .head _ _ _ _ _ _ _ _ => true
  | _ => false

/-! ### Store (src/yb/store.py) -/

/-- The in-memory `Store`: geometry, running `store_age`, the record
array, and the per-record dirty bits (held on the Python objects, modelled
as a parallel list). -/
structure Store where
  geo : Geometry
  storeAge : Nat
  objects : List Obj
  dirty : List Bool
deriving Repr, DecidableEq

/-- `Object.reset`: `object_age ← 0`,
`chunk_payload ← ZERO[:object_size - CHUNK_POS_IN_BLOB_O]` (where `ZERO`
has `OBJECT_MAX_SIZE` bytes, so the slice is capped), `is_dirty ← True`
(tracked in `Store.dirty`).  The other attributes are unreachable once the
age is 0, so the result is a free record. -/
def resetObj (objectSizeInStore : Nat) : Obj :=
  .free (List.replicate
    (min (objectSizeInStore - CHUNK_POS_IN_BLOB_O) OBJECT_MAX_SIZE) 0)

/-- The record-reading loop of `Store.from_piv_device`: for each index,
`Piv.read_object` (an index beyond the device fails the transport), the
`object_size_in_store` length check, and `Object.from_serialization`
(which already enforces the magic / count / slot checks the loop
repeats). -/
def loadObjects (g : Geometry) (dev : List (List Nat)) :
    List Nat → Option (List Obj)
  | [] => some []
  | i :: rest =>
    match dev[i]? with
    | none => none
    | some raw =>
      if raw.length ≠ g.objectSizeInStore then none else
      match fromSerialization g raw with
      | none => none
      | some o => (loadObjects g dev rest).map (o :: ·)

/-- `Store.from_piv_device`: learn `object_size_in_store` (the length of
record 0), `object_count_in_store` and `store_encryption_key_slot` from
record 0, validate the magic and the size range, then read and decode all
records, tracking `store_age` as the running maximum age.  Any raised
`ClickException` is `none`. -/
def loadStore (dev : List (List Nat)) : Option Store :=
  match dev[0]? with
  | none => none
  | some r0 =>
    let yblobMagic := fromBytesLE (r0.take YBLOB_MAGIC_S)
    if yblobMagic ≠ YBLOB_MAGIC then none else
    let objectSizeInStore := r0.length
    if ¬ (OBJECT_MIN_SIZE ≤ objectSizeInStore ∧
        objectSizeInStore ≤ OBJECT_MAX_SIZE) then none else
    let objectCountInStore :=
      fromBytesLE ((r0.drop OBJECT_COUNT_IN_STORE_O).take OBJECT_COUNT_IN_STORE_S)
    let storeEncryptionKeySlot := fromBytesLE
      ((r0.drop STORE_ENCRYPTION_KEY_SLOT_O).take STORE_ENCRYPTION_KEY_SLOT_S)
    let g : Geometry :=
      ⟨yblobMagic, objectSizeInStore, objectCountInStore, storeEncryptionKeySlot⟩
    match loadObjects g dev (List.range objectCountInStore) with
    | none => none
    | some objs =>
      some ⟨g, (objs.map Obj.objectAge).foldl max 0, objs,
        List.replicate objectCountInStore false⟩

/-! ### Sanitizer (`Store.sanitize`) -/

/-- How the embedded sanitizer can fail: `assertFail` is the
`assert blob.object_age != alt_blob.object_age` of pass 2 raising an
`AssertionError`; `fuelOut` is a modelling artefact (a chain walk ran out
of fuel), proved unreachable on loaded stores. -/
inductive SanFail where
  | assertFail
  | fuelOut
deriving Repr, DecidableEq

/-- Fuel for the embedded chain walks: ages are 24-bit and every accepted
pass-1 hop increases the running age by one, so `2 ^ 24` steps suffice on
any loaded store. -/
def sanFuel : Nat := 2 ^ 24

/-- The `while True` walk of sanitize pass 1, starting at record `i` with
running age `age` and position `pos`: stop with `true` at the
self-pointer; stop with `false` (reset the head) on an out-of-range next
index or a successor whose age or position does not continue the
sequence.  (The source's `isinstance` checks on `blob_name` and
`chunk_payload` always hold for decoded records and are omitted.) -/
def pass1Walk (count : Nat) (objs : List Obj) :
    Nat → Nat → Nat → Nat → Except SanFail Bool
  | 0, _, _, _ => .error .fuelOut
  | fuel + 1, i, age, pos =>
    let object := objs.getD i default
    let nextIndex := object.nextChunkIndexInStore
    if nextIndex = i then .ok true
    else if ¬ (nextIndex < count) then .ok false
    else
      let object' := objs.getD nextIndex default
      if object'.objectAge = age + 1 ∧ object'.chunkPosInBlob = pos + 1 then
        pass1Walk count objs fuel nextIndex (age + 1) (pos + 1)
      else .ok false

/-- One iteration of sanitize pass 1 at record `i`. -/
def pass1Step (count size : Nat) (st : List Obj × List Bool) (i : Nat) :
    Except SanFail (List Obj × List Bool) :=
  let blob := st.1.getD i default
  if blob.objectAge = 0 then .ok st
  else if blob.chunkPosInBlob ≠ 0 then .ok st
  else
    match pass1Walk count st.1 sanFuel i blob.objectAge 0 with
    | .error e => .error e
    | .ok true => .ok st
    | .ok false => .ok (st.1.set i (resetObj size), st.2.set i true)

/-- Sanitize pass 1 — "Remove head of corrupt blobs": for each live head,
walk its chain and `reset()` the head if the walk rejects. -/
def pass1 (count size : Nat) (objs0 : List Obj) (dirty0 : List Bool) :
    Except SanFail (List Obj × List Bool) :=
  (List.range objs0.length).foldlM (pass1Step count size) (objs0, dirty0)

/-- Sanitize pass 2 — "Remove older of identically named blobs": a dict
from name to the first head seen with that name; later heads with the
same name are compared by age against the dict entry (the entry is never
replaced), the younger of the two is reset, and equal ages fire the
source's `assert`.  Names are UTF-8 byte strings; `str` equality on
decoded names coincides with byte equality. -/
def pass2Step (size : Nat)
    (st : (List Obj × List Bool) × List (List Nat × Nat)) (i : Nat) :
    Except SanFail ((List Obj × List Bool) × List (List Nat × Nat)) :=
  let blob := st.1.1.getD i default
  if blob.objectAge = 0 then .ok st
  else if blob.chunkPosInBlob ≠ 0 then .ok st
  else
    let name := blob.blobName
    match st.2.find? (fun e => decide (e.1 = name)) with
    | none => .ok (st.1, (name, i) :: st.2)
    | some e =>
      let altBlob := st.1.1.getD e.2 default
      if blob.objectAge = altBlob.objectAge then .error .assertFail
      else if blob.objectAge < altBlob.objectAge then
        .ok ((st.1.1.set i (resetObj size), st.1.2.set i true), st.2)
      else
        .ok ((st.1.1.set e.2 (resetObj size), st.1.2.set e.2 true), st.2)

def pass2 (size : Nat) (objs0 : List Obj) (dirty0 : List Bool) :
    Except SanFail (List Obj × List Bool) :=
  ((List.range objs0.length).foldlM (pass2Step size)
    ((objs0, dirty0), [])).map (·.1)

/-- The unchecked `while True` walk of sanitize pass 3, marking every
visited index reachable. -/
def markChain (objs : List Obj) :
    Nat → Nat → List Bool → Except SanFail (List Bool)
  | 0, _, _ => .error .fuelOut
  | fuel + 1, i, reach =>
    let reach' := reach.set i true
    let object := objs.getD i default
    let nextIndex := object.nextChunkIndexInStore
    if nextIndex = i then .ok reach'
    else markChain objs fuel nextIndex reach'

/-- One iteration of the marking phase of pass 3. -/
def reachStep (objs : List Obj) (reach : List Bool) (i : Nat) :
    Except SanFail (List Bool) :=
  let blob := objs.getD i default
  if blob.objectAge = 0 then .ok reach
  else if blob.chunkPosInBlob ≠ 0 then .ok reach
  else markChain objs sanFuel i reach

/-- The `is_reachable` array of sanitize pass 3: start all-false
(`[False] * object_count_in_store`) and mark every live head's chain. -/
def reachArray (count : Nat) (objs : List Obj) : Except SanFail (List Bool) :=
  (List.range objs.length).foldlM (reachStep objs) (List.replicate count false)

/-- One iteration of the sweep phase of pass 3. -/
def sweepStep (size : Nat) (reach : List Bool) (st : List Obj × List Bool)
    (i : Nat) : List Obj × List Bool :=
  if (st.1.getD i default).objectAge ≠ 0 ∧ ¬ (reach.getD i false) then
    (st.1.set i (resetObj size), st.2.set i true)
  else st

/-- Sanitize pass 3 — "Remove unreachable objects": compute the
reachability array, then reset every live record that is not marked. -/
def pass3 (count size : Nat) (objs : List Obj) (dirty : List Bool) :
    Except SanFail (List Obj × List Bool) := do
  let reach ← reachArray count objs
  return (List.range objs.length).foldl (sweepStep size reach) (objs, dirty)

/-- `Store.sanitize`: the three passes in sequence, each working on the
output of the previous one. -/
def sanitizeE (S : Store) : Except SanFail Store := do
  let (objs1, dirty1) ←
    pass1 S.geo.objectCountInStore S.geo.objectSizeInStore S.objects S.dirty
  let (objs2, dirty2) ← pass2 S.geo.objectSizeInStore objs1 dirty1
  let (objs3, dirty3) ←
    pass3 S.geo.objectCountInStore S.geo.objectSizeInStore objs2 dirty2
  return { S with objects := objs3, dirty := dirty3 }

/-! ### Payload capacity (`Store.get_payload_capacity`) -/

/-- `Store.get_payload_capacity` on the UTF-8 bytes of the name: empty
name asks for the body-chunk capacity, a name of 1..255 bytes for the
head-chunk capacity; longer names raise `StringTooLargeError` (`none`).
Capacities are Python ints and can be negative. -/
def getPayloadCapacity (objectSizeInStore : Nat) (name : List Nat) :
    Option Int :=
  let nameUtf8Len := name.length
  if nameUtf8Len = 0 then
    some ((objectSizeInStore : Int) - (BLOB_MODIFICATION_TIME_O : Nat))
  else if nameUtf8Len ≤ 255 then
    some ((objectSizeInStore : Int) - (BLOB_NAME_O : Nat) - nameUtf8Len)
  else none

/-! ### The blob engine (src/yb/orchestrator.py) -/

/-- How the embedded `store_blob` can fail.  `storeFull` is the caught
`StopIteration` (`store_blob` returns `False`); the others are uncaught
exceptions (`ValueError` / `StringTooLargeError` / `ClickException` /
`AssertionError`). -/
inductive SBErr where
  | valueError      -- the entry name-length check
  | loadError       -- Store.from_piv_device raised
  | sanitizeError (e : SanFail)
  | capacityError   -- StringTooLargeError from get_payload_capacity
  | storeFull       -- StopIteration caught: return False
  | constructError  -- ValueError from an Object constructor
  | syncError       -- AssertionError from Object.serialize during sync
deriving Repr, DecidableEq

/-- The free indices of the record array, in increasing order: the order
in which repeated `Store.get_free_object_index` calls hand out indices
(each call scans for the first record with age 0 and bumps its age to 1,
so later calls skip it; the bumped slots are all overwritten by
`commit_object` or abandoned with the in-memory store). -/
def freeIndexes (objs : List Obj) : List Nat :=
  (List.range objs.length).filter (fun i => (objs.getD i default).objectAge = 0)

/-- The chunk-allocation loop of `store_blob`: one unconditional
allocation for the head, then allocate while `pending_len > 0`,
subtracting the body capacity each time.  `none` is the `StopIteration`
path (`StoreFull`). -/
def allocBody (capacityBody : Int) (avail acc : List Nat) (pending : Int) :
    Option (List Nat) :=
  if pending ≤ 0 then some acc
  else
    match avail with
    | [] => none
    | i :: rest =>
      allocBody capacityBody rest (acc ++ [i]) (pending - capacityBody)

/-- The whole allocation phase of `store_blob`: allocate the head chunk
(the first free index), then body chunks until the accumulated capacity
covers the payload.  The result is the `indexes` list. -/
def allocIndexes (avail : List Nat) (payloadLen : Nat)
    (capacityHead capacityBody : Int) : Option (List Nat) :=
  match avail with
  | [] => none
  | i :: rest => allocBody capacityBody rest [i] ((payloadLen : Int) - capacityHead)

/-- `Object.__init__` for the live-record call shapes of the blob engine:
`none`-valued optional arguments are Python `None`.  Check order follows
the source; every `raise ValueError` is `none`.  A `blob_name` string is
represented by its UTF-8 bytes, so "is a `str` that `.encode('utf-8')`
accepts" becomes the `isValidUtf8` test. -/
def objectInit (g : Geometry) (objectAge : Nat)
    (chunkPosInBlob nextChunkIndexInStore : Option Nat)
    (blobModificationTime blobSize blobEncryptionKeySlot
      blobUnencryptedSize : Option Nat)
    (blobName : Option (List Nat)) (chunkPayload : Option (List Nat)) :
    Option Obj :=
  if ¬ GeometryWF g then none else
  if ¬ (objectAge < 256 ^ OBJECT_AGE_S) then none else
  if objectAge = 0 then
    some (.free (chunkPayload.getD (List.replicate
      (min (g.objectSizeInStore - CHUNK_POS_IN_BLOB_O) OBJECT_MAX_SIZE) 0)))
  else
  match chunkPosInBlob, nextChunkIndexInStore with
  | some pos, some nxt =>
    if ¬ (pos < 256 ^ CHUNK_POS_IN_BLOB_S) then none else
    if ¬ (nxt < 256 ^ NEXT_CHUNK_INDEX_IN_STORE_S) then none else
    match chunkPayload with
    | none => none
    | some p =>
      if pos ≠ 0 then
        let capacity : Int :=
          (g.objectSizeInStore : Int) - (BLOB_MODIFICATION_TIME_O : Nat)
        if (p.length : Int) > capacity then none else
        some (.body objectAge pos nxt (padRight p capacity.toNat))
      else
        match blobName, blobModificationTime, blobSize,
            blobEncryptionKeySlot, blobUnencryptedSize with
        | some nm, some mt, some bs, some eks, some us =>
          if ¬ (isValidUtf8 nm = true) then none else
          if ¬ (0 < nm.length ∧ nm.length < 256 ^ BLOB_NAME_UTF8_LEN_S)
            then none else
          let capacity : Int :=
            (g.objectSizeInStore : Int) - ((BLOB_NAME_O : Nat) + nm.length)
          if (p.length : Int) > capacity then none else
          if ¬ (mt < 256 ^ BLOB_MODIFICATION_TIME_S) then none else
          if ¬ (bs < 256 ^ BLOB_SIZE_S) then none else
          if ¬ (eks < 256 ^ BLOB_ENCRYPTION_KEY_SLOT_S) then none else
          if ¬ (us < 256 ^ BLOB_UNENCRYPTED_SIZE_S) then none else
          some (.head objectAge nxt mt bs eks us nm (padRight p capacity.toNat))
        | _, _, _, _, _ => none
  | _, _ => none

/-- `Store.commit_object`: raise `store_age` to the object's age, then
store it at its index (or append at the end; further out is a
`RuntimeError`, `none`).  `d` is the object's `is_dirty` bit (the
constructor default, `True`, for every blob-engine call). -/
def commitObject (S : Store) (i : Nat) (o : Obj) (d : Bool) : Option Store :=
  let age := max S.storeAge o.objectAge
  if i < S.objects.length then
    some ⟨S.geo, age, S.objects.set i o, S.dirty.set i d⟩
  else if i = S.objects.length then
    some ⟨S.geo, age, S.objects ++ [o], S.dirty ++ [d]⟩
  else none

/-- The chunk-building loop of `store_blob`: for each allocated index in
order, slice the payload (`payload[start:end]` with Python slice
semantics — `end` can be negative when a capacity is), construct the head
or body `Object` with age `store.store_age + 1` (`commit_object` bumps
`store_age`, so consecutive chunks get consecutive ages), and commit
it. -/
def buildChunks (payload : List Nat) (capacityHead capacityBody : Int)
    (mtime encSlot unencSize : Nat) (nm : List Nat) :
    Store → List Nat → Nat → Int → Except SBErr Store
  | S, [], _, _ => .ok S
  | S, i :: rest, pos, endAcc =>
    let nxt := rest.headD i
    let size := if pos = 0 then capacityHead else capacityBody
    let start := endAcc
    let endAcc' := start + size
    let chunk := pySlice payload start endAcc'
    let obj? :=
      if pos = 0 then
        objectInit S.geo (S.storeAge + 1) (some 0) (some nxt) (some mtime)
          (some payload.length) (some encSlot) (some unencSize) (some nm)
          (some chunk)
      else
        objectInit S.geo (S.storeAge + 1) (some pos) (some nxt) none none
          none none none (some chunk)
    match obj? with
    | none => .error .constructError
    | some obj =>
      match commitObject S i obj true with
      | none => .error .constructError
      | some S' =>
        buildChunks payload capacityHead capacityBody mtime encSlot
          unencSize nm S' rest (pos + 1) endAcc'

/-- `Store.sync`: the guard `assert yblob_magic == YBLOB_MAGIC`, then for
each record in increasing index order, if dirty, `write_object` its
serialization.  The result is the ordered list of `(index, bytes)` write
calls.  A failing `Object.serialize` assertion raises; no claim inspects
the partially-written device of that case, so the error carries no
writes. -/
def syncWrites (S : Store) : Except SBErr (List (Nat × List Nat)) :=
  if S.geo.yblobMagic ≠ YBLOB_MAGIC then .error .syncError else
  (List.range S.objects.length).foldlM (fun ws i =>
    if S.dirty.getD i false then
      match serializeO S.geo (S.objects.getD i default) with
      | none => .error .syncError
      | some bytes => .ok (ws ++ [(i, bytes)])
    else .ok ws) []

/-- Replaying `write_object` calls against the device vector
(`OBJECT_ID_ZERO + i` is modelled by the index `i`). -/
def applyWrites (dev : List (List Nat)) (ws : List (Nat × List Nat)) :
    List (List Nat) :=
  ws.foldl (fun d w => d.set w.1 w.2) dev

/-! ### Crypto envelope (src/yb/crypto.py) -/

/-- `PKCS7(128).padder()`: pad to a multiple of 16 bytes, always adding
between 1 and 16 bytes, each equal to the pad length. -/
def pkcs7Pad (data : List Nat) : List Nat :=
  let pad := 16 - data.length % 16
  data ++ List.replicate pad pad

/-- `Crypto.hybrid_encrypt`.  The ephemeral X9.62 public-key bytes and
the random IV are parameters (host randomness); the AES-256-CBC
encryption of the padded plaintext is a parameter standing for the
`cryptography` library's cipher (a length-preserving permutation of byte
strings).  The envelope is their concatenation
`ephemeral_pub_bytes + iv + encrypted_blob`. -/
def hybridEncrypt (ephemeralPubBytes iv : List Nat)
    (aesEncrypt : List Nat → List Nat) (blob : List Nat) : List Nat :=
  ephemeralPubBytes ++ iv ++ aesEncrypt (pkcs7Pad blob)

/-! ### `store_blob` (src/yb/orchestrator.py) -/

/-- `store_blob`, from the entry name check to `sync`, against a device
vector.  `encryptFn` stands for `Crypto.hybrid_encrypt(·, pubkey)`
(instantiated with `hybridEncrypt` where encryption is on), `mtime` for
`int(time.time())`.  The result carries the final in-memory store and the
ordered `write_object` calls of the sync. -/
def storeBlobCore (dev : List (List Nat)) (name payload0 : List Nat)
    (encrypted : Bool) (encryptFn : List Nat → List Nat) (mtime : Nat) :
    Except SBErr (Store × List (Nat × List Nat)) := do
  if name.length = 0 ∨ 255 < name.length then throw .valueError
  let some store0 := loadStore dev | throw .loadError
  let store ← match sanitizeE store0 with
    | .error e => throw (.sanitizeError e)
    | .ok s => pure s
  let blobUnencryptedSize := payload0.length
  let payload := if encrypted then encryptFn payload0 else payload0
  let some capacityHead := getPayloadCapacity store.geo.objectSizeInStore name
    | throw .capacityError
  let some capacityBody := getPayloadCapacity store.geo.objectSizeInStore []
    | throw .capacityError
  let some indexes := allocIndexes (freeIndexes store.objects)
      payload.length capacityHead capacityBody
    | throw .storeFull
  let encSlot := if encrypted then store.geo.storeEncryptionKeySlot else 0
  let store' ← buildChunks payload capacityHead capacityBody mtime encSlot
    blobUnencryptedSize name store indexes 0 0
  let writes ← syncWrites store'
  return (store', writes)

/-- The device contents after `store_blob`: the sync's writes on success,
the untouched device when the operation stopped before any write (the
`StoreFull` return and every error raised before `sync`). -/
def storeBlobDev (dev : List (List Nat)) (name payload0 : List Nat)
    (encrypted : Bool) (encryptFn : List Nat → List Nat) (mtime : Nat) :
    List (List Nat) :=
  match storeBlobCore dev name payload0 encrypted encryptFn mtime with
  | .ok (_, ws) => applyWrites dev ws
  | .error _ => dev

/-! ### `fetch_blob` (src/yb/orchestrator.py) -/

inductive FBErr where
  | valueError
  | loadError
  | sanitizeError (e : SanFail)
  | walkError      -- fuel artefact, unreachable after sanitize
  | noPin          -- RuntimeError: encrypted blob without a PIN
  | decryptError   -- Crypto.hybrid_decrypt raised
deriving Repr, DecidableEq

/-- The chunk-reassembly walk of `fetch_blob`: collect `chunk_payload`
along the chain until the self-pointer. -/
def fetchChunks (objs : List Obj) : Nat → Nat → Option (List (List Nat))
  | 0, _ => none
  | fuel + 1, i =>
    let obj := objs.getD i default
    if obj.nextChunkIndexInStore = i then some [obj.chunkPayload]
    else (fetchChunks objs fuel obj.nextChunkIndexInStore).map
      (obj.chunkPayload :: ·)

/-- `fetch_blob`: name check, load, sanitize, find the first record that
is a live head carrying the requested name, reassemble its chain,
truncate to `blob_size`, and (for encrypted blobs) decrypt via the
device — `decryptFn` stands for `Crypto.hybrid_decrypt`, whose ECDH runs
on the card.  `none` (Python) is the NotFound result. -/
def fetchBlobCore (dev : List (List Nat)) (name : List Nat)
    (pin : Bool) (decryptFn : List Nat → Option (List Nat)) :
    Except FBErr (Option (List Nat)) := do
  if name.length = 0 ∨ 255 < name.length then throw .valueError
  let some store0 := loadStore dev | throw .loadError
  let store ← match sanitizeE store0 with
    | .error e => throw (.sanitizeError e)
    | .ok s => pure s
  match (List.range store.objects.length).find? (fun i =>
      let obj := store.objects.getD i default
      decide (obj.objectAge ≠ 0 ∧ obj.chunkPosInBlob = 0 ∧
        obj.blobName = name)) with
  | none => return none
  | some i =>
    let blob := store.objects.getD i default
    let some chunks := fetchChunks store.objects sanFuel i
      | throw .walkError
    let payload := chunks.flatten.take blob.blobSize
    if blob.blobEncryptionKeySlot ≠ 0 then
      if ¬ pin then throw .noPin
      else
        match decryptFn payload with
        | none => throw .decryptError
        | some plaintext => return (some plaintext)
    else return (some payload)


/-! ### Walk specifications

`chainListF` is the pointer trajectory every sanitize / fetch walk
follows: the indices visited from a start record to the first
self-pointer.  The pass-1 walk, the pass-3 marking walk and the fetch
walk all traverse exactly this list. -/

def chainListF (objs : List Obj) : Nat → Nat → Option (List Nat)
  | 0, _ => none
  | fuel + 1, i =>
    let nxt := (objs.getD i default).nextChunkIndexInStore
    if nxt = i then some [i]
    else (chainListF objs fuel nxt).map (i :: ·)

/-- Position `i` holds a live blob head. -/
def AliveHeadAt (objs : List Obj) (i : Nat) : Prop :=
  i < objs.length ∧ (objs.getD i default).isAliveHead = true

/-- The pass-1 walk from head `i` accepts its chain. -/
def HeadOK (count : Nat) (objs : List Obj) (i : Nat) : Prop :=
  pass1Walk count objs sanFuel i (objs.getD i default).objectAge 0 = .ok true

/-- Every record age fits in 24 bits (true of every decoded record). -/
def AgeBounded (objs : List Obj) : Prop :=
  ∀ o ∈ objs, o.objectAge < 2 ^ 24

/-- No two live heads carry the same blob name. -/
def UniqueHeadNames (objs : List Obj) : Prop :=
  ∀ i j, AliveHeadAt objs i → AliveHeadAt objs j → i ≠ j →
    (objs.getD i default).blobName ≠ (objs.getD j default).blobName

/-- No three distinct live heads carry the same blob name. -/
def NoTripleName (objs : List Obj) : Prop :=
  ∀ i j k, AliveHeadAt objs i → AliveHeadAt objs j → AliveHeadAt objs k →
    i ≠ j → i ≠ k → j ≠ k →
    ¬((objs.getD i default).blobName = (objs.getD j default).blobName ∧
      (objs.getD j default).blobName = (objs.getD k default).blobName)

/-! ### Concrete scenario stores

Devices are given by the bytes of their records, produced by the codec,
so each scenario is a store the program itself could have been pointed
at. -/

/-- Record i is marked reachable by the pass-3 walk started at record h
(on an all-false array): "i is reachable by following
`next_chunk_index_in_store` links from h". -/
def reachesFromB (objs : List Obj) (count h i : Nat) : Bool :=
  match markChain objs sanFuel h (List.replicate count false) with
  | .ok r => r.getD i false
  | .error _ => false

def gEx2 : Geometry := ⟨YBLOB_MAGIC, 64, 2, 0x82⟩

def gEx3 : Geometry := ⟨YBLOB_MAGIC, 64, 3, 0x82⟩

/-- A freshly formatted free record (`object_size = 64`). -/
def freeRec (g : Geometry) : List Nat :=
  (serializeO g (.free (List.replicate 55 0))).getD []

/-- A freshly formatted 3-record store. -/
def devFresh3 : List (List Nat) := [freeRec gEx3, freeRec gEx3, freeRec gEx3]

/-- Two single-chunk heads that share the name "a" and the age 5. -/
def devDupEqAge : List (List Nat) :=
  [(serializeO gEx2 (.head 5 0 100 1 0 1 [97] (padRight [120] 40))).getD [],
   (serializeO gEx2 (.head 5 1 100 1 0 1 [97] (padRight [120] 40))).getD []]

/-- Heads "a"@0 and "b"@1, both of age 5, whose chains share the body
chunk at index 2 (age 6, position 1, self-pointing tail). -/
def devSharedTail : List (List Nat) :=
  [(serializeO gEx3 (.head 5 2 100 60 0 60 [97] (padRight [] 40))).getD [],
   (serializeO gEx3 (.head 5 2 100 60 0 60 [98] (padRight [] 40))).getD [],
   (serializeO gEx3 (.body 6 1 2 (padRight [] 53))).getD []]

/-- Three single-chunk heads named "a" with ages 5, 7, 6 in index
order. -/
def devTripleDup : List (List Nat) :=
  [(serializeO gEx3 (.head 5 0 100 1 0 1 [97] (padRight [120] 40))).getD [],
   (serializeO gEx3 (.head 7 1 100 1 0 1 [97] (padRight [121] 40))).getD [],
   (serializeO gEx3 (.head 6 2 100 1 0 1 [97] (padRight [122] 40))).getD []]

/-- A head record with `blob_size = 0`: accepted by `Object.__init__`
(which only requires `0 <= blob_size < 256**3`), rejected by the
`assert 0 < self.blob_size` in `Object.serialize`. -/
def recBlobSize0 : Obj := .head 1 0 0 0 0 0 [97] (List.replicate 40 0)

/-- 60 payload bytes: two chunks in a 64-byte-object store (head capacity
39 for a 2-byte name, body capacity 53). -/
def p60 : List Nat := List.replicate 60 7

/-- The store loaded from the freshly formatted 3-record device. -/
def storeFresh3 : Store := (loadStore devFresh3).getD ⟨gEx3, 0, [], []⟩

/-- `storeFresh3` after one sanitize run. -/
def storeFresh3San : Store :=
  ((sanitizeE storeFresh3).toOption).getD storeFresh3

/-- The store loaded from the shared-tail device. -/
def storeSharedTail : Store := (loadStore devSharedTail).getD ⟨gEx3, 0, [], []⟩

/-- `storeSharedTail` after one sanitize run. -/
def storeSharedTailSan : Store :=
  ((sanitizeE storeSharedTail).toOption).getD storeSharedTail

/-! ## Theorems -/

theorem toBytesLE_length (n v : Nat) : (toBytesLE n v).length = n := by
  induction n generalizing v with
  | zero => rfl
  | succ n ih => simp [toBytesLE, ih]

theorem toBytesLE_bytes (n v : Nat) : (toBytesLE n v).all (· < 256) = true := by
  induction n generalizing v with
  | zero => rfl
  | succ n ih =>
    simp only [toBytesLE, List.all_cons, Bool.and_eq_true, decide_eq_true_eq]
    exact ⟨Nat.mod_lt _ (by norm_num), ih _⟩

theorem fromBytesLE_toBytesLE (n v : Nat) (h : v < 256 ^ n) :
    fromBytesLE (toBytesLE n v) = v := by
  induction n generalizing v with
  | zero =>
    have : v = 0 := Nat.lt_one_iff.mp (by simpa using h)
    simp [toBytesLE, fromBytesLE, this]
  | succ n ih =>
    have hv : v / 256 < 256 ^ n := by
      rw [Nat.div_lt_iff_lt_mul (by norm_num)]
      calc v < 256 ^ (n + 1) := h
        _ = 256 ^ n * 256 := by ring
    simp only [toBytesLE, fromBytesLE, ih _ hv, Nat.mod_mod_of_dvd]
    have := Nat.div_add_mod v 256
    have h2 : v % 256 % 256 = v % 256 := Nat.mod_mod_of_dvd _ dvd_rfl
    omega

theorem fromBytesLE_bounds (bs : List Nat) : fromBytesLE bs < 256 ^ bs.length := by
  induction bs with
  | nil => simp [fromBytesLE]
  | cons b bs ih =>
    simp only [fromBytesLE, List.length_cons, pow_succ]
    have hb : b % 256 < 256 := Nat.mod_lt _ (by norm_num)
    calc b % 256 * 1 + 256 * fromBytesLE bs
        ≤ 255 + 256 * fromBytesLE bs := by omega
      _ < 256 * (fromBytesLE bs + 1) := by omega
      _ ≤ 256 * 256 ^ bs.length := by
          exact Nat.mul_le_mul_left _ (Nat.succ_le_of_lt ih)
      _ = 256 ^ bs.length * 256 := by ring

theorem padRight_length (bs : List Nat) (n : Nat) (h : bs.length ≤ n) :
    (padRight bs n).length = n := by
  simp [padRight]; omega

theorem padRight_eq_self (bs : List Nat) (n : Nat) (h : n ≤ bs.length) :
    padRight bs n = bs := by
  simp [padRight, Nat.sub_eq_zero_of_le h]

theorem bytesOk_iff (bs : List Nat) : bytesOk bs ↔ bs.all (· < 256) = true := by
  simp [bytesOk, List.all_eq_true]

theorem take_append_len {α : Type} (l₁ l₂ : List α) (n : Nat)
    (h : l₁.length = n) : (l₁ ++ l₂).take n = l₁ := by
  subst h; exact List.take_left l₁ l₂

theorem drop_append_len {α : Type} (l₁ l₂ : List α) (n : Nat)
    (h : l₁.length = n) : (l₁ ++ l₂).drop n = l₂ := by
  subst h; exact List.drop_left l₁ l₂

theorem read_field (s seg post : List Nat) (o k o2 : Nat)
    (h : s.drop o = seg ++ post) (hk : seg.length = k) (ho : o2 = o + k) :
    (s.drop o).take k = seg ∧ s.drop o2 = post := by
  constructor
  · rw [h]; exact take_append_len _ _ _ hk
  · subst ho
    calc s.drop (o + k) = (s.drop o).drop k := by
          rw [List.drop_drop, Nat.add_comm]
      _ = (seg ++ post).drop k := by rw [h]
      _ = post := drop_append_len _ _ _ hk

theorem serialize_roundtrip (g : Geometry) (o : Obj) (hg : GeometryWF g)
    (hwf : ObjWF g o) (hbs : o.isHead = true → o.blobSize ≠ 0) :
    ∃ s, serializeO g o = some s ∧ fromSerialization g s = some o := by
  obtain ⟨hgm, hgc, hgs⟩ := hg
  have hgm' : g.yblobMagic < 256 ^ 4 := by simpa using hgm
  have hgc' : g.objectCountInStore < 256 ^ 1 := by simpa using hgc
  have hgs' : g.storeEncryptionKeySlot < 256 ^ 1 := by simpa using hgs
  have egm := fromBytesLE_toBytesLE 4 g.yblobMagic hgm'
  have egc := fromBytesLE_toBytesLE 1 g.objectCountInStore hgc'
  have egs := fromBytesLE_toBytesLE 1 g.storeEncryptionKeySlot hgs'
  cases o with
  | free p =>
    have hp : p.all (· < 256) = true := (bytesOk_iff p).mp hwf
    refine ⟨toBytesLE 4 g.yblobMagic ++ (toBytesLE 1 g.objectCountInStore ++
      (toBytesLE 1 g.storeEncryptionKeySlot ++ (toBytesLE 3 0 ++ p))),
      ?_, ?_⟩
    · simp only [serializeO, Obj.objectAge, Obj.chunkPayload]
      rw [if_neg (not_not_intro ⟨⟨hgm, hgc, hgs⟩, by norm_num⟩)]
      simp [List.append_assoc]
    · set s : List Nat := toBytesLE 4 g.yblobMagic ++
        (toBytesLE 1 g.objectCountInStore ++
        (toBytesLE 1 g.storeEncryptionKeySlot ++ (toBytesLE 3 0 ++ p)))
        with hs
      have r0 : s.drop 0 = toBytesLE 4 g.yblobMagic ++
          (toBytesLE 1 g.objectCountInStore ++
          (toBytesLE 1 g.storeEncryptionKeySlot ++ (toBytesLE 3 0 ++ p))) := by
        rw [List.drop_zero]
      obtain ⟨t4, d4⟩ := read_field s _ _ 0 4 4 r0 (toBytesLE_length _ _)
        (by norm_num)
      obtain ⟨t5, d5⟩ := read_field s _ _ 4 1 5 d4 (toBytesLE_length _ _)
        (by norm_num)
      obtain ⟨t6, d6⟩ := read_field s _ _ 5 1 6 d5 (toBytesLE_length _ _)
        (by norm_num)
      obtain ⟨t9, d9⟩ := read_field s _ _ 6 3 9 d6 (toBytesLE_length _ _)
        (by norm_num)
      rw [List.drop_zero] at t4
      have hall : s.all (· < 256) = true := by
        rw [hs]; simp [List.all_append, toBytesLE_bytes, hp]
      have hlen : s.length = 9 + p.length := by
        rw [hs]; simp [toBytesLE_length]; omega
      have c1 : ¬ (s.length < 4) := by omega
      have c2 : ¬ (s.length < 4 + 1) := by omega
      have c3 : ¬ (s.length < 5 + 1) := by omega
      have c4 : ¬ (s.length < 6 + 3) := by omega
      have e0 := fromBytesLE_toBytesLE 3 0 (by norm_num)
      simp [fromSerialization, fromSerializationBody, fromSerializationHead, hall, c1, c2, c3, c4, t4, t5, t6, t9,
        egm, egc, egs, e0, d9]
  | body a pos nxt p =>
    obtain ⟨ha0, ha, hpos0, hpos, hnxt, hsz, hplen, hpb⟩ := hwf
    have hp : p.all (· < 256) = true := (bytesOk_iff p).mp hpb
    have ha' : a < 256 ^ 3 := by simpa using ha
    have hpos' : pos < 256 ^ 1 := by simpa using hpos
    have hnxt' : nxt < 256 ^ 1 := by simpa using hnxt
    have hsz' : 11 ≤ g.objectSizeInStore := by simpa using hsz
    have hplen' : p.length = g.objectSizeInStore - 11 := by simpa using hplen
    refine ⟨toBytesLE 4 g.yblobMagic ++ (toBytesLE 1 g.objectCountInStore ++
      (toBytesLE 1 g.storeEncryptionKeySlot ++ (toBytesLE 3 a ++
      (toBytesLE 1 pos ++ (toBytesLE 1 nxt ++ p))))), ?_, ?_⟩
    · simp only [serializeO, Obj.objectAge, Obj.chunkPayload]
      rw [if_neg (not_not_intro ⟨⟨hgm, hgc, hgs⟩, by simpa using ha⟩),
        if_neg (by omega)]
      rw [if_pos ⟨hpos, hnxt⟩]
      simp [List.append_assoc]
    · set s : List Nat := toBytesLE 4 g.yblobMagic ++
        (toBytesLE 1 g.objectCountInStore ++
        (toBytesLE 1 g.storeEncryptionKeySlot ++ (toBytesLE 3 a ++
        (toBytesLE 1 pos ++ (toBytesLE 1 nxt ++ p))))) with hs
      have r0 : s.drop 0 = toBytesLE 4 g.yblobMagic ++
          (toBytesLE 1 g.objectCountInStore ++
          (toBytesLE 1 g.storeEncryptionKeySlot ++ (toBytesLE 3 a ++
          (toBytesLE 1 pos ++ (toBytesLE 1 nxt ++ p))))) := by
        rw [List.drop_zero]
      obtain ⟨t4, d4⟩ := read_field s _ _ 0 4 4 r0 (toBytesLE_length _ _)
        (by norm_num)
      obtain ⟨t5, d5⟩ := read_field s _ _ 4 1 5 d4 (toBytesLE_length _ _)
        (by norm_num)
      obtain ⟨t6, d6⟩ := read_field s _ _ 5 1 6 d5 (toBytesLE_length _ _)
        (by norm_num)
      obtain ⟨t9, d9⟩ := read_field s _ _ 6 3 9 d6 (toBytesLE_length _ _)
        (by norm_num)
      obtain ⟨t10, d10⟩ := read_field s _ _ 9 1 10 d9 (toBytesLE_length _ _)
        (by norm_num)
      obtain ⟨t11, d11⟩ := read_field s _ _ 10 1 11 d10 (toBytesLE_length _ _)
        (by norm_num)
      rw [List.drop_zero] at t4
      have hall : s.all (· < 256) = true := by
        rw [hs]; simp [List.all_append, toBytesLE_bytes, hp]
      have hlen : s.length = 11 + p.length := by
        rw [hs]; simp [toBytesLE_length]; omega
      have c1 : ¬ (s.length < 4) := by omega
      have c2 : ¬ (s.length < 4 + 1) := by omega
      have c3 : ¬ (s.length < 5 + 1) := by omega
      have c4 : ¬ (s.length < 6 + 3) := by omega
      have c5 : ¬ (s.length < 9 + 1) := by omega
      have c6 : ¬ (s.length < 10 + 1) := by omega
      have ea := fromBytesLE_toBytesLE 3 a ha'
      have epos := fromBytesLE_toBytesLE 1 pos hpos'
      have enxt := fromBytesLE_toBytesLE 1 nxt hnxt'
      have hcap : ¬ ((p.length : Int) > (g.objectSizeInStore : Int) - 11) := by
        omega
      have hpad : padRight p ((g.objectSizeInStore : Int) - 11).toNat = p := by
        apply padRight_eq_self
        omega
      simp [fromSerialization, fromSerializationBody, fromSerializationHead, hall, c1, c2, c3, c4, c5, c6, t4, t5, t6,
        t9, t10, t11, egm, egc, egs, ea, epos, enxt, d11, ha0.ne',
        hpos0.ne', hcap, hpad]
  | head a nxt mt bs eks us nm p =>
    obtain ⟨ha0, ha, hnxt, hmt, hbsz, heks, hus, hnm0, hnm, hval, hnmb,
      hsz, hplen, hpb⟩ := hwf
    have hbs' : 0 < bs := Nat.pos_of_ne_zero (hbs rfl)
    have hp : p.all (· < 256) = true := (bytesOk_iff p).mp hpb
    have hnmb' : nm.all (· < 256) = true := (bytesOk_iff nm).mp hnmb
    have ha' : a < 256 ^ 3 := by simpa using ha
    have hnxt' : nxt < 256 ^ 1 := by simpa using hnxt
    have hmt' : mt < 256 ^ 4 := by simpa using hmt
    have hbsz' : bs < 256 ^ 3 := by simpa using hbsz
    have heks' : eks < 256 ^ 1 := by simpa using heks
    have hus' : us < 256 ^ 3 := by simpa using hus
    have hnm' : nm.length < 256 ^ 1 := by simpa using hnm
    have hsz' : 23 + nm.length ≤ g.objectSizeInStore := by simpa using hsz
    have hplen' : p.length = g.objectSizeInStore - (23 + nm.length) := by
      simpa using hplen
    refine ⟨toBytesLE 4 g.yblobMagic ++ (toBytesLE 1 g.objectCountInStore ++
      (toBytesLE 1 g.storeEncryptionKeySlot ++ (toBytesLE 3 a ++
      (toBytesLE 1 0 ++ (toBytesLE 1 nxt ++ (toBytesLE 4 mt ++
      (toBytesLE 3 bs ++ (toBytesLE 1 eks ++ (toBytesLE 3 us ++
      (toBytesLE 1 nm.length ++ (nm ++ p))))))))))), ?_, ?_⟩
    · simp only [serializeO, Obj.objectAge, Obj.chunkPayload]
      rw [if_neg (not_not_intro ⟨⟨hgm, hgc, hgs⟩, by simpa using ha⟩),
        if_neg (by omega)]
      rw [if_pos ⟨hnxt, hmt, hbs', hbsz, heks, hus, hnm0, hnm⟩]
      simp [List.append_assoc]
    · set s : List Nat := toBytesLE 4 g.yblobMagic ++
        (toBytesLE 1 g.objectCountInStore ++
        (toBytesLE 1 g.storeEncryptionKeySlot ++ (toBytesLE 3 a ++
        (toBytesLE 1 0 ++ (toBytesLE 1 nxt ++ (toBytesLE 4 mt ++
        (toBytesLE 3 bs ++ (toBytesLE 1 eks ++ (toBytesLE 3 us ++
        (toBytesLE 1 nm.length ++ (nm ++ p))))))))))) with hs
      have r0 : s.drop 0 = toBytesLE 4 g.yblobMagic ++
          (toBytesLE 1 g.objectCountInStore ++
          (toBytesLE 1 g.storeEncryptionKeySlot ++ (toBytesLE 3 a ++
          (toBytesLE 1 0 ++ (toBytesLE 1 nxt ++ (toBytesLE 4 mt ++
          (toBytesLE 3 bs ++ (toBytesLE 1 eks ++ (toBytesLE 3 us ++
          (toBytesLE 1 nm.length ++ (nm ++ p))))))))))) := by
        rw [List.drop_zero]
      obtain ⟨t4, d4⟩ := read_field s _ _ 0 4 4 r0 (toBytesLE_length _ _)
        (by norm_num)
      obtain ⟨t5, d5⟩ := read_field s _ _ 4 1 5 d4 (toBytesLE_length _ _)
        (by norm_num)
      obtain ⟨t6, d6⟩ := read_field s _ _ 5 1 6 d5 (toBytesLE_length _ _)
        (by norm_num)
      obtain ⟨t9, d9⟩ := read_field s _ _ 6 3 9 d6 (toBytesLE_length _ _)
        (by norm_num)
      obtain ⟨t10, d10⟩ := read_field s _ _ 9 1 10 d9 (toBytesLE_length _ _)
        (by norm_num)
      obtain ⟨t11, d11⟩ := read_field s _ _ 10 1 11 d10 (toBytesLE_length _ _)
        (by norm_num)
      obtain ⟨t15, d15⟩ := read_field s _ _ 11 4 15 d11 (toBytesLE_length _ _)
        (by norm_num)
      obtain ⟨t18, d18⟩ := read_field s _ _ 15 3 18 d15 (toBytesLE_length _ _)
        (by norm_num)
      obtain ⟨t19, d19⟩ := read_field s _ _ 18 1 19 d18 (toBytesLE_length _ _)
        (by norm_num)
      obtain ⟨t22, d22⟩ := read_field s _ _ 19 3 22 d19 (toBytesLE_length _ _)
        (by norm_num)
      obtain ⟨t23, d23⟩ := read_field s _ _ 22 1 23 d22 (toBytesLE_length _ _)
        (by norm_num)
      obtain ⟨tnm, dnm⟩ := read_field s nm p 23 nm.length (23 + nm.length)
        d23 rfl rfl
      rw [List.drop_zero] at t4
      have hall : s.all (· < 256) = true := by
        rw [hs]; simp [List.all_append, toBytesLE_bytes, hp, hnmb']
      have hlen : s.length = 23 + nm.length + p.length := by
        rw [hs]; simp [toBytesLE_length]; omega
      have c1 : ¬ (s.length < 4) := by omega
      have c2 : ¬ (s.length < 4 + 1) := by omega
      have c3 : ¬ (s.length < 5 + 1) := by omega
      have c4 : ¬ (s.length < 6 + 3) := by omega
      have c5 : ¬ (s.length < 9 + 1) := by omega
      have c6 : ¬ (s.length < 10 + 1) := by omega
      have c7 : ¬ (s.length < 11 + 4) := by omega
      have c8 : ¬ (s.length < 15 + 3) := by omega
      have c9 : ¬ (s.length < 18 + 1) := by omega
      have c10 : ¬ (s.length < 19 + 3) := by omega
      have c11 : ¬ (s.length < 22 + 1) := by omega
      have c12 : ¬ (s.length < 23 + nm.length) := by omega
      have ea := fromBytesLE_toBytesLE 3 a ha'
      have ez := fromBytesLE_toBytesLE 1 0 (by norm_num)
      have enxt := fromBytesLE_toBytesLE 1 nxt hnxt'
      have emt := fromBytesLE_toBytesLE 4 mt hmt'
      have ebs := fromBytesLE_toBytesLE 3 bs hbsz'
      have eeks := fromBytesLE_toBytesLE 1 eks heks'
      have eus := fromBytesLE_toBytesLE 3 us hus'
      have eL := fromBytesLE_toBytesLE 1 nm.length hnm'
      have hcap : ¬ ((p.length : Int) >
          (g.objectSizeInStore : Int) - (23 + nm.length)) := by omega
      have hpad : padRight p
          ((g.objectSizeInStore : Int) - (23 + nm.length)).toNat = p := by
        apply padRight_eq_self
        omega
      have hnm2 : nm.length < 256 := by simpa using hnm'
      simp [fromSerialization, fromSerializationBody, fromSerializationHead, hall, c1, c2, c3, c4, c5, c6, c7, c8, c9,
        c10, c11, c12, t4, t5, t6, t9, t10, t11, t15, t18, t19, t22, t23,
        tnm, dnm, egm, egc, egs, ea, ez, enxt, emt, ebs, eeks, eus, eL,
        ha0.ne', hnm0.ne', hval, hnm0, hnm2, hcap, hpad]


/-! ### Claims settled on concrete stores -/

/-- Claim C3 (code bug): `Store.sanitize` is claimed never to raise, but
on the loaded store `devDupEqAge` — two heads that share the name "a" and
the age 5, each a well-formed single-chunk blob accepted by
`Object.from_serialization` — pass 2 reaches
`assert blob.object_age != alt_blob.object_age` with equal ages and
raises `AssertionError`. -/
theorem sanitize_raises_on_equal_age_duplicate_heads :
    ∃ S, loadStore devDupEqAge = some S ∧
      sanitizeE S = .error .assertFail :=
  ⟨_, rfl, rfl⟩

/-- Claim C2, counterexample: after sanitize of the loaded store
`devSharedTail`, the body record at index 2 is live and reachable from
both surviving heads 0 ("a") and 1 ("b"): a non-free record reachable
from two distinct heads, refuting "reachable from exactly one head". -/
theorem sanitize_shared_tail_reachable_from_two_heads :
    ∃ S S', loadStore devSharedTail = some S ∧ sanitizeE S = .ok S' ∧
      (S'.objects.getD 0 default).isAliveHead = true ∧
      (S'.objects.getD 1 default).isAliveHead = true ∧
      (S'.objects.getD 2 default).objectAge ≠ 0 ∧
      reachesFromB S'.objects 3 0 2 = true ∧
      reachesFromB S'.objects 3 1 2 = true :=
  ⟨_, _, rfl, rfl, rfl, rfl, by decide, rfl, rfl⟩

/-- Claim C7, counterexample: sanitize is not idempotent.  On the loaded
store `devTripleDup` (three heads named "a" with ages 5, 7, 6), the first
sanitize resets only the age-5 head — the pass-2 dict keeps pointing at
the already-reset first head, so both the age-7 and the age-6 head
survive — and the second sanitize then resets the age-6 head. -/
theorem sanitize_not_idempotent_on_triple_duplicate :
    ∃ S S1 S2, loadStore devTripleDup = some S ∧ sanitizeE S = .ok S1 ∧
      sanitizeE S1 = .ok S2 ∧ S2.objects ≠ S1.objects :=
  ⟨_, _, _, rfl, rfl, rfl, by decide⟩

/-- Claim C1, counterexample: the empty payload `b''` satisfies the
claim's bound (0 bytes is at most the aggregate free capacity of the
fresh 3-record store), yet `store_blob("a", b"")` dies with an
`AssertionError` (`assert 0 < self.blob_size` in `Object.serialize`
during sync) and a subsequent `fetch_blob("a")` returns NotFound rather
than `b''`. -/
theorem store_empty_payload_raises_and_is_not_fetchable :
    storeBlobCore devFresh3 [97] [] false id 0 = .error .syncError ∧
      fetchBlobCore (storeBlobDev devFresh3 [97] [] false id 0) [97] false
        (fun _ => none) = .ok none :=
  ⟨rfl, rfl⟩

/-- Claim C4 (code bug): storing the two-chunk blob `("ab", 60 bytes)` on
a fresh 3-record store issues the head's `write_object` (index 0, the
record with `chunk_pos_in_blob = 0`) before the body chunk's (index 1):
`sync` walks records in increasing index order and
`get_free_object_index` gave the head the lowest free index, so the write
order is head first — not "tail first, head last". -/
theorem store_blob_writes_head_chunk_first :
    ∃ S' ws, storeBlobCore devFresh3 [97, 98] p60 false id 1000 =
        .ok (S', ws) ∧
      ws.map Prod.fst = [0, 1] ∧
      (S'.objects.getD 0 default).isAliveHead = true ∧
      (S'.objects.getD 1 default).chunkPosInBlob = 1 :=
  ⟨_, _, rfl, rfl, rfl, rfl⟩

/-- Claim C6, counterexample: `recBlobSize0` (a head with
`blob_size = 0`) is accepted by the `Object` constructor, but
`Object.serialize` raises on it, so encode-then-decode does not return
the original record — it does not even produce bytes. -/
theorem serialize_raises_on_zero_blob_size_head :
    ObjWF gEx3 recBlobSize0 ∧ serializeO gEx3 recBlobSize0 = none :=
  ⟨by decide, rfl⟩

/-! ### Claim C6 (amended) : codec round trip -/

/-- Claim C6 (amended): every record the `Object` constructor accepts —
free, body, or head — whose `blob_size` is nonzero when it is a head,
serializes, and decoding those bytes in the same store geometry returns a
record equal to the original in every field. -/
theorem record_codec_round_trip (g : Geometry) (o : Obj) (hg : GeometryWF g)
    (hwf : ObjWF g o) (hbs : o.isHead = true → o.blobSize ≠ 0) :
    ∃ s, serializeO g o = some s ∧ fromSerialization g s = some o :=
  serialize_roundtrip g o hg hwf hbs

theorem record_codec_round_trip_witness :
    ∃ s, serializeO gEx3 (Obj.body 2 1 2 (List.replicate 53 9)) = some s ∧
      fromSerialization gEx3 s = some (Obj.body 2 1 2 (List.replicate 53 9)) :=
  record_codec_round_trip gEx3 (Obj.body 2 1 2 (List.replicate 53 9))
    (by decide) (by decide) (by decide)

/-! ### Claim C8 : capacities and the one-or-two-record boundary -/

theorem allocBody_nil (cb : Int) (acc : List Nat) (pending : Int) :
    allocBody cb [] acc pending =
      if pending ≤ 0 then some acc else none := by
  rw [allocBody.eq_def]

theorem allocBody_done (cb : Int) (avail acc : List Nat) (pending : Int)
    (h : pending ≤ 0) : allocBody cb avail acc pending = some acc := by
  rw [allocBody.eq_def]
  exact if_pos h

theorem allocBody_cons (cb : Int) (i : Nat) (rest acc : List Nat)
    (pending : Int) :
    allocBody cb (i :: rest) acc pending =
      if pending ≤ 0 then some acc
      else allocBody cb rest (acc ++ [i]) (pending - cb) := by
  rw [allocBody.eq_def]

/-- Claim C8: `get_payload_capacity` returns `object_size − 11` for the
empty name and `object_size − 23 − L` for a name of `L` (1..255) UTF-8
bytes; consequently the allocation loop of `store_blob` takes exactly one
record for a payload of exactly the head capacity and exactly two records
for one byte more (given the name fits one record, i.e. the head capacity
is non-negative, and enough free records exist). -/
theorem payload_capacity_and_chunk_boundary (size : Nat) (nm : List Nat)
    (h1 : 1 ≤ nm.length) (h2 : nm.length ≤ 255) (hfit : 23 + nm.length ≤ size)
    (i j : Nat) (rest : List Nat) :
    getPayloadCapacity size [] = some ((size : Int) - 11) ∧
    getPayloadCapacity size nm = some ((size : Int) - 23 - nm.length) ∧
    allocIndexes (i :: rest) (size - (23 + nm.length))
      ((size : Int) - 23 - nm.length) ((size : Int) - 11) = some [i] ∧
    allocIndexes (i :: j :: rest) (size - (23 + nm.length) + 1)
      ((size : Int) - 23 - nm.length) ((size : Int) - 11) = some [i, j] := by
  refine ⟨by simp [getPayloadCapacity], ?_, ?_, ?_⟩
  · simp only [getPayloadCapacity]
    rw [if_neg (by omega), if_pos (by omega)]
    simp
  · simp only [allocIndexes]
    rw [allocBody_done _ _ _ _ (by omega)]
  · simp only [allocIndexes]
    rw [allocBody_cons, if_neg (by omega)]
    rw [allocBody_done _ _ _ _ (by omega)]
    simp

theorem payload_capacity_and_chunk_boundary_witness :
    getPayloadCapacity 64 [] = some ((64 : Int) - 11) ∧
    getPayloadCapacity 64 [97, 98] = some ((64 : Int) - 23 - 2) ∧
    allocIndexes [0, 2] (64 - (23 + 2)) ((64 : Int) - 23 - 2)
      ((64 : Int) - 11) = some [0] ∧
    allocIndexes [0, 1, 2] (64 - (23 + 2) + 1) ((64 : Int) - 23 - 2)
      ((64 : Int) - 11) = some [0, 1] :=
  payload_capacity_and_chunk_boundary 64 [97, 98] (by decide) (by decide)
    (by decide) 0 1 [2]

/-! ### Claim C5 : StoreFull leaves the device unchanged -/

theorem allocBody_insufficient (cb : Int) (hcb : 1 ≤ cb) :
    ∀ (avail acc : List Nat) (pending : Int),
      (avail.length : Int) * cb < pending →
      allocBody cb avail acc pending = none := by
  intro avail
  induction avail with
  | nil =>
    intro acc pending h
    rw [allocBody_nil, if_neg (by simp at h; omega)]
  | cons i rest ih =>
    intro acc pending h
    have hlen : ((i :: rest).length : Int) * cb =
        cb + (rest.length : Int) * cb := by
      simp [List.length_cons]
      ring
    have hrec : (rest.length : Int) * cb < pending - cb := by linarith
    have hpos : ¬ pending ≤ 0 := by
      have h0 : (0 : Int) ≤ ((i :: rest).length : Int) * cb :=
        mul_nonneg (by positivity) (by omega)
      linarith
    rw [allocBody_cons, if_neg hpos]
    exact ih _ _ hrec

/-- Evaluating `store_blob` past its load, sanitize and capacity steps. -/
theorem storeBlobCore_after_sanitize (dev : List (List Nat))
    (name payload0 : List Nat) (enc : Bool) (ef : List Nat → List Nat)
    (mt : Nat) (S S₀ : Store) (ch cb : Int)
    (h1 : ¬ (name.length = 0 ∨ 255 < name.length))
    (h2 : loadStore dev = some S) (h3 : sanitizeE S = .ok S₀)
    (h4 : getPayloadCapacity S₀.geo.objectSizeInStore name = some ch)
    (h5 : getPayloadCapacity S₀.geo.objectSizeInStore [] = some cb) :
    storeBlobCore dev name payload0 enc ef mt =
      match allocIndexes (freeIndexes S₀.objects)
          (if enc then ef payload0 else payload0).length ch cb with
      | none => .error .storeFull
      | some indexes => do
        let store' ← buildChunks (if enc then ef payload0 else payload0)
          ch cb mt (if enc then S₀.geo.storeEncryptionKeySlot else 0)
          payload0.length name S₀ indexes 0 0
        let writes ← syncWrites store'
        return (store', writes) := by
  have h1' : ¬ (name = [] ∨ 255 < name.length) := by simpa using h1
  simp [storeBlobCore, h1', h2, h3, h4, h5]
  cases allocIndexes (freeIndexes S₀.objects)
    (if enc then ef payload0 else payload0).length ch cb <;> rfl

/-- Claim C5: when the allocation loop of `store_blob` runs out of free
records — the payload length exceeds the head capacity plus body
capacities of the remaining free records — the operation returns the
`StoreFull` failure (`store_blob` returns `False`), makes no
`write_object` call, and leaves the device unchanged. -/
theorem store_full_makes_no_write_and_device_unchanged
    (dev : List (List Nat)) (name payload0 : List Nat) (enc : Bool)
    (ef : List Nat → List Nat) (mt : Nat) (S S₀ : Store) (ch cb : Int)
    (h1 : ¬ (name.length = 0 ∨ 255 < name.length))
    (h2 : loadStore dev = some S) (h3 : sanitizeE S = .ok S₀)
    (h4 : getPayloadCapacity S₀.geo.objectSizeInStore name = some ch)
    (h5 : getPayloadCapacity S₀.geo.objectSizeInStore [] = some cb)
    (hcb : 1 ≤ cb)
    (hins : ∀ i rest, freeIndexes S₀.objects = i :: rest →
      ch + (rest.length : Int) * cb <
        ((if enc then ef payload0 else payload0).length : Int)) :
    storeBlobCore dev name payload0 enc ef mt = .error .storeFull ∧
    storeBlobDev dev name payload0 enc ef mt = dev := by
  have halloc : allocIndexes (freeIndexes S₀.objects)
      (if enc then ef payload0 else payload0).length ch cb = none := by
    cases hf : freeIndexes S₀.objects with
    | nil => rfl
    | cons i rest =>
      simp only [allocIndexes]
      apply allocBody_insufficient cb hcb
      have := hins i rest hf
      linarith
  have hmain := storeBlobCore_after_sanitize dev name payload0 enc ef mt
    S S₀ ch cb h1 h2 h3 h4 h5
  rw [halloc] at hmain
  exact ⟨hmain, by simp [storeBlobDev, hmain]⟩

set_option maxRecDepth 100000 in
theorem store_full_makes_no_write_and_device_unchanged_witness :
    storeBlobCore devFresh3 [97] (List.replicate 147 7) false id 0 =
      .error .storeFull ∧
    storeBlobDev devFresh3 [97] (List.replicate 147 7) false id 0 =
      devFresh3 := by
  refine store_full_makes_no_write_and_device_unchanged devFresh3 [97]
    (List.replicate 147 7) false id 0 _ _ 40 53 (by decide) rfl rfl
    (by decide) (by decide) (by decide) ?_
  intro i rest hf
  have hc : (0 : Nat) = i ∧ ([1, 2] : List Nat) = rest := by
    have h12 : ([0, 1, 2] : List Nat) = i :: rest := by rw [← hf]; rfl
    simpa using h12
  obtain ⟨hi, hr⟩ := hc
  subst hi; subst hr
  decide

/-! ### Claim C9 : the hybrid-encryption envelope -/

theorem pkcs7Pad_length (data : List Nat) :
    (pkcs7Pad data).length = 16 * (data.length / 16 + 1) := by
  simp only [pkcs7Pad, List.length_append, List.length_replicate]
  omega

theorem hybridEncrypt_length (eph iv : List Nat)
    (aes : List Nat → List Nat) (P : List Nat)
    (he : eph.length = 65) (hi : iv.length = 16)
    (ha : ∀ x, (aes x).length = x.length) :
    (hybridEncrypt eph iv aes P).length = 65 + 16 + 16 * (P.length / 16 + 1) := by
  simp [hybridEncrypt, he, hi, ha, pkcs7Pad_length]
  omega

/-! ### Generic fold and list helpers -/

theorem foldlM_except_nil {σ α ε : Type} (f : σ → α → Except ε σ) (s : σ) :
    List.foldlM f s [] = .ok s := rfl

theorem foldlM_except_cons {σ α ε : Type} (f : σ → α → Except ε σ) (s : σ)
    (a : α) (l : List α) :
    List.foldlM f s (a :: l) = (f s a).bind (fun s' => List.foldlM f s' l) := by
  show (f s a >>= fun s' => List.foldlM f s' l) =
    (f s a).bind (fun s' => List.foldlM f s' l)
  cases f s a <;> rfl

/-- Induction principle for an `Except`-valued fold: an invariant over the
state and the not-yet-processed suffix. -/
theorem foldlM_rest_invariant {σ α ε : Type} (f : σ → α → Except ε σ)
    (Q : σ → List α → Prop) :
    ∀ (l : List α) (s : σ), Q s l →
      (∀ s' a rest', Q s' (a :: rest') → ∀ s'', f s' a = .ok s'' → Q s'' rest') →
      ∀ out, List.foldlM f s l = .ok out → Q out [] := by
  intro l
  induction l with
  | nil =>
    intro s hq _ out hout
    rw [foldlM_except_nil] at hout
    cases hout
    exact hq
  | cons a l ih =>
    intro s hq hstep out hout
    rw [foldlM_except_cons] at hout
    cases hf : f s a with
    | error e => rw [hf] at hout; exact absurd hout (by simp [Except.bind])
    | ok s'' =>
      rw [hf] at hout
      simp only [Except.bind] at hout
      exact ih s'' (hstep s a l hq s'' hf) hstep out hout

theorem getD_set_self {α : Type} (l : List α) (i : Nat) (v d : α)
    (h : i < l.length) : (l.set i v).getD i d = v := by
  rw [List.getD_eq_getElem _ _ (by simpa using h)]
  simp [List.getElem_set, h]

theorem getD_set_ne {α : Type} (l : List α) (i j : Nat) (v d : α)
    (h : i ≠ j) : (l.set i v).getD j d = l.getD j d := by
  by_cases hj : j < l.length
  · rw [List.getD_eq_getElem _ _ (by simpa using hj),
      List.getD_eq_getElem _ _ hj]
    simp [List.getElem_set, h]
  · rw [List.getD_eq_default _ _ (by simpa using Nat.le_of_not_lt hj),
      List.getD_eq_default _ _ (Nat.le_of_not_lt hj)]

theorem getD_mem {α : Type} (l : List α) (j : Nat) (d : α)
    (h : j < l.length) : l.getD j d ∈ l := by
  rw [List.getD_eq_getElem _ _ h]
  exact List.getElem_mem h

/-! ### Chain-walk lemmas -/

theorem pass1Walk_fuel (count : Nat) (objs : List Obj)
    (hb : AgeBounded objs) :
    ∀ (fuel age i pos : Nat), age < 2 ^ 24 → 2 ^ 24 - age ≤ fuel →
      ∃ b, pass1Walk count objs fuel i age pos = .ok b := by
  intro fuel
  induction fuel with
  | zero => intro age i pos ha hf; omega
  | succ fuel ih =>
    intro age i pos ha hf
    simp only [pass1Walk]
    split
    · exact ⟨true, rfl⟩
    · split
      · exact ⟨false, rfl⟩
      · split
        · rename_i hnr hrange hguard
          by_cases hnl :
            (objs.getD i default).nextChunkIndexInStore < objs.length
          · have hmem := getD_mem objs
              (objs.getD i default).nextChunkIndexInStore default hnl
            have hage' := hb _ hmem
            rw [hguard.1] at hage'
            exact ih (age + 1) _ (pos + 1) hage' (by omega)
          · exfalso
            have hdd : objs.getD
                (objs.getD i default).nextChunkIndexInStore default =
                default := by
              rw [List.getD_eq_default]
              simpa using Nat.le_of_not_lt hnl
            have hd0 : (default : Obj).objectAge = 0 := rfl
            rw [hdd, hd0] at hguard
            exact absurd hguard.1 (by omega)
        · exact ⟨false, rfl⟩

theorem chainListF_head (objs : List Obj) :
    ∀ fuel i p, chainListF objs fuel i = some p → p.head? = some i := by
  intro fuel
  cases fuel with
  | zero => intro i p h; exact absurd h (by simp [chainListF])
  | succ fuel =>
    intro i p h
    simp only [chainListF] at h
    split at h
    · cases h; rfl
    · cases hc : chainListF objs fuel
          ((objs.getD i default).nextChunkIndexInStore) with
      | none => rw [hc] at h; exact absurd h (by simp)
      | some p' => rw [hc] at h; cases h; rfl

theorem pass1Walk_path (count : Nat) (objs : List Obj) :
    ∀ fuel i age pos, pass1Walk count objs fuel i age pos = .ok true →
      ∃ p, chainListF objs fuel i = some p ∧ p.head? = some i ∧
        ∀ j ∈ p.tail, j < count ∧ (objs.getD j default).objectAge ≠ 0 ∧
          (objs.getD j default).chunkPosInBlob ≠ 0 := by
  intro fuel
  induction fuel with
  | zero => intro i age pos h; exact absurd h (by simp [pass1Walk])
  | succ fuel ih =>
    intro i age pos h
    simp only [pass1Walk] at h
    split at h
    · rename_i hni
      refine ⟨[i], ?_, rfl, by simp⟩
      simp only [chainListF]
      rw [if_pos hni]
    · rename_i hni
      split at h
      · exact absurd h (by simp)
      · split at h
        · rename_i hrange hguard
          obtain ⟨p', hc', hh', ht'⟩ := ih _ _ _ h
          refine ⟨i :: p', ?_, rfl, ?_⟩
          · simp only [chainListF]
            rw [if_neg hni, hc']
            rfl
          intro j hj
          simp only [List.tail_cons] at hj
          rcases p' with _ | ⟨q, p''⟩
          · simp at hj
          · have hq : q = (objs.getD i default).nextChunkIndexInStore := by
              simpa using hh'
            rcases List.mem_cons.mp hj with hj | hj
            · subst hj
              rw [hq]
              refine ⟨by simpa using hrange, ?_, ?_⟩
              · rw [hguard.1]; omega
              · rw [hguard.2]; omega
            · exact ht' j hj
        · exact absurd h (by simp)

theorem chainWalk_congr (count : Nat) (objs objs' : List Obj) :
    ∀ fuel i age pos p, pass1Walk count objs fuel i age pos = .ok true →
      chainListF objs fuel i = some p →
      (∀ j ∈ p, objs'.getD j default = objs.getD j default) →
      pass1Walk count objs' fuel i age pos = .ok true ∧
        chainListF objs' fuel i = some p := by
  intro fuel
  induction fuel with
  | zero => intro i age pos p h; exact absurd h (by simp [pass1Walk])
  | succ fuel ih =>
    intro i age pos p h hc hag
    have hci : p.head? = some i := chainListF_head objs _ _ _ hc
    have hip : i ∈ p := by
      cases p with
      | nil => simp at hci
      | cons q p' => simp at hci; simp [hci]
    have hagi := hag i hip
    simp only [pass1Walk] at h
    simp only [chainListF] at hc
    split at h
    · rename_i hni
      rw [if_pos hni] at hc
      cases hc
      constructor
      · simp only [pass1Walk, hagi]
        rw [if_pos hni]
      · simp only [chainListF, hagi]
        rw [if_pos hni]
    · rename_i hni
      split at h
      · exact absurd h (by simp)
      · split at h
        · rename_i hrange hguard
          rw [if_neg hni] at hc
          cases hcc : chainListF objs fuel
              ((objs.getD i default).nextChunkIndexInStore) with
          | none => rw [hcc] at hc; exact absurd hc (by simp)
          | some p' =>
            rw [hcc] at hc
            cases hc
            have hnp : (objs.getD i default).nextChunkIndexInStore ∈
                (objs.getD i default).nextChunkIndexInStore :: p' := by simp
            have hsub : ∀ j ∈ p', objs'.getD j default = objs.getD j default := by
              intro j hj
              exact hag j (by simp [hj])
            obtain ⟨hw', hc'⟩ := ih _ _ _ p' h hcc hsub
            have hnxt' : objs'.getD
                ((objs.getD i default).nextChunkIndexInStore) default =
                objs.getD ((objs.getD i default).nextChunkIndexInStore)
                  default := by
              apply hag
              have := chainListF_head objs _ _ _ hcc
              cases p' with
              | nil => simp at this
              | cons q p'' =>
                simp at this
                simp [this]
            constructor
            · simp only [pass1Walk, hagi]
              rw [if_neg hni, if_neg (by simpa using hrange)]
              simp only [hnxt']
              rw [if_pos hguard]
              exact hw'
            · simp only [chainListF, hagi]
              rw [if_neg hni, hc']
              rfl
        · exact absurd h (by simp)

theorem markChain_of_chainList (objs : List Obj) :
    ∀ fuel i p (r : List Bool), chainListF objs fuel i = some p →
      (∀ j ∈ p, j < r.length) →
      ∃ r', markChain objs fuel i r = .ok r' ∧ r'.length = r.length ∧
        ∀ j, r'.getD j false = (r.getD j false || decide (j ∈ p)) := by
  intro fuel
  induction fuel with
  | zero => intro i p r h; exact absurd h (by simp [chainListF])
  | succ fuel ih =>
    intro i p r hc hbound
    simp only [chainListF] at hc
    split at hc
    · rename_i hni
      cases hc
      refine ⟨r.set i true, ?_, by simp, ?_⟩
      · simp only [markChain]
        rw [if_pos hni]
      intro j
      by_cases hij : i = j
      · subst hij
        rw [getD_set_self _ _ _ _ (hbound i (by simp))]
        simp
      · rw [getD_set_ne _ _ _ _ _ hij]
        simp [Ne.symm hij]
    · rename_i hni
      cases hcc : chainListF objs fuel
          ((objs.getD i default).nextChunkIndexInStore) with
      | none => rw [hcc] at hc; exact absurd hc (by simp)
      | some p' =>
        rw [hcc] at hc
        cases hc
        have hbound' : ∀ j ∈ p', j < (r.set i true).length := by
          intro j hj
          simpa using hbound j (by simp [hj])
        obtain ⟨r', hm', hl', hg'⟩ := ih _ p' (r.set i true) hcc hbound'
        refine ⟨r', ?_, by simpa using hl', ?_⟩
        · simp only [markChain]
          rw [if_neg hni]
          exact hm' 
        · intro j
          rw [hg' j]
          by_cases hij : i = j
          · subst hij
            rw [getD_set_self _ _ _ _ (hbound i (by simp))]
            simp
          · rw [getD_set_ne _ _ _ _ _ hij]
            simp [Ne.symm hij]

theorem fetchChunks_of_chainList (objs : List Obj) :
    ∀ fuel i p, chainListF objs fuel i = some p →
      fetchChunks objs fuel i =
        some (p.map (fun j => (objs.getD j default).chunkPayload)) := by
  intro fuel
  induction fuel with
  | zero => intro i p h; exact absurd h (by simp [chainListF])
  | succ fuel ih =>
    intro i p hc
    simp only [chainListF] at hc
    split at hc
    · rename_i hni
      cases hc
      simp only [fetchChunks]
      rw [if_pos hni]
      rfl
    · rename_i hni
      cases hcc : chainListF objs fuel
          ((objs.getD i default).nextChunkIndexInStore) with
      | none => rw [hcc] at hc; exact absurd hc (by simp)
      | some p' =>
        rw [hcc] at hc
        cases hc
        simp only [fetchChunks]
        rw [if_neg hni, ih _ _ hcc]
        rfl

/-! ### Pass-level lemmas for the sanitizer -/

theorem resetObj_isAliveHead (n : Nat) : (resetObj n).isAliveHead = false := rfl

theorem headMem_cases {α : Type} (p : List α) (i : α) (h : p.head? = some i) :
    ∀ j ∈ p, j = i ∨ j ∈ p.tail := by
  cases p with
  | nil => simp at h
  | cons q t =>
    simp only [List.head?_cons, Option.some.injEq] at h
    subst h
    intro j hj
    simpa using hj

/-- An accepted head walk survives any modification of the store that
leaves the records on its chain untouched, and the chain itself is
unchanged. -/
theorem headOK_transfer (count : Nat) (objsA objsB : List Obj) (i : Nat)
    (hOK : HeadOK count objsA i)
    (hagree : ∀ p, chainListF objsA sanFuel i = some p →
      ∀ j ∈ p, objsB.getD j default = objsA.getD j default) :
    HeadOK count objsB i ∧
      chainListF objsB sanFuel i = chainListF objsA sanFuel i := by
  obtain ⟨p, hc, hh, ht⟩ := pass1Walk_path count objsA sanFuel i _ 0 hOK
  have hag := hagree p hc
  obtain ⟨hw, hc'⟩ := chainWalk_congr count objsA objsB sanFuel i _ 0 p hOK hc hag
  have hip : i ∈ p := by
    cases p with
    | nil => simp at hh
    | cons q t =>
      simp only [List.head?_cons, Option.some.injEq] at hh
      simp [hh]
  have hieq := hag i hip
  constructor
  · show pass1Walk count objsB sanFuel i
      ((objsB.getD i default).objectAge) 0 = .ok true
    rw [hieq]
    exact hw
  · rw [hc', hc]

/-- Case analysis of one pass-1 iteration: either the state is unchanged
(dead record, non-head, or accepted walk), or the record is a live head
whose walk rejected and it is reset and marked dirty. -/
theorem pass1Step_cases (count size : Nat) (st st' : List Obj × List Bool)
    (i : Nat) (h : pass1Step count size st i = .ok st') :
    (st' = st ∧
      ((st.1.getD i default).objectAge = 0 ∨
        (st.1.getD i default).chunkPosInBlob ≠ 0 ∨
        pass1Walk count st.1 sanFuel i (st.1.getD i default).objectAge 0 =
          .ok true)) ∨
    ((st.1.getD i default).isAliveHead = true ∧
      pass1Walk count st.1 sanFuel i (st.1.getD i default).objectAge 0 =
        .ok false ∧
      st' = (st.1.set i (resetObj size), st.2.set i true)) := by
  simp only [pass1Step] at h
  split at h
  · rename_i h0
    cases h
    exact .inl ⟨rfl, .inl h0⟩
  · rename_i h0
    split at h
    · rename_i hp
      cases h
      exact .inl ⟨rfl, .inr (.inl hp)⟩
    · rename_i hp
      split at h
      · exact absurd h (by simp)
      · rename_i hw
        cases h
        exact .inl ⟨rfl, .inr (.inr hw)⟩
      · rename_i hw
        cases h
        refine .inr ⟨?_, hw, rfl⟩
        simp only [Obj.isAliveHead, Bool.and_eq_true, decide_eq_true_eq]
        exact ⟨by simpa using h0, by simpa using hp⟩

/-- What sanitize pass 1 does: lengths are preserved; every record is
either untouched or was a live head that got reset and marked dirty;
records left clean are untouched; and in the output every live head has
an accepted walk. -/
theorem pass1_spec (count size : Nat) (objs0 : List Obj) (d0 : List Bool)
    (hd : d0.length = objs0.length)
    (objs1 : List Obj) (d1 : List Bool)
    (h : pass1 count size objs0 d0 = .ok (objs1, d1)) :
    objs1.length = objs0.length ∧ d1.length = d0.length ∧
    (∀ j, objs1.getD j default = objs0.getD j default ∨
      ((objs0.getD j default).isAliveHead = true ∧
        objs1.getD j default = resetObj size ∧ d1.getD j false = true)) ∧
    (∀ j, d1.getD j false = false →
      objs1.getD j default = objs0.getD j default ∧ d0.getD j false = false) ∧
    (∀ i, AliveHeadAt objs1 i → HeadOK count objs1 i) := by
  have main := foldlM_rest_invariant (pass1Step count size)
    (fun st rest =>
      (∀ j ∈ rest, j < objs0.length) ∧
      st.1.length = objs0.length ∧ st.2.length = d0.length ∧
      (∀ j, st.1.getD j default = objs0.getD j default ∨
        ((objs0.getD j default).isAliveHead = true ∧
          st.1.getD j default = resetObj size ∧ st.2.getD j false = true)) ∧
      (∀ j, st.2.getD j false = false →
        st.1.getD j default = objs0.getD j default ∧
          d0.getD j false = false) ∧
      (∀ i, AliveHeadAt st.1 i → i ∈ rest ∨ HeadOK count st.1 i))
    (List.range objs0.length) (objs0, d0)
    ⟨fun j hj => by simpa using hj, rfl, rfl, fun j => .inl rfl,
      fun j hj => ⟨rfl, hj⟩, fun i hi => .inl (by simpa using hi.1)⟩
    ?step (objs1, d1) h
  case step =>
    intro st a rest' hQ s2 hstep
    obtain ⟨q0, q1, q2, q3, q4, q5⟩ := hQ
    have halt : a < objs0.length := q0 a (by simp)
    rcases pass1Step_cases count size st s2 a hstep with
      ⟨heq, hwhy⟩ | ⟨halive, hwalkF, heq⟩
    · rw [heq]
      refine ⟨fun j hj => q0 j (by simp [hj]), q1, q2, q3, q4,
        fun i hi => ?_⟩
      rcases q5 i hi with hmem | hok
      · rcases List.mem_cons.mp hmem with rfl | hmem'
        · have hal : ¬ (st.1.getD i default).objectAge = 0 ∧
              (st.1.getD i default).chunkPosInBlob = 0 := by
            have := hi.2
            simp only [Obj.isAliveHead, Bool.and_eq_true,
              decide_eq_true_eq] at this
            exact this
          rcases hwhy with h0 | hp | hw
          · exact absurd h0 hal.1
          · exact absurd hal.2 hp
          · exact .inr hw
        · exact .inl hmem'
      · exact .inr hok
    · subst heq
      have haoblt : a < st.1.length := q1 ▸ halt
      have hadlt : a < st.2.length := by omega
      have hposa : (st.1.getD a default).chunkPosInBlob = 0 := by
        have := halive
        simp only [Obj.isAliveHead, Bool.and_eq_true,
          decide_eq_true_eq] at this
        exact this.2
      refine ⟨fun j hj => q0 j (by simp [hj]), by simpa using q1,
        by simpa using q2, ?_, ?_, ?_⟩
      · intro j
        by_cases hja : j = a
        · subst hja
          refine .inr ⟨?_, getD_set_self _ _ _ _ haoblt,
            getD_set_self _ _ _ _ hadlt⟩
          rcases q3 j with hsame | ⟨hal0, _, _⟩
          · rw [hsame] at halive
            exact halive
          · exact hal0
        · show (st.1.set a (resetObj size)).getD j default = _ ∨ _
          rw [getD_set_ne _ _ _ _ _ (fun he => hja he.symm)]
          rcases q3 j with hsame | ⟨hal0, hr, hdj⟩
          · exact .inl hsame
          · refine .inr ⟨hal0, hr, ?_⟩
            show (st.2.set a true).getD j false = true
            rw [getD_set_ne _ _ _ _ _ (fun he => hja he.symm)]
            exact hdj
      · intro j hj
        by_cases hja : j = a
        · subst hja
          rw [show ((st.1.set j (resetObj size), st.2.set j true)).2
              = st.2.set j true from rfl,
            getD_set_self _ _ _ _ hadlt] at hj
          exact absurd hj (by simp)
        · rw [show ((st.1.set a (resetObj size), st.2.set a true)).2
              = st.2.set a true from rfl,
            getD_set_ne _ _ _ _ _ (fun he => hja he.symm)] at hj
          show (st.1.set a (resetObj size)).getD j default = _ ∧ _
          rw [getD_set_ne _ _ _ _ _ (fun he => hja he.symm)]
          exact q4 j hj
      · intro i hi
        have hilt : i < st.1.length := by simpa using hi.1
        have hia : i ≠ a := by
          intro he
          subst he
          have := hi.2
          rw [show ((st.1.set i (resetObj size), st.2.set i true)).1
              = st.1.set i (resetObj size) from rfl,
            getD_set_self _ _ _ _ hilt, resetObj_isAliveHead] at this
          exact absurd this (by simp)
        have higet : (st.1.set a (resetObj size)).getD i default =
            st.1.getD i default :=
          getD_set_ne _ _ _ _ _ (fun he => hia he.symm)
        have hialive : AliveHeadAt st.1 i := by
          refine ⟨hilt, ?_⟩
          have := hi.2
          rwa [show ((st.1.set a (resetObj size), st.2.set a true)).1
              = st.1.set a (resetObj size) from rfl, higet] at this
        rcases q5 i hialive with hmem | hok
        · rcases List.mem_cons.mp hmem with rfl | hmem'
          · exact absurd rfl hia
          · exact .inl hmem'
        · refine .inr (headOK_transfer count st.1 _ i hok ?_).1
          intro p hp j hj
          obtain ⟨p0, hc0, hh0, ht0⟩ :=
            pass1Walk_path count st.1 sanFuel i _ 0 hok
          rw [hp] at hc0
          injection hc0 with hc0
          subst hc0
          rcases headMem_cases p i hh0 j hj with rfl | hjt
          · exact higet
          · have hjprop := ht0 j hjt
            have hja : j ≠ a := by
              intro he
              subst he
              exact absurd hposa hjprop.2.2
            exact getD_set_ne _ _ _ _ _ (fun he => hja he.symm)
  obtain ⟨_, h1, h2, h3, h4, h5⟩ := main
  refine ⟨h1, h2, h3, h4, fun i hi => ?_⟩
  rcases h5 i hi with hmem | hok
  · simp at hmem
  · exact hok

/-! ### Decoded stores are well formed -/

theorem fromSerializationBody_age (g : Geometry) (a pos nxt : Nat)
    (s : List Nat) (o : Obj)
    (h : fromSerializationBody g a pos nxt s = some o) :
    o.objectAge = a := by
  simp only [fromSerializationBody] at h
  split at h
  · exact Option.noConfusion h
  · injection h with h; subst h; rfl

theorem fromSerializationHead_age (g : Geometry) (a nxt : Nat)
    (s : List Nat) (o : Obj) (h : fromSerializationHead g a nxt s = some o) :
    o.objectAge = a := by
  simp only [fromSerializationHead] at h
  generalize hL : fromBytesLE ((s.drop BLOB_NAME_UTF8_LEN_O).take
    BLOB_NAME_UTF8_LEN_S) = L at h
  generalize hNM : (if L = 0 then s.drop BLOB_NAME_O
    else (s.drop BLOB_NAME_O).take L) = NM at h
  generalize hPL : (if L = 0 then ([] : List Nat)
    else s.drop (BLOB_NAME_O + L)) = PL at h
  repeat' split at h
  all_goals first
    | exact Option.noConfusion h
    | (injection h with h; subst h; rfl)

theorem fromSerialization_age_lt (g : Geometry) (s : List Nat) (o : Obj)
    (h : fromSerialization g s = some o) : o.objectAge < 2 ^ 24 := by
  have hbound : fromBytesLE ((s.drop OBJECT_AGE_O).take OBJECT_AGE_S)
      < 2 ^ 24 := by
    have h1 := fromBytesLE_bounds ((s.drop OBJECT_AGE_O).take OBJECT_AGE_S)
    have h2 : ((s.drop OBJECT_AGE_O).take OBJECT_AGE_S).length ≤ 3 := by
      simp [List.length_take]
    calc fromBytesLE ((s.drop OBJECT_AGE_O).take OBJECT_AGE_S)
        < 256 ^ ((s.drop OBJECT_AGE_O).take OBJECT_AGE_S).length := h1
      _ ≤ 256 ^ 3 := Nat.pow_le_pow_right (by norm_num) h2
      _ = 2 ^ 24 := by norm_num
  simp only [fromSerialization] at h
  by_cases c1 : ¬ (s.all (· < 256) = true)
  · rw [if_pos c1] at h; exact Option.noConfusion h
  rw [if_neg c1] at h
  by_cases c2 : s.length < YBLOB_MAGIC_S
  · rw [if_pos c2] at h; exact Option.noConfusion h
  rw [if_neg c2] at h
  by_cases c3 : fromBytesLE (s.take YBLOB_MAGIC_S) ≠ g.yblobMagic
  · rw [if_pos c3] at h; exact Option.noConfusion h
  rw [if_neg c3] at h
  by_cases c4 : s.length < OBJECT_COUNT_IN_STORE_O + OBJECT_COUNT_IN_STORE_S
  · rw [if_pos c4] at h; exact Option.noConfusion h
  rw [if_neg c4] at h
  by_cases c5 : fromBytesLE
      ((s.drop OBJECT_COUNT_IN_STORE_O).take OBJECT_COUNT_IN_STORE_S)
      ≠ g.objectCountInStore
  · rw [if_pos c5] at h; exact Option.noConfusion h
  rw [if_neg c5] at h
  by_cases c6 : s.length <
      STORE_ENCRYPTION_KEY_SLOT_O + STORE_ENCRYPTION_KEY_SLOT_S
  · rw [if_pos c6] at h; exact Option.noConfusion h
  rw [if_neg c6] at h
  by_cases c7 : fromBytesLE
      ((s.drop STORE_ENCRYPTION_KEY_SLOT_O).take STORE_ENCRYPTION_KEY_SLOT_S)
      ≠ g.storeEncryptionKeySlot
  · rw [if_pos c7] at h; exact Option.noConfusion h
  rw [if_neg c7] at h
  by_cases c8 : s.length < OBJECT_AGE_O + OBJECT_AGE_S
  · rw [if_pos c8] at h; exact Option.noConfusion h
  rw [if_neg c8] at h
  by_cases c9 : fromBytesLE ((s.drop OBJECT_AGE_O).take OBJECT_AGE_S) = 0
  · rw [if_pos c9] at h
    injection h with h
    subst h
    norm_num [Obj.objectAge]
  rw [if_neg c9] at h
  by_cases c10 : s.length < CHUNK_POS_IN_BLOB_O + CHUNK_POS_IN_BLOB_S
  · rw [if_pos c10] at h; exact Option.noConfusion h
  rw [if_neg c10] at h
  by_cases c11 : s.length <
      NEXT_CHUNK_INDEX_IN_STORE_O + NEXT_CHUNK_INDEX_IN_STORE_S
  · rw [if_pos c11] at h; exact Option.noConfusion h
  rw [if_neg c11] at h
  by_cases c12 : fromBytesLE
      ((s.drop CHUNK_POS_IN_BLOB_O).take CHUNK_POS_IN_BLOB_S) ≠ 0
  · rw [if_pos c12] at h
    rw [fromSerializationBody_age _ _ _ _ _ _ h]
    exact hbound
  · rw [if_neg c12] at h
    rw [fromSerializationHead_age _ _ _ _ _ h]
    exact hbound

theorem loadObjects_spec (g : Geometry) (dev : List (List Nat)) :
    ∀ l objs, loadObjects g dev l = some objs →
      objs.length = l.length ∧
      ∀ o ∈ objs, ∃ (i : Nat) (raw : List Nat), dev[i]? = some raw ∧
        raw.length = g.objectSizeInStore ∧ fromSerialization g raw = some o := by
  intro l
  induction l with
  | nil =>
    intro objs h
    injection h with h
    subst h
    exact ⟨rfl, by intro o ho; simp at ho⟩
  | cons i rest ih =>
    intro objs h
    simp only [loadObjects] at h
    split at h
    · exact absurd h (by simp)
    · rename_i raw hraw
      split at h
      · exact absurd h (by simp)
      · rename_i hlenok
        split at h
        · exact absurd h (by simp)
        · rename_i o ho
          cases hrec : loadObjects g dev rest with
          | none => rw [hrec] at h; exact absurd h (by simp)
          | some objs' =>
            rw [hrec] at h
            simp only [Option.map] at h
            injection h with h
            subst h
            obtain ⟨hl, hm⟩ := ih objs' hrec
            refine ⟨by simp [hl], ?_⟩
            intro o' ho'
            rcases List.mem_cons.mp ho' with rfl | ho'
            · exact ⟨i, raw, hraw, by omega, ho⟩
            · exact hm o' ho'

theorem loadStore_wf (dev : List (List Nat)) (S : Store)
    (h : loadStore dev = some S) :
    S.objects.length = S.geo.objectCountInStore ∧
    S.dirty.length = S.objects.length ∧
    AgeBounded S.objects := by
  simp only [loadStore] at h
  split at h
  · exact absurd h (by simp)
  · rename_i r0 hr0
    split at h
    · exact absurd h (by simp)
    · split at h
      · exact absurd h (by simp)
      · split at h
        · exact absurd h (by simp)
        · rename_i objs hobjs
          injection h with h
          subst h
          obtain ⟨hl, hm⟩ := loadObjects_spec _ dev _ objs hobjs
          simp only [List.length_range] at hl
          refine ⟨by simp [hl], by simp [hl], ?_⟩
          intro o ho
          obtain ⟨i, raw, _, _, hdec⟩ := hm o ho
          exact fromSerialization_age_lt _ _ _ hdec

/-! ### More fold lemmas -/

/-- Existence-plus-invariant induction for an `Except`-valued fold. -/
theorem foldlM_ok_invariant {σ α ε : Type} (f : σ → α → Except ε σ)
    (Q : σ → List α → Prop) :
    ∀ (l : List α) (s : σ), Q s l →
      (∀ s' a rest', Q s' (a :: rest') →
        ∃ s'', f s' a = .ok s'' ∧ Q s'' rest') →
      ∃ out, List.foldlM f s l = .ok out ∧ Q out [] := by
  intro l
  induction l with
  | nil =>
    intro s hq _
    exact ⟨s, rfl, hq⟩
  | cons a l ih =>
    intro s hq hstep
    obtain ⟨s'', hf, hq''⟩ := hstep s a l hq
    obtain ⟨out, hout, hqout⟩ := ih s'' hq'' hstep
    refine ⟨out, ?_, hqout⟩
    rw [foldlM_except_cons, hf]
    exact hout

/-- If every step can only fail with errors satisfying `P`, so does the
whole fold. -/
theorem foldlM_error_pred {σ α ε : Type} (f : σ → α → Except ε σ)
    (P : ε → Prop) (hstep : ∀ s a e, f s a = .error e → P e) :
    ∀ (l : List α) (s : σ) (e : ε), List.foldlM f s l = .error e → P e := by
  intro l
  induction l with
  | nil =>
    intro s e h
    rw [foldlM_except_nil] at h
    exact absurd h (by simp)
  | cons a l ih =>
    intro s e h
    rw [foldlM_except_cons] at h
    cases hf : f s a with
    | error e' =>
      rw [hf] at h
      simp only [Except.bind] at h
      cases h
      exact hstep s a e hf
    | ok s'' =>
      rw [hf] at h
      simp only [Except.bind] at h
      exact ih s'' e h

/-- A fold whose every step returns the state unchanged is the identity. -/
theorem foldlM_fixed {σ α ε : Type} (f : σ → α → Except ε σ) (s : σ) :
    ∀ l : List α, (∀ a ∈ l, f s a = .ok s) → List.foldlM f s l = .ok s := by
  intro l
  induction l with
  | nil => intro _; rfl
  | cons a l ih =>
    intro h
    rw [foldlM_except_cons, h a (by simp)]
    exact ih (fun a' ha' => h a' (by simp [ha']))

/-- Suffix-invariant induction for a pure fold. -/
theorem foldl_rest_invariant {σ α : Type} (f : σ → α → σ)
    (Q : σ → List α → Prop) :
    ∀ (l : List α) (s : σ), Q s l →
      (∀ s' a rest', Q s' (a :: rest') → Q (f s' a) rest') →
      Q (l.foldl f s) [] := by
  intro l
  induction l with
  | nil => intro s hq _; exact hq
  | cons a l ih =>
    intro s hq hstep
    exact ih (f s a) (hstep s a l hq) hstep

/-- A pure fold whose every step fixes the state is the identity. -/
theorem foldl_fixed {σ α : Type} (f : σ → α → σ) (s : σ) :
    ∀ l : List α, (∀ a ∈ l, f s a = s) → l.foldl f s = s := by
  intro l
  induction l with
  | nil => intro _; rfl
  | cons a l ih =>
    intro h
    rw [List.foldl_cons, h a (by simp)]
    exact ih (fun a' ha' => h a' (by simp [ha']))

/-! ### Pass-2 lemmas -/

/-- Case analysis of one pass-2 iteration: unchanged (dead or non-head),
a dict insertion, the current head losing to the dict champion, or the
dict champion's slot being reset. -/
theorem pass2Step_cases (size : Nat)
    (st st' : (List Obj × List Bool) × List (List Nat × Nat)) (i : Nat)
    (h : pass2Step size st i = .ok st') :
    (st' = st ∧
      ((st.1.1.getD i default).objectAge = 0 ∨
        (st.1.1.getD i default).chunkPosInBlob ≠ 0)) ∨
    ((st.1.1.getD i default).objectAge ≠ 0 ∧
      (st.1.1.getD i default).chunkPosInBlob = 0 ∧
      st.2.find? (fun e => decide (e.1 = (st.1.1.getD i default).blobName))
        = none ∧
      st' = (st.1, ((st.1.1.getD i default).blobName, i) :: st.2)) ∨
    (∃ e, (st.1.1.getD i default).objectAge ≠ 0 ∧
      (st.1.1.getD i default).chunkPosInBlob = 0 ∧
      st.2.find? (fun e' => decide (e'.1 = (st.1.1.getD i default).blobName))
        = some e ∧
      (st.1.1.getD i default).objectAge <
        (st.1.1.getD e.2 default).objectAge ∧
      st' = ((st.1.1.set i (resetObj size), st.1.2.set i true), st.2)) ∨
    (∃ e, (st.1.1.getD i default).objectAge ≠ 0 ∧
      (st.1.1.getD i default).chunkPosInBlob = 0 ∧
      st.2.find? (fun e' => decide (e'.1 = (st.1.1.getD i default).blobName))
        = some e ∧
      (st.1.1.getD e.2 default).objectAge <
        (st.1.1.getD i default).objectAge ∧
      st' = ((st.1.1.set e.2 (resetObj size), st.1.2.set e.2 true), st.2)) := by
  simp only [pass2Step] at h
  split at h
  · rename_i h0
    cases h
    exact .inl ⟨rfl, .inl h0⟩
  · rename_i h0
    split at h
    · rename_i hp
      cases h
      exact .inl ⟨rfl, .inr hp⟩
    · rename_i hp
      split at h
      · rename_i hfind
        cases h
        exact .inr (.inl ⟨h0, by simpa using hp, hfind, rfl⟩)
      · rename_i e hfind
        split at h
        · exact absurd h (by simp)
        · rename_i hage
          split at h
          · rename_i hlt
            cases h
            exact .inr (.inr (.inl ⟨e, h0, by simpa using hp, hfind,
              hlt, rfl⟩))
          · rename_i hnlt
            cases h
            refine .inr (.inr (.inr ⟨e, h0, by simpa using hp, hfind,
              ?_, rfl⟩))
            omega

theorem notMem_cons_of {α : Type} {a b : α} {l : List α}
    (h1 : b ≠ a) (h2 : b ∉ l) : b ∉ a :: l := by
  intro hm
  rcases List.mem_cons.mp hm with h | h
  · exact h1 h
  · exact h2 h

theorem alive_of_flags {o : Obj} (h0 : o.objectAge ≠ 0)
    (hp : o.chunkPosInBlob = 0) : o.isAliveHead = true := by
  simp only [Obj.isAliveHead, Bool.and_eq_true, decide_eq_true_eq]
  exact ⟨h0, hp⟩

theorem flags_of_alive {o : Obj} (h : o.isAliveHead = true) :
    o.objectAge ≠ 0 ∧ o.chunkPosInBlob = 0 := by
  simpa only [Obj.isAliveHead, Bool.and_eq_true, decide_eq_true_eq] using h

theorem resetObj_not_alive_flags (n : Nat) : (resetObj n).objectAge = 0 := rfl

theorem except_throw {ε α : Type} (e : ε) :
    (throw e : Except ε α) = Except.error e := rfl

theorem except_map_ok {ε α β : Type} (f : α → β) (x : Except ε α) (b : β)
    (h : x.map f = .ok b) : ∃ a, x = .ok a ∧ f a = b := by
  cases x with
  | error e => exact absurd h (by simp [Except.map])
  | ok a => exact ⟨a, rfl, by simpa [Except.map] using h⟩

theorem except_bind_ok {ε α β : Type} (a : α) (f : α → Except ε β) :
    ((Except.ok a : Except ε α) >>= f) = f a := rfl

theorem except_bind_error {ε α β : Type} (e : ε) (f : α → Except ε β) :
    ((Except.error e : Except ε α) >>= f) = Except.error e := rfl

theorem except_fmap_ok {ε α β : Type} (f : α → β) (a : α) :
    (f <$> (Except.ok a : Except ε α)) = Except.ok (f a) := rfl

theorem except_fmap_error {ε α β : Type} (f : α → β) (e : ε) :
    (f <$> (Except.error e : Except ε α)) = Except.error e := rfl

/-- What sanitize pass 2 does: lengths are preserved; every record is
either untouched or was a live head that got reset and marked dirty;
clean records are untouched; and if no blob name was shared by three
live heads going in, the surviving live heads carry pairwise distinct
names.  (With three or more same-named heads the stale dict entry breaks
the dedup — see the concrete counterexamples.) -/
theorem pass2_spec (size : Nat) (objs1 : List Obj) (d1 : List Bool)
    (hd : d1.length = objs1.length)
    (objs2 : List Obj) (d2 : List Bool)
    (h : pass2 size objs1 d1 = .ok (objs2, d2)) :
    objs2.length = objs1.length ∧ d2.length = d1.length ∧
    (∀ j, objs2.getD j default = objs1.getD j default ∨
      ((objs1.getD j default).isAliveHead = true ∧
        objs2.getD j default = resetObj size ∧ d2.getD j false = true)) ∧
    (∀ j, d2.getD j false = false →
      objs2.getD j default = objs1.getD j default ∧
        d1.getD j false = false) ∧
    (NoTripleName objs1 → UniqueHeadNames objs2) := by
  obtain ⟨full, hfold, hfull⟩ := except_map_ok _ _ _ h
  have main := foldlM_rest_invariant (pass2Step size)
    (fun s rest =>
      (∀ j ∈ rest, j < objs1.length) ∧ rest.Nodup ∧
      s.1.1.length = objs1.length ∧ s.1.2.length = d1.length ∧
      (∀ j, s.1.1.getD j default = objs1.getD j default ∨
        ((objs1.getD j default).isAliveHead = true ∧
          s.1.1.getD j default = resetObj size ∧
          s.1.2.getD j false = true)) ∧
      (∀ j, s.1.2.getD j false = false →
        s.1.1.getD j default = objs1.getD j default ∧
          d1.getD j false = false) ∧
      (∀ j ∈ rest, s.1.1.getD j default = objs1.getD j default) ∧
      (∀ e ∈ s.2, e.2 < objs1.length ∧
        (objs1.getD e.2 default).isAliveHead = true ∧
        (objs1.getD e.2 default).blobName = e.1 ∧ e.2 ∉ rest) ∧
      (∀ b, b < objs1.length → b ∉ rest →
        (objs1.getD b default).isAliveHead = true →
        ∃ e ∈ s.2, e.1 = (objs1.getD b default).blobName) ∧
      (∀ e ∈ s.2, s.1.1.getD e.2 default = objs1.getD e.2 default ∨
        (∃ b, b < objs1.length ∧ b ∉ rest ∧ b ≠ e.2 ∧
          (objs1.getD b default).isAliveHead = true ∧
          (objs1.getD b default).blobName = e.1 ∧
          s.1.1.getD e.2 default = resetObj size)) ∧
      (NoTripleName objs1 →
        ∀ i j, i < objs1.length → j < objs1.length → i ∉ rest → j ∉ rest →
          i ≠ j → (s.1.1.getD i default).isAliveHead = true →
          (s.1.1.getD j default).isAliveHead = true →
          (s.1.1.getD i default).blobName ≠
            (s.1.1.getD j default).blobName))
    (List.range objs1.length) ((objs1, d1), [])
    ⟨fun j hj => by simpa using hj, List.nodup_range _,
      rfl, rfl, fun j => .inl rfl, fun j hj => ⟨rfl, hj⟩,
      fun j hj => rfl,
      fun e he => absurd he (List.not_mem_nil e),
      fun b hb hbn hba => absurd (List.mem_range.mpr hb) hbn,
      fun e he => absurd he (List.not_mem_nil e),
      fun h3 i j hi hj hni hnj hij hai haj =>
        absurd (List.mem_range.mpr hi) hni⟩
    ?step full hfold
  case step =>
    intro s a rest' hQ s2 hstep
    obtain ⟨q0, qN, q1, q2, q3, q4, q5, q6, q7, q8, q9⟩ := hQ
    have halt : a < objs1.length := q0 a (by simp)
    have hnotin : a ∉ rest' := (List.nodup_cons.mp qN).1
    have qN' : rest'.Nodup := (List.nodup_cons.mp qN).2
    have hsa : s.1.1.getD a default = objs1.getD a default := q5 a (by simp)
    rcases pass2Step_cases size s s2 a hstep with
      ⟨heq, hwhy⟩ | ⟨h0, hp, hfind, heq⟩ | ⟨e, h0, hp, hfind, hlt, heq⟩ |
      ⟨e, h0, hp, hfind, hlt, heq⟩
    · -- skip: dead record or non-head chunk
      rw [heq]
      have hdead : ¬ (objs1.getD a default).isAliveHead = true := by
        intro hal
        obtain ⟨ha0, hap⟩ := flags_of_alive hal
        rw [hsa] at hwhy
        rcases hwhy with hw | hw
        · exact ha0 hw
        · exact hw hap
      refine ⟨fun j hj => q0 j (by simp [hj]), qN', q1, q2, q3, q4,
        fun j hj => q5 j (by simp [hj]), ?_, ?_, ?_, ?_⟩
      · intro f hf
        obtain ⟨hf1, hf2, hf3, hf4⟩ := q6 f hf
        exact ⟨hf1, hf2, hf3, fun hm => hf4 (by simp [hm])⟩
      · intro b hb hbn hba
        by_cases hba' : b = a
        · subst hba'
          exact absurd hba hdead
        · exact q7 b hb (notMem_cons_of hba' hbn) hba
      · intro f hf
        rcases q8 f hf with hL | ⟨b, hb1, hb2, hb3, hb4, hb5, hb6⟩
        · exact .inl hL
        · exact .inr ⟨b, hb1, fun hm => hb2 (by simp [hm]), hb3, hb4,
            hb5, hb6⟩
      · intro h3 i j hi hj hni hnj hij hai haj
        have hsdead : ¬ (s.1.1.getD a default).isAliveHead = true := by
          intro hal
          obtain ⟨ha0, hap⟩ := flags_of_alive hal
          rcases hwhy with hw | hw
          · exact ha0 hw
          · exact hw hap
        by_cases hia : i = a
        · subst hia; exact absurd hai hsdead
        by_cases hja : j = a
        · subst hja; exact absurd haj hsdead
        exact q9 h3 i j hi hj (notMem_cons_of hia hni)
          (notMem_cons_of hja hnj) hij hai haj
    · -- a new dict entry for this head's name
      subst heq
      have halive1 : (objs1.getD a default).isAliveHead = true := by
        rw [← hsa]
        exact alive_of_flags h0 hp
      have hnm : (objs1.getD a default).blobName =
          (s.1.1.getD a default).blobName := (congrArg Obj.blobName hsa).symm
      have hnone : ∀ f ∈ s.2,
          ¬ f.1 = (s.1.1.getD a default).blobName := by
        intro f hf
        have := List.find?_eq_none.mp hfind f hf
        simpa using this
      refine ⟨fun j hj => q0 j (by simp [hj]), qN', q1, q2, q3, q4,
        fun j hj => q5 j (by simp [hj]), ?_, ?_, ?_, ?_⟩
      · intro f hf
        rcases List.mem_cons.mp hf with rfl | hf'
        · exact ⟨halt, halive1, hnm, hnotin⟩
        · obtain ⟨hf1, hf2, hf3, hf4⟩ := q6 f hf'
          exact ⟨hf1, hf2, hf3, fun hm => hf4 (by simp [hm])⟩
      · intro b hb hbn hba
        by_cases hba' : b = a
        · subst hba'
          exact ⟨((s.1.1.getD b default).blobName, b), by simp, hnm.symm⟩
        · obtain ⟨f, hf, hfe⟩ := q7 b hb (notMem_cons_of hba' hbn) hba
          exact ⟨f, by simp [hf], hfe⟩
      · intro f hf
        rcases List.mem_cons.mp hf with rfl | hf'
        · exact .inl hsa
        · rcases q8 f hf' with hL | ⟨b, hb1, hb2, hb3, hb4, hb5, hb6⟩
          · exact .inl hL
          · exact .inr ⟨b, hb1, fun hm => hb2 (by simp [hm]), hb3, hb4,
              hb5, hb6⟩
      · intro h3 i j hi hj hni hnj hij hai haj
        have key : ∀ k, k < objs1.length → k ∉ rest' → k ≠ a →
            (s.1.1.getD k default).isAliveHead = true →
            ¬ (s.1.1.getD a default).blobName =
              (s.1.1.getD k default).blobName := by
          intro k hk hkn hka hak heqn
          have hsk : s.1.1.getD k default = objs1.getD k default := by
            rcases q3 k with hL | ⟨_, hR, _⟩
            · exact hL
            · rw [hR] at hak
              exact absurd hak (by simp [resetObj_isAliveHead])
          have hk1 : (objs1.getD k default).isAliveHead = true := by
            rw [← hsk]; exact hak
          obtain ⟨f, hf, hfe⟩ := q7 k hk (notMem_cons_of hka hkn) hk1
          apply hnone f hf
          rw [hfe, ← hsk, ← heqn]
        by_cases hia : i = a
        · subst hia
          exact key j hj hnj (fun he => hij he.symm) haj
        by_cases hja : j = a
        · subst hja
          intro heqn
          exact key i hi hni hia hai heqn.symm
        exact q9 h3 i j hi hj (notMem_cons_of hia hni)
          (notMem_cons_of hja hnj) hij hai haj
    · -- the current head is younger: it is reset
      subst heq
      have he_mem : e ∈ s.2 := List.mem_of_find?_eq_some hfind
      obtain ⟨helen, healive, hename, henotin⟩ := q6 e he_mem
      have hea : e.2 ≠ a := fun hh => henotin (by simp [hh])
      have henotin' : e.2 ∉ rest' := fun hm => henotin (by simp [hm])
      have halta : a < s.1.1.length := q1 ▸ halt
      have haltd : a < s.1.2.length := by omega
      have halive1 : (objs1.getD a default).isAliveHead = true := by
        rw [← hsa]
        exact alive_of_flags h0 hp
      have hnm_e : e.1 = (objs1.getD a default).blobName := by
        have := List.find?_some hfind
        simp only [decide_eq_true_eq] at this
        rw [this, hsa]
      refine ⟨fun j hj => q0 j (by simp [hj]), qN',
        by simpa using q1, by simpa using q2, ?_, ?_, ?_, ?_, ?_, ?_, ?_⟩
      · intro j
        by_cases hja : j = a
        · subst hja
          exact .inr ⟨halive1, getD_set_self _ _ _ _ halta,
            getD_set_self _ _ _ _ haltd⟩
        · show (s.1.1.set a (resetObj size)).getD j default = _ ∨ _
          rw [getD_set_ne _ _ _ _ _ (fun hh => hja hh.symm)]
          rcases q3 j with hL | ⟨hj1, hj2, hj3⟩
          · exact .inl hL
          · refine .inr ⟨hj1, hj2, ?_⟩
            show (s.1.2.set a true).getD j false = true
            rw [getD_set_ne _ _ _ _ _ (fun hh => hja hh.symm)]
            exact hj3
      · intro j hj
        by_cases hja : j = a
        · subst hja
          rw [show ((s.1.1.set j (resetObj size), s.1.2.set j true),
              s.2).1.2 = s.1.2.set j true from rfl,
            getD_set_self _ _ _ _ haltd] at hj
          exact absurd hj (by simp)
        · rw [show ((s.1.1.set a (resetObj size), s.1.2.set a true),
              s.2).1.2 = s.1.2.set a true from rfl,
            getD_set_ne _ _ _ _ _ (fun hh => hja hh.symm)] at hj
          show (s.1.1.set a (resetObj size)).getD j default = _ ∧ _
          rw [getD_set_ne _ _ _ _ _ (fun hh => hja hh.symm)]
          exact q4 j hj
      · intro j hj
        have hja : j ≠ a := fun hh => hnotin (hh ▸ hj)
        show (s.1.1.set a (resetObj size)).getD j default = _
        rw [getD_set_ne _ _ _ _ _ (fun hh => hja hh.symm)]
        exact q5 j (by simp [hj])
      · intro f hf
        obtain ⟨hf1, hf2, hf3, hf4⟩ := q6 f hf
        exact ⟨hf1, hf2, hf3, fun hm => hf4 (by simp [hm])⟩
      · intro b hb hbn hba
        by_cases hba' : b = a
        · subst hba'
          exact ⟨e, he_mem, hnm_e⟩
        · exact q7 b hb (notMem_cons_of hba' hbn) hba
      · intro f hf
        have hfa : f.2 ≠ a := fun hh => (q6 f hf).2.2.2 (by simp [hh])
        show (s.1.1.set a (resetObj size)).getD f.2 default = _ ∨ _
        rw [getD_set_ne _ _ _ _ _ (fun hh => hfa hh.symm)]
        rcases q8 f hf with hL | ⟨b, hb1, hb2, hb3, hb4, hb5, hb6⟩
        · exact .inl hL
        · exact .inr ⟨b, hb1, fun hm => hb2 (by simp [hm]), hb3, hb4,
            hb5, hb6⟩
      · intro h3 i j hi hj hni hnj hij hai haj
        have hnotreset : ∀ k, (s.1.1.set a (resetObj size)).getD k default
            = resetObj size ∨
            (s.1.1.set a (resetObj size)).getD k default =
              s.1.1.getD k default := by
          intro k
          by_cases hka : k = a
          · subst hka
            exact .inl (getD_set_self _ _ _ _ halta)
          · exact .inr (getD_set_ne _ _ _ _ _ (fun hh => hka hh.symm))
        have hia : i ≠ a := by
          intro hh
          subst hh
          rw [getD_set_self _ _ _ _ halta] at hai
          exact absurd hai (by simp [resetObj_isAliveHead])
        have hja : j ≠ a := by
          intro hh
          subst hh
          rw [getD_set_self _ _ _ _ halta] at haj
          exact absurd haj (by simp [resetObj_isAliveHead])
        rw [getD_set_ne _ _ _ _ _ (fun hh => hia hh.symm)] at hai ⊢
        rw [getD_set_ne _ _ _ _ _ (fun hh => hja hh.symm)] at haj ⊢
        exact q9 h3 i j hi hj (notMem_cons_of hia hni)
          (notMem_cons_of hja hnj) hij hai haj
    · -- the dict champion slot is reset
      subst heq
      have he_mem : e ∈ s.2 := List.mem_of_find?_eq_some hfind
      obtain ⟨helen, healive, hename, henotin⟩ := q6 e he_mem
      have hea : e.2 ≠ a := fun hh => henotin (by simp [hh])
      have henotin' : e.2 ∉ rest' := fun hm => henotin (by simp [hm])
      have helta : e.2 < s.1.1.length := q1 ▸ helen
      have heltd : e.2 < s.1.2.length := by omega
      have halive1 : (objs1.getD a default).isAliveHead = true := by
        rw [← hsa]
        exact alive_of_flags h0 hp
      have hnm_e : e.1 = (objs1.getD a default).blobName := by
        have := List.find?_some hfind
        simp only [decide_eq_true_eq] at this
        rw [this, hsa]
      refine ⟨fun j hj => q0 j (by simp [hj]), qN',
        by simpa using q1, by simpa using q2, ?_, ?_, ?_, ?_, ?_, ?_, ?_⟩
      · intro j
        by_cases hje : j = e.2
        · subst hje
          exact .inr ⟨healive, getD_set_self _ _ _ _ helta,
            getD_set_self _ _ _ _ heltd⟩
        · show (s.1.1.set e.2 (resetObj size)).getD j default = _ ∨ _
          rw [getD_set_ne _ _ _ _ _ (fun hh => hje hh.symm)]
          rcases q3 j with hL | ⟨hj1, hj2, hj3⟩
          · exact .inl hL
          · refine .inr ⟨hj1, hj2, ?_⟩
            show (s.1.2.set e.2 true).getD j false = true
            rw [getD_set_ne _ _ _ _ _ (fun hh => hje hh.symm)]
            exact hj3
      · intro j hj
        by_cases hje : j = e.2
        · subst hje
          rw [show ((s.1.1.set e.2 (resetObj size), s.1.2.set e.2 true),
              s.2).1.2 = s.1.2.set e.2 true from rfl,
            getD_set_self _ _ _ _ heltd] at hj
          exact absurd hj (by simp)
        · rw [show ((s.1.1.set e.2 (resetObj size), s.1.2.set e.2 true),
              s.2).1.2 = s.1.2.set e.2 true from rfl,
            getD_set_ne _ _ _ _ _ (fun hh => hje hh.symm)] at hj
          show (s.1.1.set e.2 (resetObj size)).getD j default = _ ∧ _
          rw [getD_set_ne _ _ _ _ _ (fun hh => hje hh.symm)]
          exact q4 j hj
      · intro j hj
        have hje : j ≠ e.2 := fun hh => henotin' (hh ▸ hj)
        show (s.1.1.set e.2 (resetObj size)).getD j default = _
        rw [getD_set_ne _ _ _ _ _ (fun hh => hje hh.symm)]
        exact q5 j (by simp [hj])
      · intro f hf
        obtain ⟨hf1, hf2, hf3, hf4⟩ := q6 f hf
        exact ⟨hf1, hf2, hf3, fun hm => hf4 (by simp [hm])⟩
      · intro b hb hbn hba
        by_cases hba' : b = a
        · subst hba'
          exact ⟨e, he_mem, hnm_e⟩
        · exact q7 b hb (notMem_cons_of hba' hbn) hba
      · intro f hf
        obtain ⟨hflen, hfalive, hfname, hfnotin⟩ := q6 f hf
        by_cases hfe : f.2 = e.2
        · refine .inr ⟨a, halt, hnotin, fun hh => hea (hfe ▸ hh).symm,
            halive1, ?_, ?_⟩
          · rw [← hnm_e, ← hfname, hfe, hename]
          · show (s.1.1.set e.2 (resetObj size)).getD f.2 default = _
            rw [hfe]
            exact getD_set_self _ _ _ _ helta
        · show (s.1.1.set e.2 (resetObj size)).getD f.2 default = _ ∨ _
          rw [getD_set_ne _ _ _ _ _ (fun hh => hfe hh.symm)]
          rcases q8 f hf with hL | ⟨b, hb1, hb2, hb3, hb4, hb5, hb6⟩
          · exact .inl hL
          · exact .inr ⟨b, hb1, fun hm => hb2 (by simp [hm]), hb3, hb4,
              hb5, hb6⟩
      · intro h3 i j hi hj hni hnj hij hai haj
        have hie : i ≠ e.2 := by
          intro hh
          subst hh
          rw [getD_set_self _ _ _ _ helta] at hai
          exact absurd hai (by simp [resetObj_isAliveHead])
        have hje : j ≠ e.2 := by
          intro hh
          subst hh
          rw [getD_set_self _ _ _ _ helta] at haj
          exact absurd haj (by simp [resetObj_isAliveHead])
        rw [getD_set_ne _ _ _ _ _ (fun hh => hie hh.symm)] at hai ⊢
        rw [getD_set_ne _ _ _ _ _ (fun hh => hje hh.symm)] at haj ⊢
        have key : ∀ k, k < objs1.length → k ∉ rest' → k ≠ a → k ≠ e.2 →
            (s.1.1.getD k default).isAliveHead = true →
            ¬ (s.1.1.getD a default).blobName =
              (s.1.1.getD k default).blobName := by
          intro k hk hkn hka hke hak heqn
          have hsk : s.1.1.getD k default = objs1.getD k default := by
            rcases q3 k with hL | ⟨_, hR, _⟩
            · exact hL
            · rw [hR] at hak
              exact absurd hak (by simp [resetObj_isAliveHead])
          have hk1 : (objs1.getD k default).isAliveHead = true := by
            rw [← hsk]; exact hak
          refine h3 k e.2 a ⟨hk, hk1⟩ ⟨helen, healive⟩ ⟨halt, halive1⟩
            hke hka hea ⟨?_, ?_⟩
          · rw [hename, hnm_e, ← hsk, ← heqn, hsa]
          · rw [hename, hnm_e]
        by_cases hia : i = a
        · subst hia
          intro heqn
          have heqn' : (s.1.1.getD i default).blobName =
              (s.1.1.getD j default).blobName := heqn
          exact key j hj hnj (fun hh => hij hh.symm) hje haj heqn'
        by_cases hja : j = a
        · subst hja
          intro heqn
          exact key i hi hni hia hie hai heqn.symm
        exact q9 h3 i j hi hj (notMem_cons_of hia hni)
          (notMem_cons_of hja hnj) hij hai haj
  obtain ⟨_, _, m1, m2, m3, m4, _, _, _, _, m9⟩ := main
  have ho : full.1.1 = objs2 := by rw [hfull]
  have hdd : full.1.2 = d2 := by rw [hfull]
  rw [ho] at m1 m3 m4
  rw [hdd] at m2 m3 m4
  refine ⟨m1, m2, m3, m4, ?_⟩
  intro h3 i j hi hj hij
  have := m9 h3 i j (by rw [← m1]; exact hi.1) (by rw [← m1]; exact hj.1)
    (List.not_mem_nil i) (List.not_mem_nil j) hij
  rw [ho] at this
  exact this hi.2 hj.2

/-! ### Pass-3 lemmas -/

theorem getD_replicate {α : Type} (n j : Nat) (a : α) :
    (List.replicate n a).getD j a = a := by
  by_cases hj : j < n
  · rw [List.getD_eq_getElem _ _ (by simpa using hj)]
    simp
  · rw [List.getD_eq_default _ _ (by simpa using Nat.le_of_not_lt hj)]

theorem list_eq_of_getD {α : Type} (l1 l2 : List α) (d : α)
    (hlen : l1.length = l2.length) (h : ∀ j, l1.getD j d = l2.getD j d) :
    l1 = l2 := by
  apply List.ext_getElem hlen
  intro i h1 h2
  have := h i
  rwa [List.getD_eq_getElem _ _ h1, List.getD_eq_getElem _ _ h2] at this

/-- The `is_reachable` array marks exactly the indices lying on the chain
of some live head. -/
theorem reachArray_spec (count : Nat) (objs : List Obj)
    (hlen : objs.length = count)
    (hOK : ∀ i, AliveHeadAt objs i → HeadOK count objs i) :
    ∃ reach, reachArray count objs = .ok reach ∧ reach.length = count ∧
      ∀ j, reach.getD j false = true ↔
        ∃ h p, AliveHeadAt objs h ∧ chainListF objs sanFuel h = some p ∧
          j ∈ p := by
  have main := foldlM_ok_invariant (reachStep objs)
    (fun r rest =>
      (∀ j ∈ rest, j < objs.length) ∧ rest.Nodup ∧ r.length = count ∧
      ∀ j, r.getD j false = true ↔
        ∃ h p, h < objs.length ∧ h ∉ rest ∧
          (objs.getD h default).isAliveHead = true ∧
          chainListF objs sanFuel h = some p ∧ j ∈ p)
    (List.range objs.length) (List.replicate count false)
    ⟨fun j hj => by simpa using hj, List.nodup_range _,
      by simp, ?init⟩ ?step
  case init =>
    intro j
    constructor
    · intro hj
      rw [getD_replicate] at hj
      exact absurd hj (by simp)
    · rintro ⟨h, p, hh, hhn, _, _, _⟩
      exact absurd (List.mem_range.mpr hh) hhn
  case step =>
    intro r a rest' hQ
    obtain ⟨q0, qN, q1, q2⟩ := hQ
    have halt : a < objs.length := q0 a (by simp)
    have hnotin : a ∉ rest' := (List.nodup_cons.mp qN).1
    have qN' : rest'.Nodup := (List.nodup_cons.mp qN).2
    by_cases hal : (objs.getD a default).isAliveHead = true
    · -- a live head: mark its whole chain
      have hok := hOK a ⟨halt, hal⟩
      obtain ⟨p, hc, hh, ht⟩ := pass1Walk_path count objs sanFuel a _ 0 hok
      have hbound : ∀ j ∈ p, j < r.length := by
        intro j hj
        rcases headMem_cases p a hh j hj with rfl | hjt
        · omega
        · have := (ht j hjt).1
          omega
      obtain ⟨r', hm, hl, hg⟩ := markChain_of_chainList objs sanFuel a p r
        hc hbound
      obtain ⟨ha0, hap⟩ := flags_of_alive hal
      refine ⟨r', ?_, fun j hj => q0 j (by simp [hj]), qN',
        by omega, ?_⟩
      · simp only [reachStep]
        rw [if_neg ha0, if_neg (by simpa using hap)]
        exact hm
      · intro j
        rw [hg j]
        constructor
        · intro hj
          rcases Bool.or_eq_true_iff.mp hj with hj | hj
          · obtain ⟨h, p', hh1, hh2, hh3, hh4, hh5⟩ := (q2 j).mp hj
            exact ⟨h, p', hh1, fun hm' => hh2 (by simp [hm']), hh3,
              hh4, hh5⟩
          · exact ⟨a, p, halt, hnotin, hal, hc, by simpa using hj⟩
        · rintro ⟨h, p', hh1, hh2, hh3, hh4, hh5⟩
          by_cases hha : h = a
          · subst hha
            rw [hc] at hh4
            injection hh4 with hh4
            subst hh4
            simp [hh5]
          · have := (q2 j).mpr ⟨h, p', hh1,
              notMem_cons_of hha hh2, hh3, hh4, hh5⟩
            rw [this]
            simp
    · -- dead record or body chunk: nothing marked
      refine ⟨r, ?_, fun j hj => q0 j (by simp [hj]), qN', q1, ?_⟩
      · simp only [reachStep]
        by_cases h0 : (objs.getD a default).objectAge = 0
        · rw [if_pos h0]
        · have hp0 : (objs.getD a default).chunkPosInBlob ≠ 0 := by
            intro hp0
            exact hal (alive_of_flags h0 hp0)
          rw [if_neg h0, if_pos hp0]
      · intro j
        rw [q2 j]
        constructor
        · rintro ⟨h, p', hh1, hh2, hh3, hh4, hh5⟩
          exact ⟨h, p', hh1, fun hm' => hh2 (by simp [hm']), hh3,
            hh4, hh5⟩
        · rintro ⟨h, p', hh1, hh2, hh3, hh4, hh5⟩
          by_cases hha : h = a
          · subst hha
            exact absurd hh3 hal
          · exact ⟨h, p', hh1, notMem_cons_of hha hh2, hh3, hh4, hh5⟩
  obtain ⟨reach, hfold, _, _, hfinal, hchar⟩ := main
  refine ⟨reach, hfold, hfinal, ?_⟩
  intro j
  rw [hchar j]
  constructor
  · rintro ⟨h, p, hh1, _, hh3, hh4, hh5⟩
    exact ⟨h, p, ⟨hh1, hh3⟩, hh4, hh5⟩
  · rintro ⟨h, p, ⟨hh1, hh3⟩, hh4, hh5⟩
    exact ⟨h, p, hh1, List.not_mem_nil h, hh3, hh4, hh5⟩

/-- What sanitize pass 3 does: records on a live head's chain (and dead
records) are untouched; live records off every chain are reset and
marked dirty. -/
theorem pass3_spec (count size : Nat) (objs2 : List Obj) (d2 : List Bool)
    (hd2 : d2.length = objs2.length)
    (hlen : objs2.length = count)
    (hOK : ∀ i, AliveHeadAt objs2 i → HeadOK count objs2 i) :
    ∃ (objs3 : List Obj) (d3 reach : List Bool),
      pass3 count size objs2 d2 = .ok (objs3, d3) ∧
      objs3.length = objs2.length ∧ d3.length = d2.length ∧
      (∀ j, (objs2.getD j default).objectAge ≠ 0 →
        reach.getD j false = false →
        objs3.getD j default = resetObj size ∧ d3.getD j false = true) ∧
      (∀ j, (objs2.getD j default).objectAge = 0 ∨
          reach.getD j false = true →
        objs3.getD j default = objs2.getD j default ∧
          d3.getD j false = d2.getD j false) ∧
      (∀ j, reach.getD j false = true ↔
        ∃ h p, AliveHeadAt objs2 h ∧ chainListF objs2 sanFuel h = some p ∧
          j ∈ p) := by
  obtain ⟨reach, hreach, hrlen, hchar⟩ := reachArray_spec count objs2 hlen hOK
  have hsweep := foldl_rest_invariant (sweepStep size reach)
    (fun st rest =>
      st.1.length = objs2.length ∧ st.2.length = d2.length ∧
      (∀ j ∈ rest, j < objs2.length) ∧ rest.Nodup ∧
      (∀ j ∈ rest, st.1.getD j default = objs2.getD j default ∧
        st.2.getD j false = d2.getD j false) ∧
      (∀ j, j ∉ rest →
        ((objs2.getD j default).objectAge ≠ 0 →
          reach.getD j false = false →
          st.1.getD j default = resetObj size ∧ st.2.getD j false = true) ∧
        ((objs2.getD j default).objectAge = 0 ∨
            reach.getD j false = true →
          st.1.getD j default = objs2.getD j default ∧
            st.2.getD j false = d2.getD j false)))
    (List.range objs2.length) (objs2, d2)
    ⟨rfl, rfl, fun j hj => by simpa using hj, List.nodup_range _,
      fun j hj => ⟨rfl, rfl⟩, ?init⟩ ?step
  case init =>
    intro j hj
    have hjlen : objs2.length ≤ j := by
      by_contra hcon
      exact hj (List.mem_range.mpr (Nat.lt_of_not_le hcon))
    constructor
    · intro hage _
      exfalso
      apply hage
      rw [List.getD_eq_default _ _ hjlen]
      rfl
    · intro _
      exact ⟨rfl, rfl⟩
  case step =>
    intro st a rest' hQ
    obtain ⟨q1, q2, q0, qN, q5, q6⟩ := hQ
    have halt : a < objs2.length := q0 a (by simp)
    have hnotin : a ∉ rest' := (List.nodup_cons.mp qN).1
    have qN' : rest'.Nodup := (List.nodup_cons.mp qN).2
    have hsta : st.1.getD a default = objs2.getD a default :=
      (q5 a (by simp)).1
    have hstd : st.2.getD a false = d2.getD a false := (q5 a (by simp)).2
    have halta : a < st.1.length := q1 ▸ halt
    have haltd : a < st.2.length := by omega
    by_cases hc : (objs2.getD a default).objectAge ≠ 0 ∧
        reach.getD a false = false
    · -- unreachable live record: reset it
      have hstep : sweepStep size reach st a =
          (st.1.set a (resetObj size), st.2.set a true) := by
        simp only [sweepStep]
        rw [if_pos ⟨by rw [hsta]; exact hc.1, by rw [hc.2]; simp⟩]
      rw [hstep]
      refine ⟨by simpa using q1, by simpa using q2,
        fun j hj => q0 j (by simp [hj]), qN', ?_, ?_⟩
      · intro j hj
        have hja : j ≠ a := fun hh => hnotin (hh ▸ hj)
        constructor
        · show (st.1.set a (resetObj size)).getD j default = _
          rw [getD_set_ne _ _ _ _ _ (fun hh => hja hh.symm)]
          exact (q5 j (by simp [hj])).1
        · show (st.2.set a true).getD j false = _
          rw [getD_set_ne _ _ _ _ _ (fun hh => hja hh.symm)]
          exact (q5 j (by simp [hj])).2
      · intro j hj
        by_cases hja : j = a
        · subst hja
          constructor
          · intro _ _
            exact ⟨getD_set_self _ _ _ _ halta,
              getD_set_self _ _ _ _ haltd⟩
          · intro hcase
            rcases hcase with h0 | hr
            · exact absurd h0 hc.1
            · rw [hc.2] at hr
              exact absurd hr (by simp)
        · have hjn : j ∉ rest' := fun hm => hj (by simp [hm])
          obtain ⟨w1, w2⟩ := q6 j (notMem_cons_of hja hjn)
          constructor
          · intro hage hr
            obtain ⟨u1, u2⟩ := w1 hage hr
            constructor
            · show (st.1.set a (resetObj size)).getD j default = _
              rw [getD_set_ne _ _ _ _ _ (fun hh => hja hh.symm)]
              exact u1
            · show (st.2.set a true).getD j false = _
              rw [getD_set_ne _ _ _ _ _ (fun hh => hja hh.symm)]
              exact u2
          · intro hcase
            obtain ⟨u1, u2⟩ := w2 hcase
            constructor
            · show (st.1.set a (resetObj size)).getD j default = _
              rw [getD_set_ne _ _ _ _ _ (fun hh => hja hh.symm)]
              exact u1
            · show (st.2.set a true).getD j false = _
              rw [getD_set_ne _ _ _ _ _ (fun hh => hja hh.symm)]
              exact u2
    · -- dead or reachable: leave it alone
      have hstep : sweepStep size reach st a = st := by
        simp only [sweepStep]
        rw [if_neg ?_]
        intro hcon
        apply hc
        refine ⟨by rw [← hsta]; exact hcon.1, ?_⟩
        cases hb : reach.getD a false
        · rfl
        · exact absurd hb hcon.2
      rw [hstep]
      refine ⟨q1, q2, fun j hj => q0 j (by simp [hj]), qN',
        fun j hj => q5 j (by simp [hj]), ?_⟩
      intro j hj
      by_cases hja : j = a
      · subst hja
        constructor
        · intro hage hr
          exact absurd ⟨hage, hr⟩ hc
        · intro _
          exact ⟨hsta, hstd⟩
      · exact q6 j (notMem_cons_of hja (fun hm => hj (by simp [hm])))
  have hp3 : pass3 count size objs2 d2 = .ok
      ((List.range objs2.length).foldl (sweepStep size reach)
        (objs2, d2)) := by
    simp only [pass3, hreach]
    rfl
  obtain ⟨s1, s2, _, _, s5, s6⟩ := hsweep
  refine ⟨_, _, reach, hp3, s1, s2, ?_, ?_, hchar⟩
  · intro j hage hr
    exact (s6 j (List.not_mem_nil j)).1 hage hr
  · intro j hcase
    exact (s6 j (List.not_mem_nil j)).2 hcase

/-! ### Sanitize: whole-run lemmas -/

/-- An accepted head walk survives resets that only ever hit records with
`chunk_pos_in_blob = 0`. -/
theorem headOK_transfer_resets (count : Nat) (objsA objsB : List Obj)
    (i : Nat) (hOK : HeadOK count objsA i)
    (hBi : objsB.getD i default = objsA.getD i default)
    (hmod : ∀ j, objsB.getD j default = objsA.getD j default ∨
      (objsA.getD j default).chunkPosInBlob = 0) :
    HeadOK count objsB i ∧
      chainListF objsB sanFuel i = chainListF objsA sanFuel i := by
  apply headOK_transfer count objsA objsB i hOK
  intro p hp j hj
  obtain ⟨p0, hc0, hh0, ht0⟩ := pass1Walk_path count objsA sanFuel i _ 0 hOK
  rw [hp] at hc0
  injection hc0 with hc0
  subst hc0
  rcases headMem_cases p i hh0 j hj with rfl | hjt
  · exact hBi
  · rcases hmod j with h | h
    · exact h
    · exact absurd h (ht0 j hjt).2.2

theorem noTriple_of_resets (size : Nat) (objsA objsB : List Obj)
    (hlen : objsB.length = objsA.length)
    (hmod : ∀ j, objsB.getD j default = objsA.getD j default ∨
      objsB.getD j default = resetObj size) :
    NoTripleName objsA → NoTripleName objsB := by
  intro h3 i j k hi hj hk hij hik hjk hnames
  have heq : ∀ m, AliveHeadAt objsB m →
      objsB.getD m default = objsA.getD m default := by
    intro m hm
    rcases hmod m with h | h
    · exact h
    · have hm2 := hm.2
      rw [h] at hm2
      exact absurd hm2 (by simp [resetObj_isAliveHead])
  have hi' : AliveHeadAt objsA i := by
    refine ⟨by have := hi.1; omega, ?_⟩
    rw [← heq i hi]
    exact hi.2
  have hj' : AliveHeadAt objsA j := by
    refine ⟨by have := hj.1; omega, ?_⟩
    rw [← heq j hj]
    exact hj.2
  have hk' : AliveHeadAt objsA k := by
    refine ⟨by have := hk.1; omega, ?_⟩
    rw [← heq k hk]
    exact hk.2
  apply h3 i j k hi' hj' hk' hij hik hjk
  rw [← heq i hi, ← heq j hj, ← heq k hk]
  exact hnames

/-- Pass-1 and pass-2 outputs: lengths, accepted walks for every
surviving live head, reset-only modification, clean-implies-untouched,
and (with no tripled name) unique surviving names. -/
theorem passes12_spec (count size : Nat) (objs0 : List Obj) (d0 : List Bool)
    (objs1 objs2 : List Obj) (d1 d2 : List Bool)
    (hd0 : d0.length = objs0.length)
    (h1 : pass1 count size objs0 d0 = .ok (objs1, d1))
    (h2 : pass2 size objs1 d1 = .ok (objs2, d2)) :
    objs2.length = objs0.length ∧ d2.length = d0.length ∧
    (∀ i, AliveHeadAt objs2 i → HeadOK count objs2 i) ∧
    (∀ j, objs2.getD j default = objs0.getD j default ∨
      objs2.getD j default = resetObj size) ∧
    (∀ j, d2.getD j false = false →
      objs2.getD j default = objs0.getD j default ∧
        d0.getD j false = false) ∧
    (NoTripleName objs0 → UniqueHeadNames objs2) := by
  obtain ⟨l1, l1d, mod1, clean1, hOK1⟩ :=
    pass1_spec count size objs0 d0 hd0 objs1 d1 h1
  obtain ⟨l2, l2d, mod2, clean2, huniq2⟩ :=
    pass2_spec size objs1 d1 (by omega) objs2 d2 h2
  have hmod21 : ∀ j, objs2.getD j default = objs1.getD j default ∨
      (objs1.getD j default).chunkPosInBlob = 0 := by
    intro j
    rcases mod2 j with h | ⟨hal, _, _⟩
    · exact .inl h
    · exact .inr (flags_of_alive hal).2
  have halive21 : ∀ i, AliveHeadAt objs2 i →
      objs2.getD i default = objs1.getD i default ∧ AliveHeadAt objs1 i := by
    intro i hi
    rcases mod2 i with h | ⟨_, hres, _⟩
    · refine ⟨h, ⟨by have := hi.1; omega, ?_⟩⟩
      rw [← h]
      exact hi.2
    · have hi2 := hi.2
      rw [hres] at hi2
      exact absurd hi2 (by simp [resetObj_isAliveHead])
  have hOK2 : ∀ i, AliveHeadAt objs2 i → HeadOK count objs2 i := by
    intro i hi
    obtain ⟨heqi, hi1⟩ := halive21 i hi
    exact (headOK_transfer_resets count objs1 objs2 i (hOK1 i hi1)
      heqi hmod21).1
  refine ⟨by omega, by omega, hOK2, ?_, ?_, ?_⟩
  · intro j
    rcases mod2 j with h | ⟨_, hres, _⟩
    · rcases mod1 j with h' | ⟨_, hres', _⟩
      · exact .inl (h.trans h')
      · exact .inr (h.trans hres')
    · exact .inr hres
  · intro j hj
    obtain ⟨e2, hd2⟩ := clean2 j hj
    obtain ⟨e1, hd1⟩ := clean1 j hd2
    exact ⟨e2.trans e1, hd1⟩
  · intro h3
    apply huniq2
    have hmod10 : ∀ j, objs1.getD j default = objs0.getD j default ∨
        objs1.getD j default = resetObj size := by
      intro j
      rcases mod1 j with h | ⟨_, hres, _⟩
      · exact .inl h
      · exact .inr hres
    exact noTriple_of_resets size objs0 objs1 l1 hmod10 h3

/-- One iteration of pass 1 always succeeds when ages are 24-bit. -/
theorem pass1Step_ok (count size : Nat) (st : List Obj × List Bool)
    (a : Nat) (hb : AgeBounded st.1) :
    ∃ st', pass1Step count size st a = .ok st' := by
  have hage : (st.1.getD a default).objectAge < 2 ^ 24 := by
    by_cases ha : a < st.1.length
    · exact hb _ (getD_mem st.1 a default ha)
    · rw [List.getD_eq_default _ _ (Nat.le_of_not_lt ha)]
      norm_num [Obj.objectAge]
  simp only [pass1Step]
  by_cases h0 : (st.1.getD a default).objectAge = 0
  · rw [if_pos h0]
    exact ⟨st, rfl⟩
  · rw [if_neg h0]
    by_cases hp : (st.1.getD a default).chunkPosInBlob ≠ 0
    · rw [if_pos hp]
      exact ⟨st, rfl⟩
    · rw [if_neg hp]
      obtain ⟨b, hw⟩ := pass1Walk_fuel count st.1 hb sanFuel
        (st.1.getD a default).objectAge a 0 hage (by simp [sanFuel])
      rw [hw]
      cases b
      · exact ⟨(st.1.set a (resetObj size), st.2.set a true), rfl⟩
      · exact ⟨st, rfl⟩

theorem ageBounded_set_reset (size : Nat) (objs : List Obj) (a : Nat)
    (hb : AgeBounded objs) : AgeBounded (objs.set a (resetObj size)) := by
  intro o ho
  rcases List.mem_or_eq_of_mem_set ho with h | h
  · exact hb o h
  · rw [h]
    norm_num [resetObj, Obj.objectAge]

/-- Pass 1 always succeeds on 24-bit ages. -/
theorem pass1_total (count size : Nat) (objs : List Obj) (d : List Bool)
    (hb : AgeBounded objs) :
    ∃ objs1 d1, pass1 count size objs d = .ok (objs1, d1) ∧
      AgeBounded objs1 := by
  have main := foldlM_ok_invariant (pass1Step count size)
    (fun st _ => AgeBounded st.1)
    (List.range objs.length) (objs, d) hb ?step
  case step =>
    intro st a rest' hq
    obtain ⟨st', hst'⟩ := pass1Step_ok count size st a hq
    refine ⟨st', hst', ?_⟩
    rcases pass1Step_cases count size st st' a hst' with
      ⟨heq, _⟩ | ⟨_, _, heq⟩
    · rw [heq]; exact hq
    · rw [heq]
      exact ageBounded_set_reset size st.1 a hq
  obtain ⟨out, hout, hq⟩ := main
  exact ⟨out.1, out.2, by rw [← hout]; rfl, hq⟩

theorem pass2Step_error (size : Nat)
    (s : (List Obj × List Bool) × List (List Nat × Nat)) (a : Nat)
    (e : SanFail) (h : pass2Step size s a = .error e) : e = .assertFail := by
  simp only [pass2Step] at h
  repeat' split at h
  all_goals first
    | exact Except.noConfusion h
    | (injection h with h; exact h.symm)

theorem pass2_error_assert (size : Nat) (objs : List Obj) (d : List Bool)
    (e : SanFail) (h : pass2 size objs d = .error e) : e = .assertFail := by
  simp only [pass2] at h
  cases hfold : (List.range objs.length).foldlM (pass2Step size)
      ((objs, d), []) with
  | error e' =>
    rw [hfold] at h
    simp only [Except.map] at h
    injection h with h
    subst h
    exact foldlM_error_pred (pass2Step size) (· = .assertFail)
      (fun s a e => pass2Step_error size s a e) _ _ _ hfold
  | ok full =>
    rw [hfold] at h
    exact absurd h (by simp [Except.map])

/-- On a loaded store the sanitizer either completes or raises the pass-2
`AssertionError`; the chain walks always terminate. -/
theorem sanitizeE_total (S : Store)
    (hd : S.dirty.length = S.objects.length)
    (hlen : S.objects.length = S.geo.objectCountInStore)
    (hb : AgeBounded S.objects) :
    (∃ S', sanitizeE S = .ok S') ∨ sanitizeE S = .error .assertFail := by
  obtain ⟨objs1, d1, h1, hb1⟩ := pass1_total S.geo.objectCountInStore
    S.geo.objectSizeInStore S.objects S.dirty hb
  cases h2 : pass2 S.geo.objectSizeInStore objs1 d1 with
  | error e =>
    right
    have he := pass2_error_assert _ _ _ _ h2
    subst he
    simp [sanitizeE, h1, h2, except_bind_ok, except_bind_error,
      except_fmap_error]
  | ok st2 =>
    left
    obtain ⟨objs2, d2⟩ := st2
    obtain ⟨hl2, hl2d, hOK2, _, _, _⟩ := passes12_spec
      S.geo.objectCountInStore S.geo.objectSizeInStore S.objects S.dirty
      objs1 objs2 d1 d2 hd h1 h2
    obtain ⟨objs3, d3, reach, h3, _, _, _, _, _⟩ := pass3_spec
      S.geo.objectCountInStore S.geo.objectSizeInStore objs2 d2
      (by omega) (by omega) hOK2
    refine ⟨{ S with objects := objs3, dirty := d3 }, ?_⟩
    simp [sanitizeE, h1, h2, h3, except_bind_ok, except_fmap_ok]

/-- Full description of a successful sanitize run. -/
theorem sanitizeE_spec (S S' : Store)
    (hd : S.dirty.length = S.objects.length)
    (hlen : S.objects.length = S.geo.objectCountInStore)
    (hok : sanitizeE S = .ok S') :
    S'.geo = S.geo ∧ S'.storeAge = S.storeAge ∧
    S'.objects.length = S.objects.length ∧
    S'.dirty.length = S.dirty.length ∧
    (∀ j, S'.objects.getD j default = S.objects.getD j default ∨
      S'.objects.getD j default = resetObj S.geo.objectSizeInStore) ∧
    (∀ j, S'.dirty.getD j false = false →
      S'.objects.getD j default = S.objects.getD j default ∧
        S.dirty.getD j false = false) ∧
    (∀ i, AliveHeadAt S'.objects i →
      HeadOK S.geo.objectCountInStore S'.objects i) ∧
    (∀ j, (S'.objects.getD j default).objectAge ≠ 0 →
      ∃ h p, AliveHeadAt S'.objects h ∧
        chainListF S'.objects sanFuel h = some p ∧ j ∈ p) ∧
    (NoTripleName S.objects → UniqueHeadNames S'.objects) := by
  simp only [sanitizeE] at hok
  cases h1 : pass1 S.geo.objectCountInStore S.geo.objectSizeInStore
      S.objects S.dirty with
  | error e => rw [h1] at hok; rw [except_bind_error] at hok; exact Except.noConfusion hok
  | ok st1 =>
  rw [h1] at hok
  obtain ⟨objs1, d1⟩ := st1
  rw [except_bind_ok] at hok
  cases h2 : pass2 S.geo.objectSizeInStore objs1 d1 with
  | error e => rw [h2] at hok; rw [except_bind_error] at hok; exact Except.noConfusion hok
  | ok st2 =>
  rw [h2] at hok
  obtain ⟨objs2, d2⟩ := st2
  rw [except_bind_ok] at hok
  obtain ⟨l2, l2d, hOK2, mod2, clean2, huniq2⟩ := passes12_spec
    S.geo.objectCountInStore S.geo.objectSizeInStore S.objects S.dirty
    objs1 objs2 d1 d2 hd h1 h2
  obtain ⟨objs3, d3, reach, h3, l3, l3d, hreset3, hsame3, hchar⟩ :=
    pass3_spec S.geo.objectCountInStore S.geo.objectSizeInStore objs2 d2
      (by omega) (by omega) hOK2
  rw [h3] at hok
  rw [except_bind_ok] at hok
  injection hok with hok
  subst hok
  -- classification of records after the sweep
  have hcases3 : ∀ j, (objs3.getD j default = objs2.getD j default ∧
      d3.getD j false = d2.getD j false ∧
      ((objs2.getD j default).objectAge = 0 ∨
        reach.getD j false = true)) ∨
      (objs3.getD j default = resetObj S.geo.objectSizeInStore ∧
        d3.getD j false = true) := by
    intro j
    by_cases hage : (objs2.getD j default).objectAge = 0
    · obtain ⟨u1, u2⟩ := hsame3 j (.inl hage)
      exact .inl ⟨u1, u2, .inl hage⟩
    · by_cases hr : reach.getD j false = true
      · obtain ⟨u1, u2⟩ := hsame3 j (.inr hr)
        exact .inl ⟨u1, u2, .inr hr⟩
      · obtain ⟨u1, u2⟩ := hreset3 j hage (by
          cases hb : reach.getD j false
          · rfl
          · exact absurd hb hr)
        exact .inr ⟨u1, u2⟩
  have halive32 : ∀ i, AliveHeadAt objs3 i →
      objs3.getD i default = objs2.getD i default ∧ AliveHeadAt objs2 i ∧
      reach.getD i false = true := by
    intro i hi
    rcases hcases3 i with ⟨u1, _, u3⟩ | ⟨u1, _⟩
    · have hi2 : AliveHeadAt objs2 i := by
        refine ⟨by have := hi.1; omega, ?_⟩
        rw [← u1]
        exact hi.2
      rcases u3 with h0 | hr
      · exfalso
        have := (flags_of_alive hi2.2).1
        exact this h0
      · exact ⟨u1, hi2, hr⟩
    · have hia := hi.2
      rw [u1] at hia
      exact absurd hia (by simp [resetObj_isAliveHead])
  have hchain32 : ∀ i, AliveHeadAt objs2 i → reach.getD i false = true →
      HeadOK S.geo.objectCountInStore objs3 i ∧
        chainListF objs3 sanFuel i = chainListF objs2 sanFuel i := by
    intro i hi2 _
    apply headOK_transfer _ objs2 objs3 i (hOK2 i hi2)
    intro p hp j hj
    have hrj : reach.getD j false = true := (hchar j).mpr ⟨i, p, hi2, hp, hj⟩
    rcases hcases3 j with ⟨u1, _, _⟩ | ⟨_, _⟩
    · exact u1
    · obtain ⟨u1, u2⟩ := hsame3 j (.inr hrj)
      exact u1
  refine ⟨rfl, rfl, ?_, ?_, ?_, ?_, ?_, ?_, ?_⟩
  · show objs3.length = S.objects.length
    omega
  · show d3.length = S.dirty.length
    omega
  · intro j
    rcases hcases3 j with ⟨u1, _, _⟩ | ⟨u1, _⟩
    · rcases mod2 j with h | h
      · exact .inl (u1.trans h)
      · exact .inr (u1.trans h)
    · exact .inr u1
  · intro j hj
    rcases hcases3 j with ⟨u1, u2, _⟩ | ⟨_, u2⟩
    · rw [u2] at hj
      obtain ⟨e2, hd2⟩ := clean2 j hj
      exact ⟨u1.trans e2, hd2⟩
    · rw [u2] at hj
      exact absurd hj (by simp)
  · intro i hi
    obtain ⟨heqi, hi2, hr⟩ := halive32 i hi
    exact (hchain32 i hi2 hr).1
  · intro j hage3
    have h2age : (objs2.getD j default).objectAge ≠ 0 ∧
        reach.getD j false = true := by
      rcases hcases3 j with ⟨u1, _, u3⟩ | ⟨u1, _⟩
      · rcases u3 with h0 | hr
        · rw [u1] at hage3
          exact absurd h0 hage3
        · refine ⟨?_, hr⟩
          rw [← u1]
          exact hage3
      · rw [u1] at hage3
        exact absurd (resetObj_not_alive_flags _) hage3
    obtain ⟨h, p, hal2, hc2, hjp⟩ := (hchar j).mp h2age.2
    have hrh : reach.getD h false = true := by
      apply (hchar h).mpr
      refine ⟨h, p, hal2, hc2, ?_⟩
      have := chainListF_head objs2 sanFuel h p hc2
      cases p with
      | nil => simp at this
      | cons q t =>
        simp only [List.head?_cons, Option.some.injEq] at this
        simp [this]
    have hal3 : AliveHeadAt objs3 h := by
      obtain ⟨u1, _⟩ := hsame3 h (.inr hrh)
      exact ⟨by
        have := hal2.1
        omega, by rw [u1]; exact hal2.2⟩
    obtain ⟨_, hceq⟩ := hchain32 h hal2 hrh
    exact ⟨h, p, hal3, by rw [hceq]; exact hc2, hjp⟩
  · intro h3
    have huniq := huniq2 h3
    intro i j hi hj hij
    obtain ⟨hei, hi2, _⟩ := halive32 i hi
    obtain ⟨hej, hj2, _⟩ := halive32 j hj
    rw [hei, hej]
    exact huniq i j hi2 hj2 hij

/-! ### Sanitize is the identity on its own output -/

theorem pass1_id (count size : Nat) (objs : List Obj) (d : List Bool)
    (hOK : ∀ i, AliveHeadAt objs i → HeadOK count objs i) :
    pass1 count size objs d = .ok (objs, d) := by
  apply foldlM_fixed
  intro a ha
  have halt : a < objs.length := by simpa using ha
  simp only [pass1Step]
  by_cases h0 : (objs.getD a default).objectAge = 0
  · rw [if_pos h0]
  · rw [if_neg h0]
    by_cases hp : (objs.getD a default).chunkPosInBlob ≠ 0
    · rw [if_pos hp]
    · rw [if_neg hp]
      have hw : pass1Walk count objs sanFuel a
          (objs.getD a default).objectAge 0 = .ok true :=
        hOK a ⟨halt, alive_of_flags h0 (by simpa using hp)⟩
      rw [hw]

theorem pass2_id (size : Nat) (objs : List Obj) (d : List Bool)
    (huniq : UniqueHeadNames objs) :
    pass2 size objs d = .ok (objs, d) := by
  have main := foldlM_ok_invariant (pass2Step size)
    (fun s rest =>
      s.1 = (objs, d) ∧ (∀ j ∈ rest, j < objs.length) ∧ rest.Nodup ∧
      (∀ e ∈ s.2, e.2 < objs.length ∧
        (objs.getD e.2 default).isAliveHead = true ∧
        (objs.getD e.2 default).blobName = e.1 ∧ e.2 ∉ rest))
    (List.range objs.length) ((objs, d), [])
    ⟨rfl, fun j hj => by simpa using hj, List.nodup_range _,
      fun e he => absurd he (List.not_mem_nil e)⟩ ?step
  case step =>
    intro s a rest' hQ
    obtain ⟨hs, q0, qN, q6⟩ := hQ
    have halt : a < objs.length := q0 a (by simp)
    have hnotin : a ∉ rest' := (List.nodup_cons.mp qN).1
    have qN' : rest'.Nodup := (List.nodup_cons.mp qN).2
    have hso : s.1.1 = objs := by rw [hs]
    have hsd : s.1.2 = d := by rw [hs]
    by_cases h0 : (s.1.1.getD a default).objectAge = 0
    · refine ⟨s, ?_, hs, fun j hj => q0 j (by simp [hj]), qN', ?_⟩
      · simp only [pass2Step]
        rw [if_pos h0]
      · intro e he
        obtain ⟨e1, e2, e3, e4⟩ := q6 e he
        exact ⟨e1, e2, e3, fun hm => e4 (by simp [hm])⟩
    · by_cases hp : (s.1.1.getD a default).chunkPosInBlob ≠ 0
      · refine ⟨s, ?_, hs, fun j hj => q0 j (by simp [hj]), qN', ?_⟩
        · simp only [pass2Step]
          rw [if_neg h0, if_pos hp]
        · intro e he
          obtain ⟨e1, e2, e3, e4⟩ := q6 e he
          exact ⟨e1, e2, e3, fun hm => e4 (by simp [hm])⟩
      · have halive : (objs.getD a default).isAliveHead = true := by
          rw [← hso]
          exact alive_of_flags h0 (by simpa using hp)
        cases hfind : s.2.find?
            (fun e => decide (e.1 = (s.1.1.getD a default).blobName)) with
        | some e =>
          exfalso
          have he_mem : e ∈ s.2 := List.mem_of_find?_eq_some hfind
          obtain ⟨e1, e2, e3, e4⟩ := q6 e he_mem
          have hea : e.2 ≠ a := fun hh => e4 (by simp [hh])
          have hne := huniq e.2 a ⟨e1, e2⟩ ⟨halt, halive⟩ hea
          apply hne
          have := List.find?_some hfind
          simp only [decide_eq_true_eq] at this
          rw [e3, this, hso]
        | none =>
          refine ⟨(s.1, ((s.1.1.getD a default).blobName, a) :: s.2),
            ?_, hs, fun j hj => q0 j (by simp [hj]), qN', ?_⟩
          · simp only [pass2Step]
            rw [if_neg h0, if_neg hp, hfind]
          · intro e he
            rcases List.mem_cons.mp he with rfl | he'
            · exact ⟨halt, halive, by rw [hso], hnotin⟩
            · obtain ⟨e1, e2, e3, e4⟩ := q6 e he'
              exact ⟨e1, e2, e3, fun hm => e4 (by simp [hm])⟩
  obtain ⟨out, hfold, hout, _, _, _⟩ := main
  simp only [pass2, hfold, Except.map, hout]

theorem pass3_id (count size : Nat) (objs : List Obj) (d : List Bool)
    (hlen : objs.length = count)
    (hOK : ∀ i, AliveHeadAt objs i → HeadOK count objs i)
    (hreach : ∀ j, (objs.getD j default).objectAge ≠ 0 →
      ∃ h p, AliveHeadAt objs h ∧ chainListF objs sanFuel h = some p ∧
        j ∈ p) :
    pass3 count size objs d = .ok (objs, d) := by
  obtain ⟨reach, hra, hrlen, hchar⟩ := reachArray_spec count objs hlen hOK
  have hfold : (List.range objs.length).foldl (sweepStep size reach)
      (objs, d) = (objs, d) := by
    apply foldl_fixed
    intro a _
    have hcond : ¬ (((objs, d).1.getD a default).objectAge ≠ 0 ∧
        ¬ (reach.getD a false = true)) := by
      rintro ⟨hage, hnr⟩
      obtain ⟨h, p, hal, hc, hjp⟩ := hreach a hage
      exact hnr ((hchar a).mpr ⟨h, p, hal, hc, hjp⟩)
    simp only [sweepStep]
    rw [if_neg hcond]
  simp only [pass3, hra, except_bind_ok]
  rw [hfold]
  rfl

/-- A successful sanitize is idempotent when the loaded store has no blob
name carried by three live heads: the second run leaves the store
exactly as the first left it. -/
theorem sanitizeE_idem (S S' : Store)
    (hd : S.dirty.length = S.objects.length)
    (hlen : S.objects.length = S.geo.objectCountInStore)
    (h3 : NoTripleName S.objects)
    (hok : sanitizeE S = .ok S') :
    sanitizeE S' = .ok S' := by
  obtain ⟨hgeo, _, hlen3, hdlen3, _, _, hOK3, hreach3, huniq⟩ :=
    sanitizeE_spec S S' hd hlen hok
  have hcount : S'.geo.objectCountInStore = S.geo.objectCountInStore := by
    rw [hgeo]
  have hOK3' : ∀ i, AliveHeadAt S'.objects i →
      HeadOK S'.geo.objectCountInStore S'.objects i := by
    rw [hcount]
    exact hOK3
  have hlen' : S'.objects.length = S'.geo.objectCountInStore := by
    rw [hcount, hlen3, hlen]
  have hp1 := pass1_id S'.geo.objectCountInStore S'.geo.objectSizeInStore
    S'.objects S'.dirty hOK3'
  have hp2 := pass2_id S'.geo.objectSizeInStore S'.objects S'.dirty
    (huniq h3)
  have hp3 := pass3_id S'.geo.objectCountInStore S'.geo.objectSizeInStore
    S'.objects S'.dirty hlen' hOK3' hreach3
  simp only [sanitizeE, hp1, except_bind_ok]
  simp only [hp2, except_bind_ok]
  simp only [hp3, except_bind_ok]
  rfl

/-! ### Claims C2, C7 and C10 -/

/-- Claim C2 (amended): after a successful `sanitize()` on a loaded
store, every record with `object_age != 0` is reachable by following
`next_chunk_index_in_store` links from AT LEAST one surviving head.  The
"exactly one" half of the claim is refuted separately: a record can be
shared between two heads' chains. -/
theorem sanitize_live_records_reachable (dev : List (List Nat))
    (S S' : Store) (hload : loadStore dev = some S)
    (hok : sanitizeE S = .ok S') :
    ∀ j, (S'.objects.getD j default).objectAge ≠ 0 →
      ∃ h p, AliveHeadAt S'.objects h ∧
        chainListF S'.objects sanFuel h = some p ∧ j ∈ p := by
  obtain ⟨hlen, hd, _⟩ := loadStore_wf dev S hload
  obtain ⟨_, _, _, _, _, _, _, hreach, _⟩ := sanitizeE_spec S S' hd hlen hok
  exact hreach

set_option maxRecDepth 100000 in
theorem sanitize_live_records_reachable_witness :
    loadStore devSharedTail = some storeSharedTail ∧
    sanitizeE storeSharedTail = .ok storeSharedTailSan ∧
    (storeSharedTailSan.objects.getD 2 default).objectAge ≠ 0 ∧
    ∃ h p, AliveHeadAt storeSharedTailSan.objects h ∧
      chainListF storeSharedTailSan.objects sanFuel h = some p ∧ 2 ∈ p :=
  ⟨by rfl, by rfl, by decide,
    sanitize_live_records_reachable devSharedTail storeSharedTail
      storeSharedTailSan (by rfl) (by rfl) 2 (by decide)⟩

/-- Claim C10: every chain walk inside `Store.sanitize` terminates on
every loaded store, even with arbitrary link graphs: each accepted
pass-1 hop needs the successor's age to continue the strictly increasing
running age, ages are below `2 ^ 24`, and the embedded walks carry fuel
`2 ^ 24` — which is proved never to run out: sanitize either returns a
store or raises the pass-2 assert, and never exhausts a walk. -/
theorem sanitize_chain_walks_terminate (dev : List (List Nat)) (S : Store)
    (hload : loadStore dev = some S) :
    (∃ S', sanitizeE S = .ok S') ∨ sanitizeE S = .error .assertFail := by
  obtain ⟨hlen, hd, hb⟩ := loadStore_wf dev S hload
  exact sanitizeE_total S hd hlen hb

set_option maxRecDepth 100000 in
theorem sanitize_chain_walks_terminate_witness :
    loadStore devFresh3 = some storeFresh3 ∧
    ((∃ S', sanitizeE storeFresh3 = .ok S') ∨
      sanitizeE storeFresh3 = .error .assertFail) :=
  ⟨by rfl, sanitize_chain_walks_terminate devFresh3 storeFresh3 (by rfl)⟩

/-- Claim C7 (amended): a successful `sanitize()` on a loaded store is
idempotent PROVIDED no blob name is carried by three distinct live
heads; running it again returns the store unchanged.  With three
same-named heads the stale pass-2 dict entry lets two survive, and a
second run is not the identity (see the triple-duplicate
counterexample). -/
theorem sanitize_idempotent_without_tripled_names (dev : List (List Nat))
    (S S' : Store) (hload : loadStore dev = some S)
    (h3 : NoTripleName S.objects)
    (hok : sanitizeE S = .ok S') :
    sanitizeE S' = .ok S' := by
  obtain ⟨hlen, hd, _⟩ := loadStore_wf dev S hload
  exact sanitizeE_idem S S' hd hlen h3 hok

set_option maxRecDepth 100000 in
theorem sanitize_idempotent_without_tripled_names_witness :
    loadStore devFresh3 = some storeFresh3 ∧
    sanitizeE storeFresh3 = .ok storeFresh3San ∧
    sanitizeE storeFresh3San = .ok storeFresh3San := by
  refine ⟨by rfl, by rfl, ?_⟩
  apply sanitize_idempotent_without_tripled_names devFresh3 storeFresh3
    storeFresh3San (by rfl) ?_ (by rfl)
  intro i j k hi hj hk hij hik hjk
  exfalso
  have h1 : i < 3 := by
    have := hi.1
    rw [show storeFresh3.objects.length = 3 from by rfl] at this
    exact this
  have h2 := hi.2
  interval_cases i
  · exact absurd h2 (by decide)
  · exact absurd h2 (by decide)
  · exact absurd h2 (by decide)

/-! ### Allocation lemmas -/

theorem freeIndexes_mem (objs : List Obj) (i : Nat)
    (h : i ∈ freeIndexes objs) :
    i < objs.length ∧ (objs.getD i default).objectAge = 0 := by
  simp only [freeIndexes, List.mem_filter, List.mem_range,
    decide_eq_true_eq] at h
  exact h

theorem freeIndexes_nodup (objs : List Obj) : (freeIndexes objs).Nodup :=
  (List.nodup_range _).filter _

theorem allocBody_spec (cb : Int) :
    ∀ (avail acc : List Nat) (pending : Int) (out : List Nat),
      allocBody cb avail acc pending = some out →
      ∃ m, m ≤ avail.length ∧ out = acc ++ avail.take m ∧
        pending - m * cb ≤ 0 ∧
        (∀ k : Nat, k < m → 0 < pending - k * cb) := by
  intro avail
  induction avail with
  | nil =>
    intro acc pending out h
    rw [allocBody.eq_def] at h
    split at h
    · rename_i hple
      injection h with h
      subst h
      exact ⟨0, by simp, by simp, by simpa using hple,
        fun k hk => absurd hk (by omega)⟩
    · exact Option.noConfusion h
  | cons i rest ih =>
    intro acc pending out h
    rw [allocBody.eq_def] at h
    split at h
    · rename_i hple
      injection h with h
      subst h
      exact ⟨0, by simp, by simp, by simpa using hple,
        fun k hk => absurd hk (by omega)⟩
    · rename_i hple
      obtain ⟨m, hm1, hm2, hm3, hm4⟩ := ih (acc ++ [i]) (pending - cb) out h
      have hpos : 0 < pending := by
        by_contra hcon
        exact hple (by omega)
      refine ⟨m + 1, by simpa using hm1, ?_, ?_, ?_⟩
      · rw [hm2]
        simp
      · have he : ((m + 1 : Nat) : Int) * cb = m * cb + cb := by
          push_cast
          ring
        rw [he]
        omega
      · intro k hk
        cases k with
        | zero =>
          simpa using hpos
        | succ k' =>
          have hk' := hm4 k' (by omega)
          have he : ((k' + 1 : Nat) : Int) * cb = k' * cb + cb := by
            push_cast
            ring
          rw [he]
          omega

theorem allocIndexes_spec (avail : List Nat) (payloadLen : Nat)
    (ch cb : Int) (out : List Nat)
    (h : allocIndexes avail payloadLen ch cb = some out) :
    ∃ n, 1 ≤ n ∧ n ≤ avail.length ∧ out = avail.take n ∧
      ((payloadLen : Int) - ch) - (n - 1 : Nat) * cb ≤ 0 ∧
      (∀ k : Nat, k + 1 < n → 0 < ((payloadLen : Int) - ch) - k * cb) := by
  cases avail with
  | nil => exact Option.noConfusion h
  | cons i rest =>
    simp only [allocIndexes] at h
    obtain ⟨m, hm1, hm2, hm3, hm4⟩ :=
      allocBody_spec cb rest [i] ((payloadLen : Int) - ch) out h
    refine ⟨m + 1, by omega, by simpa using hm1, ?_, ?_, ?_⟩
    · rw [hm2]
      simp
    · simpa using hm3
    · intro k hk
      exact hm4 k (by omega)

/-! ### Chunk construction lemmas -/

theorem objectInit_body_inv (g : Geometry) (age pos nxt : Nat)
    (p : List Nat) (obj : Obj) (h0 : age ≠ 0) (hp0 : pos ≠ 0)
    (h : objectInit g age (some pos) (some nxt) none none none none none
      (some p) = some obj) :
    obj = .body age pos nxt (padRight p
      ((g.objectSizeInStore : Int) - (BLOB_MODIFICATION_TIME_O : Nat)).toNat) ∧
    GeometryWF g ∧ age < 256 ^ OBJECT_AGE_S ∧
    pos < 256 ^ CHUNK_POS_IN_BLOB_S ∧
    nxt < 256 ^ NEXT_CHUNK_INDEX_IN_STORE_S ∧
    (p.length : Int) ≤
      (g.objectSizeInStore : Int) - (BLOB_MODIFICATION_TIME_O : Nat) := by
  simp only [objectInit] at h
  by_cases hg : GeometryWF g
  case neg => rw [if_pos hg] at h; exact Option.noConfusion h
  rw [if_neg (not_not_intro hg)] at h
  by_cases hage : age < 256 ^ OBJECT_AGE_S
  case neg => rw [if_pos hage] at h; exact Option.noConfusion h
  rw [if_neg (not_not_intro hage)] at h
  rw [if_neg h0] at h
  by_cases hpb : pos < 256 ^ CHUNK_POS_IN_BLOB_S
  case neg => rw [if_pos hpb] at h; exact Option.noConfusion h
  rw [if_neg (not_not_intro hpb)] at h
  by_cases hnb : nxt < 256 ^ NEXT_CHUNK_INDEX_IN_STORE_S
  case neg => rw [if_pos hnb] at h; exact Option.noConfusion h
  rw [if_neg (not_not_intro hnb)] at h
  rw [if_pos hp0] at h
  by_cases hcap : (p.length : Int) >
      (g.objectSizeInStore : Int) - (BLOB_MODIFICATION_TIME_O : Nat)
  case pos => rw [if_pos hcap] at h; exact Option.noConfusion h
  rw [if_neg hcap] at h
  injection h with h
  exact ⟨h.symm, hg, hage, hpb, hnb, by omega⟩

theorem objectInit_head_inv (g : Geometry) (age nxt mt bs eks us : Nat)
    (nm p : List Nat) (obj : Obj) (h0 : age ≠ 0)
    (h : objectInit g age (some 0) (some nxt) (some mt) (some bs)
      (some eks) (some us) (some nm) (some p) = some obj) :
    obj = .head age nxt mt bs eks us nm (padRight p
      ((g.objectSizeInStore : Int) -
        ((BLOB_NAME_O : Nat) + nm.length)).toNat) ∧
    GeometryWF g ∧ age < 256 ^ OBJECT_AGE_S ∧
    nxt < 256 ^ NEXT_CHUNK_INDEX_IN_STORE_S ∧
    isValidUtf8 nm = true ∧ 0 < nm.length ∧
    nm.length < 256 ^ BLOB_NAME_UTF8_LEN_S ∧
    (p.length : Int) ≤
      (g.objectSizeInStore : Int) - ((BLOB_NAME_O : Nat) + nm.length) ∧
    mt < 256 ^ BLOB_MODIFICATION_TIME_S ∧ bs < 256 ^ BLOB_SIZE_S ∧
    eks < 256 ^ BLOB_ENCRYPTION_KEY_SLOT_S ∧
    us < 256 ^ BLOB_UNENCRYPTED_SIZE_S := by
  simp only [objectInit] at h
  by_cases hg : GeometryWF g
  case neg => rw [if_pos hg] at h; exact Option.noConfusion h
  rw [if_neg (not_not_intro hg)] at h
  by_cases hage : age < 256 ^ OBJECT_AGE_S
  case neg => rw [if_pos hage] at h; exact Option.noConfusion h
  rw [if_neg (not_not_intro hage)] at h
  rw [if_neg h0] at h
  rw [if_neg (by norm_num :
    ¬ ¬ ((0 : Nat) < 256 ^ CHUNK_POS_IN_BLOB_S))] at h
  by_cases hnb : nxt < 256 ^ NEXT_CHUNK_INDEX_IN_STORE_S
  case neg => rw [if_pos hnb] at h; exact Option.noConfusion h
  rw [if_neg (not_not_intro hnb)] at h
  rw [if_neg (by norm_num : ¬ ((0 : Nat) ≠ 0))] at h
  by_cases hutf : isValidUtf8 nm = true
  case neg => rw [if_pos hutf] at h; exact Option.noConfusion h
  rw [if_neg (not_not_intro hutf)] at h
  by_cases hnm : 0 < nm.length ∧ nm.length < 256 ^ BLOB_NAME_UTF8_LEN_S
  case neg => rw [if_pos hnm] at h; exact Option.noConfusion h
  rw [if_neg (not_not_intro hnm)] at h
  by_cases hcap : (p.length : Int) >
      (g.objectSizeInStore : Int) - ((BLOB_NAME_O : Nat) + nm.length)
  case pos => rw [if_pos hcap] at h; exact Option.noConfusion h
  rw [if_neg hcap] at h
  by_cases hmt : mt < 256 ^ BLOB_MODIFICATION_TIME_S
  case neg => rw [if_pos hmt] at h; exact Option.noConfusion h
  rw [if_neg (not_not_intro hmt)] at h
  by_cases hbs : bs < 256 ^ BLOB_SIZE_S
  case neg => rw [if_pos hbs] at h; exact Option.noConfusion h
  rw [if_neg (not_not_intro hbs)] at h
  by_cases heks : eks < 256 ^ BLOB_ENCRYPTION_KEY_SLOT_S
  case neg => rw [if_pos heks] at h; exact Option.noConfusion h
  rw [if_neg (not_not_intro heks)] at h
  by_cases hus : us < 256 ^ BLOB_UNENCRYPTED_SIZE_S
  case neg => rw [if_pos hus] at h; exact Option.noConfusion h
  rw [if_neg (not_not_intro hus)] at h
  injection h with h
  exact ⟨h.symm, hg, hage, hnb, hutf, hnm.1, hnm.2, by omega, hmt, hbs,
    heks, hus⟩

theorem commitObject_inv (S : Store) (i : Nat) (o : Obj) (d : Bool)
    (S' : Store) (hlt : i < S.objects.length)
    (h : commitObject S i o d = some S') :
    S' = ⟨S.geo, max S.storeAge o.objectAge, S.objects.set i o,
      S.dirty.set i d⟩ := by
  simp only [commitObject] at h
  rw [if_pos hlt] at h
  injection h with h
  exact h.symm

theorem buildChunks_body_spec (payload : List Nat) (ch cb : Int)
    (mtime encSlot unencSize : Nat) (nm : List Nat) :
    ∀ (idxs : List Nat) (S : Store) (pos : Nat) (endAcc : Int) (S' : Store),
      1 ≤ pos →
      buildChunks payload ch cb mtime encSlot unencSize nm S idxs pos
        endAcc = .ok S' →
      (∀ j ∈ idxs, j < S.objects.length) → idxs.Nodup →
      S.dirty.length = S.objects.length →
      S'.geo = S.geo ∧
      S'.objects.length = S.objects.length ∧
      S'.dirty.length = S.dirty.length ∧
      S'.storeAge = S.storeAge + idxs.length ∧
      (∀ j, j ∉ idxs →
        S'.objects.getD j default = S.objects.getD j default ∧
        S'.dirty.getD j false = S.dirty.getD j false) ∧
      (∀ k, k < idxs.length →
        S'.dirty.getD (idxs.getD k 0) false = true ∧
        S'.objects.getD (idxs.getD k 0) default =
          .body (S.storeAge + k + 1) (pos + k)
            (idxs.getD (k + 1) (idxs.getD k 0))
            (padRight (pySlice payload (endAcc + (k : Int) * cb)
                (endAcc + ((k : Int) + 1) * cb))
              ((S.geo.objectSizeInStore : Int) -
                (BLOB_MODIFICATION_TIME_O : Nat)).toNat)) := by
  intro idxs
  induction idxs with
  | nil =>
    intro S pos endAcc S' _ h _ _ hdlen
    injection h with h
    subst h
    exact ⟨rfl, rfl, rfl, by simp, fun j _ => ⟨rfl, rfl⟩,
      fun k hk => absurd hk (by simp)⟩
  | cons i rest ih =>
    intro S pos endAcc S' hpos h hbound hnodup hdlen
    have hp0 : ¬ pos = 0 := by omega
    have hilt : i < S.objects.length := hbound i (by simp)
    have hidlt : i < S.dirty.length := by omega
    have hinr : i ∉ rest := (List.nodup_cons.mp hnodup).1
    have hnodup' : rest.Nodup := (List.nodup_cons.mp hnodup).2
    simp only [buildChunks] at h
    rw [if_neg hp0, if_neg hp0] at h
    have hnxt : rest.headD i = rest.getD 0 i := by
      cases rest <;> rfl
    rw [hnxt] at h
    split at h
    · exact Except.noConfusion h
    rename_i obj hobj
    obtain ⟨hobjeq, _, _, _, _, _⟩ :=
      objectInit_body_inv S.geo (S.storeAge + 1) pos (rest.getD 0 i) _
        obj (by omega) hp0 hobj
    split at h
    · exact Except.noConfusion h
    rename_i S₁ hcom
    have hS₁ := commitObject_inv S i obj true S₁ hilt hcom
    subst hS₁
    have hagemax : max S.storeAge obj.objectAge = S.storeAge + 1 := by
      rw [hobjeq]
      simp only [Obj.objectAge]
      omega
    obtain ⟨g1, g2, g3, g4, g5, g6⟩ := ih
      ⟨S.geo, max S.storeAge obj.objectAge, S.objects.set i obj,
        S.dirty.set i true⟩
      (pos + 1) (endAcc + cb) S' (by omega) h
      (by
        intro j hj
        simp only [List.length_set]
        exact hbound j (by simp [hj]))
      hnodup' (by simp [hdlen])
    simp only at g1 g2 g3 g4 g5 g6
    rw [hagemax] at g4 g6
    refine ⟨g1, by simpa using g2, by simpa using g3,
      by rw [g4]; simp; omega, ?_, ?_⟩
    · intro j hj
      have hji : j ≠ i := fun hh => hj (by simp [hh])
      have hjr : j ∉ rest := fun hh => hj (by simp [hh])
      obtain ⟨u1, u2⟩ := g5 j hjr
      constructor
      · rw [u1, getD_set_ne _ _ _ _ _ (fun hh => hji hh.symm)]
      · rw [u2, getD_set_ne _ _ _ _ _ (fun hh => hji hh.symm)]
    · intro k hk
      cases k with
      | zero =>
        obtain ⟨u1, u2⟩ := g5 i hinr
        simp only [List.getD_cons_zero]
        constructor
        · rw [u2, getD_set_self _ _ _ _ hidlt]
        · rw [u1, getD_set_self _ _ _ _ hilt, hobjeq]
          have e1 : endAcc + ((0 : Nat) : Int) * cb = endAcc := by
            push_cast
            ring
          have e2 : endAcc + (((0 : Nat) : Int) + 1) * cb = endAcc + cb := by
            push_cast
            ring
          rw [e1, e2]
          simp
      | succ k' =>
        have hk' : k' < rest.length := by simpa using hk
        obtain ⟨u1, u2⟩ := g6 k' hk'
        simp only [List.getD_cons_succ]
        constructor
        · exact u1
        · rw [u2]
          have e1 : endAcc + cb + (k' : Int) * cb =
              endAcc + ((k' + 1 : Nat) : Int) * cb := by
            push_cast
            ring
          have e2 : endAcc + cb + ((k' : Int) + 1) * cb =
              endAcc + (((k' + 1 : Nat) : Int) + 1) * cb := by
            push_cast
            ring
          rw [e1, e2]
          have e3 : S.storeAge + 1 + k' + 1 = S.storeAge + (k' + 1) + 1 := by
            omega
          have e4 : pos + 1 + k' = pos + (k' + 1) := by
            omega
          rw [e3, e4]

theorem buildChunks_head_spec (payload : List Nat) (ch cb : Int)
    (mtime encSlot unencSize : Nat) (nm : List Nat)
    (i₀ : Nat) (rest : List Nat) (S S' : Store)
    (h : buildChunks payload ch cb mtime encSlot unencSize nm S
      (i₀ :: rest) 0 0 = .ok S')
    (hbound : ∀ j ∈ i₀ :: rest, j < S.objects.length)
    (hnodup : (i₀ :: rest).Nodup)
    (hdlen : S.dirty.length = S.objects.length) :
    S'.geo = S.geo ∧
    S'.objects.length = S.objects.length ∧
    S'.dirty.length = S.dirty.length ∧
    S'.storeAge = S.storeAge + (rest.length + 1) ∧
    (∀ j, j ∉ i₀ :: rest →
      S'.objects.getD j default = S.objects.getD j default ∧
      S'.dirty.getD j false = S.dirty.getD j false) ∧
    S'.dirty.getD i₀ false = true ∧
    S'.objects.getD i₀ default =
      .head (S.storeAge + 1) (rest.getD 0 i₀) mtime payload.length encSlot
        unencSize nm (padRight (pySlice payload 0 ch)
          ((S.geo.objectSizeInStore : Int) -
            ((BLOB_NAME_O : Nat) + nm.length)).toNat) ∧
    (∀ k, k < rest.length →
      S'.dirty.getD (rest.getD k 0) false = true ∧
      S'.objects.getD (rest.getD k 0) default =
        .body (S.storeAge + k + 2) (k + 1)
          (rest.getD (k + 1) (rest.getD k 0))
          (padRight (pySlice payload (ch + (k : Int) * cb)
              (ch + ((k : Int) + 1) * cb))
            ((S.geo.objectSizeInStore : Int) -
              (BLOB_MODIFICATION_TIME_O : Nat)).toNat)) ∧
    GeometryWF S.geo ∧ S.storeAge + 1 < 256 ^ OBJECT_AGE_S ∧
    isValidUtf8 nm = true ∧ 0 < nm.length ∧
    nm.length < 256 ^ BLOB_NAME_UTF8_LEN_S ∧
    ((pySlice payload 0 ch).length : Int) ≤
      (S.geo.objectSizeInStore : Int) - ((BLOB_NAME_O : Nat) + nm.length) ∧
    mtime < 256 ^ BLOB_MODIFICATION_TIME_S ∧
    payload.length < 256 ^ BLOB_SIZE_S ∧
    encSlot < 256 ^ BLOB_ENCRYPTION_KEY_SLOT_S ∧
    unencSize < 256 ^ BLOB_UNENCRYPTED_SIZE_S := by
  have hilt : i₀ < S.objects.length := hbound i₀ (by simp)
  have hidlt : i₀ < S.dirty.length := by omega
  have hinr : i₀ ∉ rest := (List.nodup_cons.mp hnodup).1
  have hnodup' : rest.Nodup := (List.nodup_cons.mp hnodup).2
  simp only [buildChunks] at h
  simp only [show ((0 : Nat) = 0) = True from by simp, if_true] at h
  have hnxt : rest.headD i₀ = rest.getD 0 i₀ := by
    cases rest <;> rfl
  rw [hnxt] at h
  split at h
  · exact Except.noConfusion h
  rename_i obj hobj
  obtain ⟨hobjeq, hwg, hwage, _, hutf, hnm1, hnm2, hplen, hmt, hbs, heks,
    hus⟩ := objectInit_head_inv S.geo (S.storeAge + 1) (rest.getD 0 i₀)
      mtime payload.length encSlot unencSize nm _ obj (by omega) hobj
  split at h
  · exact Except.noConfusion h
  rename_i S₁ hcom
  have hS₁ := commitObject_inv S i₀ obj true S₁ hilt hcom
  subst hS₁
  have hagemax : max S.storeAge obj.objectAge = S.storeAge + 1 := by
    rw [hobjeq]
    simp only [Obj.objectAge]
    omega
  obtain ⟨g1, g2, g3, g4, g5, g6⟩ := buildChunks_body_spec payload ch cb
    mtime encSlot unencSize nm rest
    ⟨S.geo, max S.storeAge obj.objectAge, S.objects.set i₀ obj,
      S.dirty.set i₀ true⟩
    1 (0 + ch) S' (by omega) h
    (by
      intro j hj
      simp only [List.length_set]
      exact hbound j (by simp [hj]))
    hnodup' (by simp [hdlen])
  simp only at g1 g2 g3 g4 g5 g6
  rw [hagemax] at g4 g6
  have hslice0 : (0 : Int) + ch = ch := by ring
  rw [hslice0] at h g6
  have hhead : S'.objects.getD i₀ default = obj ∧
      S'.dirty.getD i₀ false = true := by
    obtain ⟨u1, u2⟩ := g5 i₀ hinr
    constructor
    · rw [u1, getD_set_self _ _ _ _ hilt]
    · rw [u2, getD_set_self _ _ _ _ hidlt]
  refine ⟨g1, by simpa using g2, by simpa using g3,
    by omega, ?_, hhead.2, ?_, ?_, hwg, hwage, hutf,
    hnm1, hnm2, ?_, hmt, hbs, heks, hus⟩
  · intro j hj
    have hji : j ≠ i₀ := fun hh => hj (by simp [hh])
    have hjr : j ∉ rest := fun hh => hj (by simp [hh])
    obtain ⟨u1, u2⟩ := g5 j hjr
    constructor
    · rw [u1, getD_set_ne _ _ _ _ _ (fun hh => hji hh.symm)]
    · rw [u2, getD_set_ne _ _ _ _ _ (fun hh => hji hh.symm)]
  · rw [hhead.1, hobjeq]
    have e0 : pySlice payload 0 (0 + ch) = pySlice payload 0 ch := by
      rw [hslice0]
    rw [e0]
  · intro k hk
    obtain ⟨u1, u2⟩ := g6 k hk
    refine ⟨u1, ?_⟩
    rw [u2]
    have e3 : S.storeAge + 1 + k + 1 = S.storeAge + k + 2 := by omega
    have e4 : 1 + k = k + 1 := by omega
    rw [e3, e4]
  · have e0 : pySlice payload 0 (0 + ch) = pySlice payload 0 ch := by
      rw [hslice0]
    rw [← e0]
    exact hplen

/-! ### `store_blob` success inversion -/

theorem getPayloadCapacity_head (size : Nat) (nm : List Nat)
    (h1 : nm.length ≠ 0) (h2 : nm.length ≤ 255) :
    getPayloadCapacity size nm =
      some ((size : Int) - (BLOB_NAME_O : Nat) - nm.length) := by
  simp only [getPayloadCapacity]
  rw [if_neg h1, if_pos h2]

theorem getPayloadCapacity_body (size : Nat) :
    getPayloadCapacity size [] =
      some ((size : Int) - (BLOB_MODIFICATION_TIME_O : Nat)) := by
  simp [getPayloadCapacity]

theorem storeBlobCore_inv (dev : List (List Nat)) (name payload0 : List Nat)
    (enc : Bool) (ef : List Nat → List Nat) (mt : Nat)
    (store' : Store) (writes : List (Nat × List Nat))
    (hok : storeBlobCore dev name payload0 enc ef mt = .ok (store', writes)) :
    ∃ S S₀ indexes,
      ¬ (name.length = 0 ∨ 255 < name.length) ∧
      loadStore dev = some S ∧ sanitizeE S = .ok S₀ ∧
      allocIndexes (freeIndexes S₀.objects)
        (if enc then ef payload0 else payload0).length
        ((S₀.geo.objectSizeInStore : Int) - (BLOB_NAME_O : Nat) -
          name.length)
        ((S₀.geo.objectSizeInStore : Int) - (BLOB_MODIFICATION_TIME_O : Nat))
        = some indexes ∧
      buildChunks (if enc then ef payload0 else payload0)
        ((S₀.geo.objectSizeInStore : Int) - (BLOB_NAME_O : Nat) -
          name.length)
        ((S₀.geo.objectSizeInStore : Int) - (BLOB_MODIFICATION_TIME_O : Nat))
        mt (if enc then S₀.geo.storeEncryptionKeySlot else 0)
        payload0.length name S₀ indexes 0 0 = .ok store' ∧
      syncWrites store' = .ok writes := by
  by_cases hname : name.length = 0 ∨ 255 < name.length
  · exfalso
    have hred : storeBlobCore dev name payload0 enc ef mt =
        .error .valueError := by
      simp only [storeBlobCore]
      rw [if_pos hname]
      rfl
    rw [hred] at hok
    exact Except.noConfusion hok
  cases hload : loadStore dev with
  | none =>
    exfalso
    have hred : storeBlobCore dev name payload0 enc ef mt =
        .error .loadError := by
      simp only [storeBlobCore]
      rw [if_neg hname, hload]
      rfl
    rw [hred] at hok
    exact Except.noConfusion hok
  | some S =>
  cases hsan : sanitizeE S with
  | error e =>
    exfalso
    have hred : storeBlobCore dev name payload0 enc ef mt =
        .error (.sanitizeError e) := by
      simp only [storeBlobCore]
      rw [if_neg hname]
      simp only [hload, hsan]
      rfl
    rw [hred] at hok
    exact Except.noConfusion hok
  | ok S₀ =>
  have hcap1 : getPayloadCapacity S₀.geo.objectSizeInStore name =
      some ((S₀.geo.objectSizeInStore : Int) - (BLOB_NAME_O : Nat) -
        name.length) :=
    getPayloadCapacity_head _ name (by omega) (by omega)
  have hcap2 : getPayloadCapacity S₀.geo.objectSizeInStore [] =
      some ((S₀.geo.objectSizeInStore : Int) -
        (BLOB_MODIFICATION_TIME_O : Nat)) :=
    getPayloadCapacity_body _
  rw [storeBlobCore_after_sanitize dev name payload0 enc ef mt S S₀ _ _
    hname hload hsan hcap1 hcap2] at hok
  split at hok
  · exact Except.noConfusion hok
  rename_i indexes halloc
  cases hbuild : buildChunks (if enc then ef payload0 else payload0)
      ((S₀.geo.objectSizeInStore : Int) - (BLOB_NAME_O : Nat) - name.length)
      ((S₀.geo.objectSizeInStore : Int) - (BLOB_MODIFICATION_TIME_O : Nat))
      mt (if enc then S₀.geo.storeEncryptionKeySlot else 0)
      payload0.length name S₀ indexes 0 0 with
  | error e =>
    rw [hbuild] at hok
    rw [except_bind_error] at hok
    exact Except.noConfusion hok
  | ok st' =>
  rw [hbuild] at hok
  rw [except_bind_ok] at hok
  cases hsync : syncWrites st' with
  | error e =>
    rw [hsync] at hok
    rw [except_bind_error] at hok
    exact Except.noConfusion hok
  | ok ws =>
  rw [hsync] at hok
  rw [except_bind_ok] at hok
  injection hok with hok
  have h1 : st' = store' := congrArg Prod.fst hok
  have h2 : ws = writes := congrArg Prod.snd hok
  subst h1
  subst h2
  exact ⟨S, S₀, indexes, hname, rfl, hsan, halloc, hbuild, hsync⟩

/-- Claim C9: for every plaintext `P`, the envelope returned by
`hybrid_encrypt(P, Q_device)` is the concatenation `Q_eph ++ IV ++ C`
with `|Q_eph| = 65` bytes, `|IV| = 16` bytes and
`|C| = 16 * (|P| / 16 + 1)` (PKCS#7 padding always adds 1 to 16 bytes);
consequently an encrypted blob stored by `store_blob` carries
`blob_size = 65 + 16 + |C|` and `blob_unencrypted_size = |P|` in its
head chunk. -/
theorem hybrid_encrypt_envelope_and_stored_sizes
    (eph iv : List Nat) (aes : List Nat → List Nat) (P : List Nat)
    (dev : List (List Nat)) (name : List Nat) (mt : Nat)
    (store' : Store) (writes : List (Nat × List Nat))
    (he : eph.length = 65) (hi : iv.length = 16)
    (ha : ∀ x, (aes x).length = x.length)
    (hok : storeBlobCore dev name P true (hybridEncrypt eph iv aes) mt =
      .ok (store', writes)) :
    (∃ C, hybridEncrypt eph iv aes P = eph ++ iv ++ C ∧
      C.length = 16 * (P.length / 16 + 1)) ∧
    ∃ (i₀ : Nat), i₀ < store'.objects.length ∧
      (store'.objects.getD i₀ default).isHead = true ∧
      (store'.objects.getD i₀ default).blobSize =
        65 + 16 + 16 * (P.length / 16 + 1) ∧
      (store'.objects.getD i₀ default).blobUnencryptedSize = P.length := by
  obtain ⟨S, S₀, indexes, hname, hload, hsan, halloc, hbuild, hsync⟩ :=
    storeBlobCore_inv dev name P true (hybridEncrypt eph iv aes) mt
      store' writes hok
  refine ⟨⟨aes (pkcs7Pad P), rfl, by rw [ha]; exact pkcs7Pad_length P⟩, ?_⟩
  have hlenv : (hybridEncrypt eph iv aes P).length =
      65 + 16 + 16 * (P.length / 16 + 1) :=
    hybridEncrypt_length eph iv aes P he hi ha
  obtain ⟨hlenS, hdS, _⟩ := loadStore_wf dev S hload
  obtain ⟨hg0, ha0, holen0, hdlen0, _⟩ := sanitizeE_spec S S₀ hdS hlenS hsan
  have hd0 : S₀.dirty.length = S₀.objects.length := by omega
  have hpay : (if true = true then hybridEncrypt eph iv aes P else P) =
      hybridEncrypt eph iv aes P := rfl
  rw [hpay] at halloc hbuild
  obtain ⟨n, hn1, hn2, hout, -, -⟩ :=
    allocIndexes_spec _ _ _ _ _ halloc
  have hne : indexes ≠ [] := by
    rw [hout]
    intro hc
    have hlc := congrArg List.length hc
    simp only [List.length_take, List.length_nil] at hlc
    omega
  cases indexes with
  | nil => exact absurd rfl hne
  | cons i₀ rest =>
  have hbound : ∀ j ∈ i₀ :: rest, j < S₀.objects.length := by
    intro j hj
    have hj' : j ∈ freeIndexes S₀.objects :=
      List.take_subset n (freeIndexes S₀.objects) (hout ▸ hj)
    exact (freeIndexes_mem _ j hj').1
  have hnodup : (i₀ :: rest).Nodup := by
    rw [hout]
    exact (freeIndexes_nodup S₀.objects).sublist
      (List.take_sublist n (freeIndexes S₀.objects))
  obtain ⟨hg, holen, _, _, _, _, hhead, _, -⟩ :=
    buildChunks_head_spec (hybridEncrypt eph iv aes P) _ _ mt _ P.length
      name i₀ rest S₀ store' hbuild hbound hnodup hd0
  refine ⟨i₀, ?_, ?_, ?_, ?_⟩
  · rw [holen]
    exact hbound i₀ (by simp)
  · rw [hhead]
    rfl
  · rw [hhead]
    simp only [Obj.blobSize]
    exact hlenv
  · rw [hhead]
    rfl

/-- The envelope-size theorem at a concrete encrypted store: the empty
plaintext on a fresh three-record device yields a 97-byte envelope and a
head chunk recording `blob_size = 97`, `blob_unencrypted_size = 0`. -/
theorem hybrid_encrypt_envelope_and_stored_sizes_witness :
    ∃ (st : Store) (ws : List (Nat × List Nat)),
      storeBlobCore devFresh3 [97] [] true
        (hybridEncrypt (List.replicate 65 2) (List.replicate 16 3) id) 5 =
        .ok (st, ws) ∧
      ((∃ C, hybridEncrypt (List.replicate 65 2) (List.replicate 16 3) id []
          = List.replicate 65 2 ++ List.replicate 16 3 ++ C ∧
          C.length = 16 * ((0 : Nat) / 16 + 1)) ∧
        ∃ (i₀ : Nat), i₀ < st.objects.length ∧
          (st.objects.getD i₀ default).isHead = true ∧
          (st.objects.getD i₀ default).blobSize =
            65 + 16 + 16 * ((0 : Nat) / 16 + 1) ∧
          (st.objects.getD i₀ default).blobUnencryptedSize = 0) :=
  ⟨_, _, rfl, hybrid_encrypt_envelope_and_stored_sizes
    (List.replicate 65 2) (List.replicate 16 3) id []
    devFresh3 [97] 5 _ _ rfl rfl (fun _ => rfl) rfl⟩

/-! ### List, slice and byte utilities for the store/fetch round trip -/

theorem getD_range (n k : Nat) (hk : k < n) : (List.range n).getD k 0 = k := by
  rw [List.getD_eq_getElem _ _ (by simpa using hk)]
  simp

theorem range_map_getD {α : Type} (l : List α) (d : α) :
    (List.range l.length).map (fun i => l.getD i d) = l := by
  apply List.ext_getElem (by simp)
  intro i h1 h2
  simp only [List.getElem_map, List.getElem_range]
  exact List.getD_eq_getElem l d h2

theorem map_eq_range_map {α β : Type} (l : List α) (d : α) (f : α → β)
    (g : Nat → β) (h : ∀ k, k < l.length → f (l.getD k d) = g k) :
    l.map f = (List.range l.length).map g := by
  apply List.ext_getElem (by simp)
  intro i h1 h2
  simp only [List.getElem_map, List.getElem_range]
  rw [← h i (by simpa using h1)]
  congr 1
  exact (List.getD_eq_getElem _ _ (by simpa using h1)).symm

theorem pySlice_nonneg (xs : List Nat) (a b : Int) (ha : 0 ≤ a)
    (hb : 0 ≤ b) (han : a ≤ (xs.length : Int)) :
    pySlice xs a b = (xs.take b.toNat).drop a.toNat := by
  simp only [pySlice]
  rw [if_neg (by omega), if_neg (by omega)]
  have h1 : (min a (xs.length : Int)).toNat = a.toNat := by omega
  rw [h1]
  by_cases hbn : b ≤ (xs.length : Int)
  · have h2 : (min b (xs.length : Int)).toNat = b.toNat := by omega
    rw [h2]
  · have h2 : (min b (xs.length : Int)).toNat = xs.length := by omega
    rw [h2, List.take_length, List.take_of_length_le (by omega)]

theorem bytesOk_subset (bs cs : List Nat) (hsub : cs ⊆ bs)
    (h : bytesOk bs) : bytesOk cs :=
  fun b hb => h b (hsub hb)

theorem bytesOk_append (a b : List Nat) (ha : bytesOk a) (hb : bytesOk b) :
    bytesOk (a ++ b) := by
  intro x hx
  rcases List.mem_append.mp hx with h | h
  · exact ha x h
  · exact hb x h

theorem bytesOk_replicate (n v : Nat) (h : v < 256) :
    bytesOk (List.replicate n v) := by
  intro b hb
  rw [List.eq_of_mem_replicate hb]
  exact h

theorem padRight_bytesOk (p : List Nat) (n : Nat) (h : bytesOk p) :
    bytesOk (padRight p n) :=
  bytesOk_append _ _ h (bytesOk_replicate _ 0 (by omega))

theorem pySlice_bytesOk (xs : List Nat) (a b : Int) (h : bytesOk xs) :
    bytesOk (pySlice xs a b) := by
  apply bytesOk_subset xs
  · simp only [pySlice]
    exact (List.drop_subset _ _).trans (List.take_subset _ _)
  · exact h

theorem find_range_unique (n : Nat) (p : Nat → Bool) (i : Nat) (hi : i < n)
    (hp : p i = true) (huniq : ∀ j, j < n → p j = true → j = i) :
    (List.range n).find? p = some i := by
  cases hf : (List.range n).find? p with
  | none =>
    have := List.find?_eq_none.mp hf i (by simpa using hi)
    exact absurd hp this
  | some x =>
    have hpx := List.find?_some hf
    have hxmem := List.mem_of_find?_eq_some hf
    have hxi : x = i := huniq x (by simpa using hxmem) hpx
    rw [hxi]

theorem take_concat_drop_take (P : List Nat) (x y : Nat) (hxy : x ≤ y) :
    P.take x ++ (P.take y).drop x = P.take y := by
  have h1 : (P.take y).take x = P.take x := by
    rw [List.take_take, Nat.min_eq_left hxy]
  calc P.take x ++ (P.take y).drop x
      = (P.take y).take x ++ (P.take y).drop x := by rw [h1]
    _ = P.take y := List.take_append_drop _ _

theorem drop_split {α : Type} (l : List α) (c x : Nat) (hcx : c ≤ x) :
    l.drop c = (l.take x).drop c ++ l.drop x := by
  by_cases hcl : c ≤ l.length
  · conv_lhs => rw [← List.take_append_drop x l]
    rw [List.drop_append_of_le_length (by simp; omega)]
  · have h1 : l.drop c = [] := List.drop_eq_nil_of_le (by omega)
    have h2 : (l.take x).drop c = [] := List.drop_eq_nil_of_le (by simp; omega)
    have h3 : l.drop x = [] := List.drop_eq_nil_of_le (by omega)
    rw [h1, h2, h3]
    rfl

theorem flatten_range_segments (P : List Nat) (c b : Nat) :
    ∀ m, (((List.range m).map (fun k =>
        (P.take (c + (k + 1) * b)).drop (c + k * b))).flatten) =
      (P.take (c + m * b)).drop c := by
  intro m
  induction m with
  | zero =>
    simp only [List.range_zero, List.map_nil, List.flatten_nil]
    exact (List.drop_eq_nil_of_le (by simp)).symm
  | succ m ih =>
    rw [List.range_succ, List.map_append, List.flatten_append, ih]
    simp only [List.map_cons, List.map_nil, List.flatten_cons,
      List.flatten_nil, List.append_nil]
    have hmb : (m + 1) * b = m * b + b := by rw [Nat.succ_mul]
    have h1 : (P.take (c + (m + 1) * b)).take (c + m * b) =
        P.take (c + m * b) := by
      rw [List.take_take, Nat.min_eq_left (by omega)]
    have h2 := drop_split (P.take (c + (m + 1) * b)) c (c + m * b)
      (by omega)
    rw [h1] at h2
    exact h2.symm

theorem segment_length (P : List Nat) (x y : Nat) (hxy : x ≤ y)
    (hyP : y ≤ P.length) : ((P.take y).drop x).length = y - x := by
  simp only [List.length_drop, List.length_take]
  omega

/-! ### Replaying the sync writes on the device -/

theorem applyWrites_length (dev : List (List Nat))
    (ws : List (Nat × List Nat)) :
    (applyWrites dev ws).length = dev.length := by
  induction ws generalizing dev with
  | nil => rfl
  | cons w rest ih =>
    simp only [applyWrites, List.foldl_cons] at ih ⊢
    rw [ih]
    simp

theorem applyWrites_notin (dev : List (List Nat))
    (ws : List (Nat × List Nat)) (i : Nat) (h : ∀ w ∈ ws, w.1 ≠ i) :
    (applyWrites dev ws)[i]? = dev[i]? := by
  induction ws generalizing dev with
  | nil => rfl
  | cons w rest ih =>
    simp only [applyWrites, List.foldl_cons] at ih ⊢
    rw [ih (dev.set w.1 w.2) (fun v hv => h v (List.mem_cons_of_mem _ hv))]
    rw [List.getElem?_set_ne (h w (by simp))]

theorem applyWrites_mem (dev : List (List Nat))
    (ws : List (Nat × List Nat)) (i : Nat) (b : List Nat)
    (hmem : (i, b) ∈ ws) (hnd : (ws.map Prod.fst).Nodup)
    (hi : i < dev.length) :
    (applyWrites dev ws)[i]? = some b := by
  induction ws generalizing dev with
  | nil => simp at hmem
  | cons w rest ih =>
    simp only [List.map_cons, List.nodup_cons] at hnd
    rcases List.mem_cons.mp hmem with heq | hmem'
    · have hw1 : w.1 = i := by rw [← heq]
      have hw2 : w.2 = b := by rw [← heq]
      have hnorest : ∀ v ∈ rest, v.1 ≠ i := by
        intro v hv hvi
        apply hnd.1
        rw [hw1, ← hvi]
        exact List.mem_map_of_mem Prod.fst hv
      simp only [applyWrites, List.foldl_cons]
      have := applyWrites_notin (dev.set w.1 w.2) rest i hnorest
      simp only [applyWrites] at this
      rw [this, hw1, hw2]
      exact List.getElem?_set_self hi
    · simp only [applyWrites, List.foldl_cons]
      have := ih (dev.set w.1 w.2) hmem' hnd.2 (by simpa using hi)
      simpa [applyWrites] using this

theorem syncWrites_spec (S : Store) (ws : List (Nat × List Nat))
    (h : syncWrites S = .ok ws) :
    (∀ w ∈ ws, w.1 < S.objects.length ∧ S.dirty.getD w.1 false = true ∧
      serializeO S.geo (S.objects.getD w.1 default) = some w.2) ∧
    (∀ i, i < S.objects.length → S.dirty.getD i false = true →
      ∃ b, (i, b) ∈ ws) ∧
    (ws.map Prod.fst).Nodup := by
  simp only [syncWrites] at h
  split at h
  · exact Except.noConfusion h
  have main := foldlM_rest_invariant
    (fun acc i =>
      if S.dirty.getD i false then
        match serializeO S.geo (S.objects.getD i default) with
        | none => Except.error SBErr.syncError
        | some bytes => Except.ok (acc ++ [(i, bytes)])
      else Except.ok acc)
    (fun s rest =>
      (∀ w ∈ s, w.1 < S.objects.length ∧ S.dirty.getD w.1 false = true ∧
        serializeO S.geo (S.objects.getD w.1 default) = some w.2 ∧
        w.1 ∉ rest) ∧
      (∀ i, i < S.objects.length → S.dirty.getD i false = true →
        i ∉ rest → ∃ b, (i, b) ∈ s) ∧
      (s.map Prod.fst).Nodup ∧ rest.Nodup ∧
      (∀ j ∈ rest, j < S.objects.length))
    (List.range S.objects.length) []
    ⟨by intro w hw; simp at hw,
     by intro i hilt hid hnotin; exact absurd (by simpa using hilt) hnotin,
     by simp, List.nodup_range _, by intro j hj; simpa using hj⟩
    ?step ws h
  case step =>
    intro s' a rest' hQ s'' hstep
    beta_reduce at hstep
    obtain ⟨q1, q2, q3, qN, qB⟩ := hQ
    have halt : a < S.objects.length := qB a (by simp)
    have hanotin : a ∉ rest' := (List.nodup_cons.mp qN).1
    have qN' : rest'.Nodup := (List.nodup_cons.mp qN).2
    by_cases hda : S.dirty.getD a false = true
    · rw [if_pos hda] at hstep
      cases hser : serializeO S.geo (S.objects.getD a default) with
      | none => rw [hser] at hstep; exact Except.noConfusion hstep
      | some bytes =>
        rw [hser] at hstep
        injection hstep with hstep
        subst hstep
        refine ⟨?_, ?_, ?_, qN', fun j hj => qB j (by simp [hj])⟩
        · intro w hw
          rcases List.mem_append.mp hw with hw | hw
          · obtain ⟨w1, w2, w3, w4⟩ := q1 w hw
            exact ⟨w1, w2, w3, fun hm => w4 (by simp [hm])⟩
          · have hweq : w = (a, bytes) := by simpa using hw
            subst hweq
            exact ⟨halt, hda, hser, hanotin⟩
        · intro i hilt hid hnotin
          by_cases hia : i = a
          · subst hia
            exact ⟨bytes, by simp⟩
          · obtain ⟨b, hb⟩ := q2 i hilt hid (by simp [hia, hnotin])
            exact ⟨b, by simp [hb]⟩
        · rw [List.map_append]
          refine List.Nodup.append q3 (by simp) ?_
          intro x hx hx'
          have hxa : x = a := by simpa using hx'
          subst hxa
          obtain ⟨w, hw, hw1⟩ := List.mem_map.mp hx
          obtain ⟨-, -, -, w4⟩ := q1 w hw
          rw [hw1] at w4
          exact w4 (by simp)
    · rw [if_neg hda] at hstep
      injection hstep with hstep
      subst hstep
      refine ⟨?_, ?_, q3, qN', fun j hj => qB j (by simp [hj])⟩
      · intro w hw
        obtain ⟨w1, w2, w3, w4⟩ := q1 w hw
        exact ⟨w1, w2, w3, fun hm => w4 (by simp [hm])⟩
      · intro i hilt hid hnotin
        by_cases hia : i = a
        · subst hia
          exact absurd hid hda
        · exact q2 i hilt hid (by simp [hia, hnotin])
  obtain ⟨m1, m2, m3, -, -⟩ := main
  refine ⟨fun w hw => ?_, fun i h1 h2 => m2 i h1 h2 (by simp), m3⟩
  obtain ⟨w1, w2, w3, -⟩ := m1 w hw
  exact ⟨w1, w2, w3⟩

/-! ### Shape of serialized records -/

theorem serializeO_shape (g : Geometry) (o : Obj) (s : List Nat)
    (h : serializeO g o = some s) :
    GeometryWF g ∧ o.objectAge < 256 ^ OBJECT_AGE_S ∧
    ∃ post, s = toBytesLE YBLOB_MAGIC_S g.yblobMagic ++
      (toBytesLE OBJECT_COUNT_IN_STORE_S g.objectCountInStore ++
      (toBytesLE STORE_ENCRYPTION_KEY_SLOT_S g.storeEncryptionKeySlot ++
      (toBytesLE OBJECT_AGE_S o.objectAge ++ post))) := by
  cases o with
  | free p =>
    simp only [serializeO, Obj.objectAge, Obj.chunkPayload] at h
    split at h
    · exact Option.noConfusion h
    rename_i hwf
    rw [not_not] at hwf
    refine ⟨hwf.1, hwf.2, ?_⟩
    split at h
    · injection h with h
      exact ⟨p, by rw [← h]; simp [List.append_assoc, Obj.objectAge]⟩
    · injection h with h
      exact ⟨p, by rw [← h]; simp [List.append_assoc, Obj.objectAge]⟩
  | body a pos nxt p =>
    simp only [serializeO, Obj.objectAge, Obj.chunkPayload] at h
    split at h
    · exact Option.noConfusion h
    rename_i hwf
    rw [not_not] at hwf
    refine ⟨hwf.1, hwf.2, ?_⟩
    split at h
    · injection h with h
      exact ⟨p, by rw [← h]; simp [List.append_assoc, Obj.objectAge]⟩
    split at h
    · injection h with h
      refine ⟨toBytesLE CHUNK_POS_IN_BLOB_S pos ++
        (toBytesLE NEXT_CHUNK_INDEX_IN_STORE_S nxt ++ p), ?_⟩
      rw [← h]
      simp [List.append_assoc, Obj.objectAge]
    · exact Option.noConfusion h
  | head a nxt mt bs eks us nm p =>
    simp only [serializeO, Obj.objectAge, Obj.chunkPayload] at h
    split at h
    · exact Option.noConfusion h
    rename_i hwf
    rw [not_not] at hwf
    refine ⟨hwf.1, hwf.2, ?_⟩
    split at h
    · injection h with h
      exact ⟨p, by rw [← h]; simp [List.append_assoc, Obj.objectAge]⟩
    split at h
    · injection h with h
      refine ⟨toBytesLE CHUNK_POS_IN_BLOB_S 0 ++
        (toBytesLE NEXT_CHUNK_INDEX_IN_STORE_S nxt ++
        (toBytesLE BLOB_MODIFICATION_TIME_S mt ++
        (toBytesLE BLOB_SIZE_S bs ++
        (toBytesLE BLOB_ENCRYPTION_KEY_SLOT_S eks ++
        (toBytesLE BLOB_UNENCRYPTED_SIZE_S us ++
        (toBytesLE BLOB_NAME_UTF8_LEN_S nm.length ++ (nm ++ p))))))), ?_⟩
      rw [← h]
      simp [List.append_assoc, Obj.objectAge]
    · exact Option.noConfusion h

theorem serializeO_header (g : Geometry) (o : Obj) (s : List Nat)
    (h : serializeO g o = some s) :
    fromBytesLE (s.take YBLOB_MAGIC_S) = g.yblobMagic ∧
    fromBytesLE ((s.drop OBJECT_COUNT_IN_STORE_O).take
      OBJECT_COUNT_IN_STORE_S) = g.objectCountInStore ∧
    fromBytesLE ((s.drop STORE_ENCRYPTION_KEY_SLOT_O).take
      STORE_ENCRYPTION_KEY_SLOT_S) = g.storeEncryptionKeySlot := by
  obtain ⟨⟨hgm, hgc, hgs⟩, -, post, hs⟩ := serializeO_shape g o s h
  have h0 : s.drop 0 = toBytesLE YBLOB_MAGIC_S g.yblobMagic ++
      (toBytesLE OBJECT_COUNT_IN_STORE_S g.objectCountInStore ++
      (toBytesLE STORE_ENCRYPTION_KEY_SLOT_S g.storeEncryptionKeySlot ++
      (toBytesLE OBJECT_AGE_S o.objectAge ++ post))) := by
    rw [List.drop_zero, hs]
  obtain ⟨r1, d1⟩ := read_field s _ _ 0 YBLOB_MAGIC_S
    OBJECT_COUNT_IN_STORE_O h0 (toBytesLE_length _ _) rfl
  obtain ⟨r2, d2⟩ := read_field s _ _ OBJECT_COUNT_IN_STORE_O
    OBJECT_COUNT_IN_STORE_S STORE_ENCRYPTION_KEY_SLOT_O d1
    (toBytesLE_length _ _) rfl
  obtain ⟨r3, -⟩ := read_field s _ _ STORE_ENCRYPTION_KEY_SLOT_O
    STORE_ENCRYPTION_KEY_SLOT_S OBJECT_AGE_O d2
    (toBytesLE_length _ _) rfl
  rw [List.drop_zero] at r1
  refine ⟨?_, ?_, ?_⟩
  · rw [r1]
    exact fromBytesLE_toBytesLE _ _ (by simpa using hgm)
  · rw [r2]
    exact fromBytesLE_toBytesLE _ _ (by simpa using hgc)
  · rw [r3]
    exact fromBytesLE_toBytesLE _ _ (by simpa using hgs)

theorem serializeO_length (g : Geometry) (o : Obj) (s : List Nat)
    (h : serializeO g o = some s) (hwf : ObjWF g o)
    (h9 : CHUNK_POS_IN_BLOB_O ≤ g.objectSizeInStore)
    (hfree : ∀ p, o = .free p →
      p.length = g.objectSizeInStore - CHUNK_POS_IN_BLOB_O) :
    s.length = g.objectSizeInStore := by
  cases o with
  | free p =>
    have hp := hfree p rfl
    simp only [serializeO, Obj.objectAge, Obj.chunkPayload] at h
    split at h
    · exact Option.noConfusion h
    split at h
    · injection h with h
      rw [← h]
      simp only [List.length_append, toBytesLE_length]
      simp only [CHUNK_POS_IN_BLOB_O, OBJECT_AGE_O,
        STORE_ENCRYPTION_KEY_SLOT_O, OBJECT_COUNT_IN_STORE_O,
        YBLOB_MAGIC_O, YBLOB_MAGIC_S, OBJECT_COUNT_IN_STORE_S,
        STORE_ENCRYPTION_KEY_SLOT_S, OBJECT_AGE_S] at hp h9 ⊢
      omega
    · rename_i hage
      exact absurd trivial hage
  | body a pos nxt p =>
    obtain ⟨ha0, -, -, -, -, hmo, hplen, -⟩ := hwf
    simp only [serializeO, Obj.objectAge, Obj.chunkPayload] at h
    split at h
    · exact Option.noConfusion h
    split at h
    · rename_i hage
      omega
    split at h
    · injection h with h
      rw [← h]
      simp only [List.length_append, toBytesLE_length]
      simp only [BLOB_MODIFICATION_TIME_O, NEXT_CHUNK_INDEX_IN_STORE_O,
        CHUNK_POS_IN_BLOB_O, OBJECT_AGE_O, STORE_ENCRYPTION_KEY_SLOT_O,
        OBJECT_COUNT_IN_STORE_O, YBLOB_MAGIC_O, YBLOB_MAGIC_S,
        OBJECT_COUNT_IN_STORE_S, STORE_ENCRYPTION_KEY_SLOT_S,
        OBJECT_AGE_S, CHUNK_POS_IN_BLOB_S,
        NEXT_CHUNK_INDEX_IN_STORE_S] at hmo hplen ⊢
      omega
    · exact Option.noConfusion h
  | head a nxt mt bs eks us nm p =>
    obtain ⟨ha0, -, -, -, -, -, -, -, -, -, -, hno, hplen, -⟩ := hwf
    simp only [serializeO, Obj.objectAge, Obj.chunkPayload] at h
    split at h
    · exact Option.noConfusion h
    split at h
    · rename_i hage
      omega
    split at h
    · injection h with h
      rw [← h]
      simp only [List.length_append, toBytesLE_length]
      simp only [BLOB_NAME_O, BLOB_NAME_UTF8_LEN_O, BLOB_NAME_UTF8_LEN_S,
        BLOB_UNENCRYPTED_SIZE_O, BLOB_UNENCRYPTED_SIZE_S,
        BLOB_ENCRYPTION_KEY_SLOT_O, BLOB_ENCRYPTION_KEY_SLOT_S,
        BLOB_SIZE_O, BLOB_SIZE_S, BLOB_MODIFICATION_TIME_O,
        BLOB_MODIFICATION_TIME_S, NEXT_CHUNK_INDEX_IN_STORE_O,
        CHUNK_POS_IN_BLOB_O, OBJECT_AGE_O, STORE_ENCRYPTION_KEY_SLOT_O,
        OBJECT_COUNT_IN_STORE_O, YBLOB_MAGIC_O, YBLOB_MAGIC_S,
        OBJECT_COUNT_IN_STORE_S, STORE_ENCRYPTION_KEY_SLOT_S,
        OBJECT_AGE_S, CHUNK_POS_IN_BLOB_S,
        NEXT_CHUNK_INDEX_IN_STORE_S] at hno hplen ⊢
      omega
    · exact Option.noConfusion h

theorem serializeO_bs (g : Geometry) (a nxt mt bs eks us : Nat)
    (nm p s : List Nat)
    (h : serializeO g (.head a nxt mt bs eks us nm p) = some s)
    (ha : a ≠ 0) : bs ≠ 0 := by
  simp only [serializeO, Obj.objectAge] at h
  split at h
  · exact Option.noConfusion h
  split at h
  · rename_i hcond
    omega
  · exact Option.noConfusion h

theorem serializeO_decode (g : Geometry) (o : Obj) (s : List Nat)
    (hg : GeometryWF g) (hwf : ObjWF g o)
    (hbs : o.isHead = true → o.blobSize ≠ 0)
    (h : serializeO g o = some s) :
    fromSerialization g s = some o := by
  obtain ⟨s', h1, h2⟩ := serialize_roundtrip g o hg hwf hbs
  rw [h] at h1
  injection h1 with h1
  rw [h1]
  exact h2

/-! ### Well-formedness of decoded records -/

theorem fromBytesLE_take_lt (s : List Nat) (o k : Nat) :
    fromBytesLE ((s.drop o).take k) < 256 ^ k := by
  calc fromBytesLE ((s.drop o).take k)
      < 256 ^ ((s.drop o).take k).length := fromBytesLE_bounds _
    _ ≤ 256 ^ k := Nat.pow_le_pow_right (by norm_num)
        (by simp only [List.length_take]; omega)

theorem fromSerializationBody_wf (g : Geometry) (a pos nxt : Nat)
    (s : List Nat) (o : Obj)
    (h : fromSerializationBody g a pos nxt s = some o)
    (hlen : s.length = g.objectSizeInStore)
    (hbytes : bytesOk s)
    (ha0 : 0 < a) (haB : a < 256 ^ OBJECT_AGE_S)
    (hpos0 : 0 < pos) (hposB : pos < 256 ^ CHUNK_POS_IN_BLOB_S)
    (hnxtB : nxt < 256 ^ NEXT_CHUNK_INDEX_IN_STORE_S) :
    ObjWF g o := by
  simp only [fromSerializationBody] at h
  split at h
  · exact Option.noConfusion h
  rename_i hcap
  rw [not_lt] at hcap
  injection h with h
  subst h
  have hmo : BLOB_MODIFICATION_TIME_O ≤ g.objectSizeInStore := by
    simp only [List.length_drop, hlen] at hcap
    simp only [BLOB_MODIFICATION_TIME_O, NEXT_CHUNK_INDEX_IN_STORE_O,
      CHUNK_POS_IN_BLOB_O, OBJECT_AGE_O, STORE_ENCRYPTION_KEY_SLOT_O,
      OBJECT_COUNT_IN_STORE_O, YBLOB_MAGIC_O, YBLOB_MAGIC_S,
      OBJECT_COUNT_IN_STORE_S, STORE_ENCRYPTION_KEY_SLOT_S, OBJECT_AGE_S,
      CHUNK_POS_IN_BLOB_S, NEXT_CHUNK_INDEX_IN_STORE_S] at hcap ⊢
    omega
  refine ⟨ha0, haB, hpos0, hposB, hnxtB, hmo, ?_, ?_⟩
  · simp only [padRight, List.length_append, List.length_replicate,
      List.length_drop, hlen]
    simp only [BLOB_MODIFICATION_TIME_O, NEXT_CHUNK_INDEX_IN_STORE_O,
      CHUNK_POS_IN_BLOB_O, OBJECT_AGE_O, STORE_ENCRYPTION_KEY_SLOT_O,
      OBJECT_COUNT_IN_STORE_O, YBLOB_MAGIC_O, YBLOB_MAGIC_S,
      OBJECT_COUNT_IN_STORE_S, STORE_ENCRYPTION_KEY_SLOT_S, OBJECT_AGE_S,
      CHUNK_POS_IN_BLOB_S, NEXT_CHUNK_INDEX_IN_STORE_S] at hmo ⊢
    omega
  · exact padRight_bytesOk _ _
      (bytesOk_subset s _ (List.drop_subset _ _) hbytes)

theorem fromSerializationHead_wf (g : Geometry) (a nxt : Nat)
    (s : List Nat) (o : Obj)
    (h : fromSerializationHead g a nxt s = some o)
    (hlen : s.length = g.objectSizeInStore)
    (hbytes : bytesOk s)
    (ha0 : 0 < a) (haB : a < 256 ^ OBJECT_AGE_S)
    (hnxtB : nxt < 256 ^ NEXT_CHUNK_INDEX_IN_STORE_S) :
    ObjWF g o := by
  simp only [fromSerializationHead] at h
  by_cases d1 : s.length < BLOB_MODIFICATION_TIME_O + BLOB_MODIFICATION_TIME_S
  · rw [if_pos d1] at h; exact Option.noConfusion h
  rw [if_neg d1] at h
  by_cases d2 : s.length < BLOB_SIZE_O + BLOB_SIZE_S
  · rw [if_pos d2] at h; exact Option.noConfusion h
  rw [if_neg d2] at h
  by_cases d3 : s.length <
      BLOB_ENCRYPTION_KEY_SLOT_O + BLOB_ENCRYPTION_KEY_SLOT_S
  · rw [if_pos d3] at h; exact Option.noConfusion h
  rw [if_neg d3] at h
  by_cases d4 : s.length < BLOB_UNENCRYPTED_SIZE_O + BLOB_UNENCRYPTED_SIZE_S
  · rw [if_pos d4] at h; exact Option.noConfusion h
  rw [if_neg d4] at h
  by_cases d5 : s.length < BLOB_NAME_UTF8_LEN_O + BLOB_NAME_UTF8_LEN_S
  · rw [if_pos d5] at h; exact Option.noConfusion h
  rw [if_neg d5] at h
  have hbmt := fromBytesLE_take_lt s BLOB_MODIFICATION_TIME_O
    BLOB_MODIFICATION_TIME_S
  have hbbs := fromBytesLE_take_lt s BLOB_SIZE_O BLOB_SIZE_S
  have hbek := fromBytesLE_take_lt s BLOB_ENCRYPTION_KEY_SLOT_O
    BLOB_ENCRYPTION_KEY_SLOT_S
  have hbus := fromBytesLE_take_lt s BLOB_UNENCRYPTED_SIZE_O
    BLOB_UNENCRYPTED_SIZE_S
  set L := fromBytesLE ((s.drop BLOB_NAME_UTF8_LEN_O).take
    BLOB_NAME_UTF8_LEN_S) with hLdef
  by_cases d6 : L ≠ 0 ∧ s.length < BLOB_NAME_O + L
  · rw [if_pos d6] at h; exact Option.noConfusion h
  rw [if_neg d6] at h
  by_cases hL0 : L = 0
  · simp only [if_pos hL0] at h
    by_cases d7 : ¬ (isValidUtf8 (s.drop BLOB_NAME_O) = true)
    · rw [if_pos d7] at h; exact Option.noConfusion h
    rw [if_neg d7] at h
    by_cases d8 : ¬ (0 < (s.drop BLOB_NAME_O).length ∧
        (s.drop BLOB_NAME_O).length < 256 ^ BLOB_NAME_UTF8_LEN_S)
    · rw [if_pos d8] at h; exact Option.noConfusion h
    rw [if_neg d8] at h
    rw [not_not] at d7 d8
    by_cases d9 : ((([] : List Nat).length : Int)) >
        (g.objectSizeInStore : Int) -
          ((BLOB_NAME_O : Nat) + (s.drop BLOB_NAME_O).length)
    · rw [if_pos d9] at h; exact Option.noConfusion h
    rw [if_neg d9] at h
    rw [not_lt] at d9
    injection h with h
    subst h
    refine ⟨ha0, haB, hnxtB, hbmt, hbbs, hbek, hbus, d8.1, d8.2, d7,
      bytesOk_subset s _ (List.drop_subset _ _) hbytes, ?_, ?_, ?_⟩
    · simp only [List.length_nil, Nat.cast_zero] at d9
      simp only [List.length_drop, hlen] at d9 ⊢
      omega
    · simp only [padRight, List.length_append, List.length_replicate,
        List.length_nil, List.length_drop, hlen] at d9 ⊢
      omega
    · exact padRight_bytesOk _ _ (by intro b hb; simp at hb)
  · simp only [if_neg hL0] at h
    have hsL : BLOB_NAME_O + L ≤ s.length := by
      rcases not_and_or.mp d6 with hc | hc
      · exact absurd hL0 hc
      · omega
    have hnml : ((s.drop BLOB_NAME_O).take L).length = L := by
      simp only [List.length_take, List.length_drop]
      omega
    by_cases d7 : ¬ (isValidUtf8 ((s.drop BLOB_NAME_O).take L) = true)
    · rw [if_pos d7] at h; exact Option.noConfusion h
    rw [if_neg d7] at h
    by_cases d8 : ¬ (0 < ((s.drop BLOB_NAME_O).take L).length ∧
        ((s.drop BLOB_NAME_O).take L).length < 256 ^ BLOB_NAME_UTF8_LEN_S)
    · rw [if_pos d8] at h; exact Option.noConfusion h
    rw [if_neg d8] at h
    rw [not_not] at d7 d8
    by_cases d9 : (((s.drop (BLOB_NAME_O + L)).length : Nat) : Int) >
        (g.objectSizeInStore : Int) -
          ((BLOB_NAME_O : Nat) + ((s.drop BLOB_NAME_O).take L).length)
    · rw [if_pos d9] at h; exact Option.noConfusion h
    rw [if_neg d9] at h
    rw [not_lt] at d9
    injection h with h
    subst h
    refine ⟨ha0, haB, hnxtB, hbmt, hbbs, hbek, hbus, d8.1, d8.2, d7,
      bytesOk_subset s _
        ((List.take_subset _ _).trans (List.drop_subset _ _)) hbytes,
      ?_, ?_, ?_⟩
    · rw [hnml]
      simp only [BLOB_NAME_O, BLOB_NAME_UTF8_LEN_O, BLOB_NAME_UTF8_LEN_S,
        BLOB_UNENCRYPTED_SIZE_O, BLOB_UNENCRYPTED_SIZE_S,
        BLOB_ENCRYPTION_KEY_SLOT_O, BLOB_ENCRYPTION_KEY_SLOT_S,
        BLOB_SIZE_O, BLOB_SIZE_S, BLOB_MODIFICATION_TIME_O,
        BLOB_MODIFICATION_TIME_S] at hsL ⊢
      omega
    · rw [hnml] at d9 ⊢
      simp only [padRight, List.length_append, List.length_replicate,
        List.length_drop, hlen] at d9 ⊢
      omega
    · exact padRight_bytesOk _ _
        (bytesOk_subset s _ (List.drop_subset _ _) hbytes)

theorem fromSerialization_wf (g : Geometry) (s : List Nat) (o : Obj)
    (hlen : s.length = g.objectSizeInStore)
    (h : fromSerialization g s = some o) :
    ObjWF g o ∧
    ∀ p, o = .free p →
      p.length = g.objectSizeInStore - CHUNK_POS_IN_BLOB_O := by
  have hage : fromBytesLE ((s.drop OBJECT_AGE_O).take OBJECT_AGE_S)
      < 256 ^ OBJECT_AGE_S := fromBytesLE_take_lt s _ _
  have hposb : fromBytesLE ((s.drop CHUNK_POS_IN_BLOB_O).take
      CHUNK_POS_IN_BLOB_S) < 256 ^ CHUNK_POS_IN_BLOB_S :=
    fromBytesLE_take_lt s _ _
  have hnxtb : fromBytesLE ((s.drop NEXT_CHUNK_INDEX_IN_STORE_O).take
      NEXT_CHUNK_INDEX_IN_STORE_S) < 256 ^ NEXT_CHUNK_INDEX_IN_STORE_S :=
    fromBytesLE_take_lt s _ _
  simp only [fromSerialization] at h
  by_cases c1 : ¬ (s.all (· < 256) = true)
  · rw [if_pos c1] at h; exact Option.noConfusion h
  rw [if_neg c1] at h
  rw [not_not] at c1
  have hbytes : bytesOk s := (bytesOk_iff s).mpr c1
  by_cases c2 : s.length < YBLOB_MAGIC_S
  · rw [if_pos c2] at h; exact Option.noConfusion h
  rw [if_neg c2] at h
  by_cases c3 : fromBytesLE (s.take YBLOB_MAGIC_S) ≠ g.yblobMagic
  · rw [if_pos c3] at h; exact Option.noConfusion h
  rw [if_neg c3] at h
  by_cases c4 : s.length < OBJECT_COUNT_IN_STORE_O + OBJECT_COUNT_IN_STORE_S
  · rw [if_pos c4] at h; exact Option.noConfusion h
  rw [if_neg c4] at h
  by_cases c5 : fromBytesLE
      ((s.drop OBJECT_COUNT_IN_STORE_O).take OBJECT_COUNT_IN_STORE_S)
      ≠ g.objectCountInStore
  · rw [if_pos c5] at h; exact Option.noConfusion h
  rw [if_neg c5] at h
  by_cases c6 : s.length <
      STORE_ENCRYPTION_KEY_SLOT_O + STORE_ENCRYPTION_KEY_SLOT_S
  · rw [if_pos c6] at h; exact Option.noConfusion h
  rw [if_neg c6] at h
  by_cases c7 : fromBytesLE
      ((s.drop STORE_ENCRYPTION_KEY_SLOT_O).take STORE_ENCRYPTION_KEY_SLOT_S)
      ≠ g.storeEncryptionKeySlot
  · rw [if_pos c7] at h; exact Option.noConfusion h
  rw [if_neg c7] at h
  by_cases c8 : s.length < OBJECT_AGE_O + OBJECT_AGE_S
  · rw [if_pos c8] at h; exact Option.noConfusion h
  rw [if_neg c8] at h
  by_cases c9 : fromBytesLE ((s.drop OBJECT_AGE_O).take OBJECT_AGE_S) = 0
  · rw [if_pos c9] at h
    injection h with h
    subst h
    constructor
    · exact bytesOk_subset s _ (List.drop_subset _ _) hbytes
    · intro p hp
      injection hp with hp
      subst hp
      simp only [List.length_drop, hlen]
  rw [if_neg c9] at h
  by_cases c10 : s.length < CHUNK_POS_IN_BLOB_O + CHUNK_POS_IN_BLOB_S
  · rw [if_pos c10] at h; exact Option.noConfusion h
  rw [if_neg c10] at h
  by_cases c11 : s.length <
      NEXT_CHUNK_INDEX_IN_STORE_O + NEXT_CHUNK_INDEX_IN_STORE_S
  · rw [if_pos c11] at h; exact Option.noConfusion h
  rw [if_neg c11] at h
  by_cases c12 : fromBytesLE
      ((s.drop CHUNK_POS_IN_BLOB_O).take CHUNK_POS_IN_BLOB_S) ≠ 0
  · rw [if_pos c12] at h
    refine ⟨fromSerializationBody_wf g _ _ _ s o h hlen hbytes
      (by omega) hage (by omega) hposb hnxtb, ?_⟩
    intro p hp
    rw [hp] at h
    have := fromSerializationBody_age g _ _ _ s _ h
    exact absurd this.symm (by simpa using c9)
  · rw [if_neg c12] at h
    refine ⟨fromSerializationHead_wf g _ _ s o h hlen hbytes
      (by omega) hage hnxtb, ?_⟩
    intro p hp
    rw [hp] at h
    have := fromSerializationHead_age g _ _ s _ h
    exact absurd this.symm (by simpa using c9)

/-! ### Reloading a device -/

theorem loadObjects_pointwise (g : Geometry) (dev : List (List Nat)) :
    ∀ (l : List Nat) (objs : List Obj), loadObjects g dev l = some objs →
      ∀ k, k < l.length → ∃ raw, dev[l.getD k 0]? = some raw ∧
        raw.length = g.objectSizeInStore ∧
        fromSerialization g raw = some (objs.getD k default) := by
  intro l
  induction l with
  | nil => intro objs h k hk; simp at hk
  | cons i rest ih =>
    intro objs h k hk
    simp only [loadObjects] at h
    split at h
    · exact Option.noConfusion h
    rename_i raw hraw
    split at h
    · exact Option.noConfusion h
    rename_i hrawlen
    split at h
    · exact Option.noConfusion h
    rename_i o ho
    cases hrec : loadObjects g dev rest with
    | none => rw [hrec] at h; exact Option.noConfusion h
    | some objs' =>
      rw [hrec] at h
      simp only [Option.map] at h
      injection h with h
      subst h
      cases k with
      | zero => exact ⟨raw, hraw, by omega, by simpa using ho⟩
      | succ k' =>
        have := ih objs' hrec k' (by simpa using hk)
        simpa using this

theorem loadObjects_exact (g : Geometry) (dev : List (List Nat)) :
    ∀ (l : List Nat) (f : Nat → Obj),
      (∀ i ∈ l, ∃ raw, dev[i]? = some raw ∧
        raw.length = g.objectSizeInStore ∧
        fromSerialization g raw = some (f i)) →
      loadObjects g dev l = some (l.map f) := by
  intro l
  induction l with
  | nil => intro f _; rfl
  | cons i rest ih =>
    intro f hf
    obtain ⟨raw, hraw, hrlen, hdec⟩ := hf i (by simp)
    simp only [loadObjects, hraw, hdec]
    rw [if_neg (by omega)]
    rw [ih f (fun j hj => hf j (by simp [hj]))]
    rfl

theorem loadStore_inv (dev : List (List Nat)) (S : Store)
    (h : loadStore dev = some S) :
    ∃ r0, dev[0]? = some r0 ∧
      S.geo.yblobMagic = YBLOB_MAGIC ∧
      fromBytesLE (r0.take YBLOB_MAGIC_S) = S.geo.yblobMagic ∧
      r0.length = S.geo.objectSizeInStore ∧
      OBJECT_MIN_SIZE ≤ S.geo.objectSizeInStore ∧
      S.geo.objectSizeInStore ≤ OBJECT_MAX_SIZE ∧
      fromBytesLE ((r0.drop OBJECT_COUNT_IN_STORE_O).take
        OBJECT_COUNT_IN_STORE_S) = S.geo.objectCountInStore ∧
      fromBytesLE ((r0.drop STORE_ENCRYPTION_KEY_SLOT_O).take
        STORE_ENCRYPTION_KEY_SLOT_S) = S.geo.storeEncryptionKeySlot ∧
      loadObjects S.geo dev (List.range S.geo.objectCountInStore) =
        some S.objects ∧
      S.dirty = List.replicate S.geo.objectCountInStore false ∧
      S.storeAge = (S.objects.map Obj.objectAge).foldl max 0 := by
  simp only [loadStore] at h
  split at h
  · exact Option.noConfusion h
  rename_i r0 hr0
  split at h
  · exact Option.noConfusion h
  rename_i hmagic
  split at h
  · exact Option.noConfusion h
  rename_i hsize
  split at h
  · exact Option.noConfusion h
  rename_i objs hobjs
  injection h with h
  subst h
  rw [not_not] at hsize
  refine ⟨r0, hr0, not_not.mp hmagic, rfl, rfl, hsize.1, hsize.2, rfl, rfl,
    hobjs, rfl, rfl⟩

theorem loadStore_build (dev : List (List Nat)) (g : Geometry)
    (objs : List Obj) (r0 : List Nat)
    (h0 : dev[0]? = some r0)
    (hg : g.yblobMagic = YBLOB_MAGIC)
    (hm : fromBytesLE (r0.take YBLOB_MAGIC_S) = g.yblobMagic)
    (hrlen : r0.length = g.objectSizeInStore)
    (hsz1 : OBJECT_MIN_SIZE ≤ g.objectSizeInStore)
    (hsz2 : g.objectSizeInStore ≤ OBJECT_MAX_SIZE)
    (hcnt : fromBytesLE ((r0.drop OBJECT_COUNT_IN_STORE_O).take
      OBJECT_COUNT_IN_STORE_S) = g.objectCountInStore)
    (hslot : fromBytesLE ((r0.drop STORE_ENCRYPTION_KEY_SLOT_O).take
      STORE_ENCRYPTION_KEY_SLOT_S) = g.storeEncryptionKeySlot)
    (hobjs : loadObjects g dev (List.range g.objectCountInStore) =
      some objs) :
    loadStore dev = some ⟨g, (objs.map Obj.objectAge).foldl max 0, objs,
      List.replicate g.objectCountInStore false⟩ := by
  simp only [loadStore, h0, hm, hrlen, hcnt, hslot]
  rw [if_neg (by omega)]
  rw [if_neg (not_not_intro ⟨hsz1, hsz2⟩)]
  have hget : (⟨g.yblobMagic, g.objectSizeInStore, g.objectCountInStore,
      g.storeEncryptionKeySlot⟩ : Geometry) = g := rfl
  rw [hget, hobjs]

/-! ### Building chains from their link structure -/

theorem headD_eq_getD {α : Type} (l : List α) (d : α) :
    l.headD d = l.getD 0 d := by
  cases l <;> rfl

theorem chainListF_of_links (objs : List Obj) :
    ∀ (rest : List Nat) (fuel i : Nat), rest.length + 1 ≤ fuel →
      (objs.getD i default).nextChunkIndexInStore = rest.headD i →
      (∀ j, rest.head? = some j → j ≠ i) →
      (∀ k, k < rest.length →
        (objs.getD (rest.getD k 0) default).nextChunkIndexInStore =
          rest.getD (k + 1) (rest.getD k 0)) →
      (∀ k, k + 1 < rest.length → rest.getD (k + 1) 0 ≠ rest.getD k 0) →
      chainListF objs fuel i = some (i :: rest) := by
  intro rest
  induction rest with
  | nil =>
    intro fuel i hfuel hnext hhd hlink hdist
    cases fuel with
    | zero => omega
    | succ f =>
      have hni : (objs.getD i default).nextChunkIndexInStore = i := hnext
      simp only [chainListF]
      rw [if_pos hni]
  | cons j rest' ih =>
    intro fuel i hfuel hnext hhd hlink hdist
    cases fuel with
    | zero => simp at hfuel
    | succ f =>
      have hni : (objs.getD i default).nextChunkIndexInStore = j := hnext
      have hji : j ≠ i := hhd j rfl
      simp only [chainListF]
      rw [hni, if_neg hji]
      rw [ih f j (by simpa using hfuel) ?hn ?hh ?hl ?hd]
      · rfl
      case hn =>
        have h0 := hlink 0 (by simp)
        simp only [List.getD_cons_zero, List.getD_cons_succ] at h0
        rw [headD_eq_getD]
        exact h0
      case hh =>
        intro j' hj'
        cases rest' with
        | nil => simp at hj'
        | cons q t =>
          simp only [List.head?_cons, Option.some.injEq] at hj'
          subst hj'
          have := hdist 0 (by simp)
          simpa using this
      case hl =>
        intro k hk
        have := hlink (k + 1) (by simpa using Nat.succ_lt_succ hk)
        simpa using this
      case hd =>
        intro k hk
        have := hdist (k + 1) (by simp only [List.length_cons]; omega)
        simpa using this

theorem pass1Walk_accepts (count : Nat) (objs : List Obj) :
    ∀ (rest : List Nat) (fuel i age pos : Nat), rest.length + 1 ≤ fuel →
      (objs.getD i default).nextChunkIndexInStore = rest.headD i →
      (∀ j, rest.head? = some j → j ≠ i) →
      (∀ k, k < rest.length →
        (objs.getD (rest.getD k 0) default).nextChunkIndexInStore =
          rest.getD (k + 1) (rest.getD k 0)) →
      (∀ k, k + 1 < rest.length → rest.getD (k + 1) 0 ≠ rest.getD k 0) →
      (∀ k, k < rest.length → rest.getD k 0 < count ∧
        (objs.getD (rest.getD k 0) default).objectAge = age + k + 1 ∧
        (objs.getD (rest.getD k 0) default).chunkPosInBlob = pos + k + 1) →
      pass1Walk count objs fuel i age pos = .ok true := by
  intro rest
  induction rest with
  | nil =>
    intro fuel i age pos hfuel hnext hhd hlink hdist hfields
    cases fuel with
    | zero => omega
    | succ f =>
      have hni : (objs.getD i default).nextChunkIndexInStore = i := hnext
      simp only [pass1Walk]
      rw [if_pos hni]
  | cons j rest' ih =>
    intro fuel i age pos hfuel hnext hhd hlink hdist hfields
    cases fuel with
    | zero => simp at hfuel
    | succ f =>
      have hni : (objs.getD i default).nextChunkIndexInStore = j := hnext
      have hji : j ≠ i := hhd j rfl
      have hf0 := hfields 0 (by simp)
      simp only [List.getD_cons_zero] at hf0
      obtain ⟨hjc, hjage, hjpos⟩ := hf0
      have hg1 : (objs.getD j default).objectAge = age + 1 := by rw [hjage]
      have hg2 : (objs.getD j default).chunkPosInBlob = pos + 1 := by
        rw [hjpos]
      simp only [pass1Walk]
      rw [hni, if_neg hji, if_neg (not_not_intro hjc), if_pos ⟨hg1, hg2⟩]
      refine ih f j (age + 1) (pos + 1) (by simpa using hfuel)
        ?_ ?_ ?_ ?_ ?_
      · have h0 := hlink 0 (by simp)
        simp only [List.getD_cons_zero, List.getD_cons_succ] at h0
        rw [headD_eq_getD]
        exact h0
      · intro j' hj'
        cases rest' with
        | nil => simp at hj'
        | cons q t =>
          simp only [List.head?_cons, Option.some.injEq] at hj'
          subst hj'
          have := hdist 0 (by simp)
          simpa using this
      · intro k hk
        have := hlink (k + 1) (by simpa using Nat.succ_lt_succ hk)
        simpa using this
      · intro k hk
        have := hdist (k + 1) (by simp only [List.length_cons]; omega)
        simpa using this
      · intro k hk
        have := hfields (k + 1) (by simpa using Nat.succ_lt_succ hk)
        simp only [List.getD_cons_succ] at this
        refine ⟨this.1, ?_, ?_⟩
        · rw [this.2.1]
          omega
        · rw [this.2.2]
          omega

/-- A store whose heads all pass the pass-1 walk, whose head names are
unique and whose live records are all reachable is a fixed point of
`sanitize`. -/
theorem sanitizeE_id (S : Store)
    (hlen : S.objects.length = S.geo.objectCountInStore)
    (hOK : ∀ i, AliveHeadAt S.objects i →
      HeadOK S.geo.objectCountInStore S.objects i)
    (huniq : UniqueHeadNames S.objects)
    (hreach : ∀ j, (S.objects.getD j default).objectAge ≠ 0 →
      ∃ h p, AliveHeadAt S.objects h ∧
        chainListF S.objects sanFuel h = some p ∧ j ∈ p) :
    sanitizeE S = .ok S := by
  have hp1 := pass1_id S.geo.objectCountInStore S.geo.objectSizeInStore
    S.objects S.dirty hOK
  have hp2 := pass2_id S.geo.objectSizeInStore S.objects S.dirty huniq
  have hp3 := pass3_id S.geo.objectCountInStore S.geo.objectSizeInStore
    S.objects S.dirty hlen hOK hreach
  simp only [sanitizeE, hp1, except_bind_ok]
  simp only [hp2, except_bind_ok]
  simp only [hp3, except_bind_ok]
  rfl

/-- Every element of a list is bounded by its running `foldl max` over
any seed, and so is the seed. -/
theorem le_foldl_max : ∀ (l : List Nat) (a : Nat),
    a ≤ l.foldl max a ∧ ∀ x ∈ l, x ≤ l.foldl max a := by
  intro l
  induction l with
  | nil =>
    intro a
    exact ⟨le_refl a, by simp⟩
  | cons y t ih =>
    intro a
    simp only [List.foldl_cons]
    refine ⟨le_trans (le_max_left a y) (ih (max a y)).1, ?_⟩
    intro x hx
    rcases List.mem_cons.mp hx with rfl | hx'
    · exact le_trans (le_max_right a x) (ih (max a x)).1
    · exact (ih (max a y)).2 x hx'

/-- A position holding a live head is in range (out-of-range `getD`
yields the default free record). -/
theorem alive_lt_length (objs : List Obj) (j : Nat)
    (h : (objs.getD j default).isAliveHead = true) : j < objs.length := by
  by_contra hc
  rw [List.getD_eq_default _ _ (Nat.le_of_not_lt hc)] at h
  exact absurd h (by decide)

/-- If the live head at `i₀` is strictly the youngest among the live
heads carrying its name, and every same-name collision among live heads
involves `i₀`, then pass 2 succeeds, keeps `i₀` and every record that is
not a same-named live head untouched, and can only reset same-named
older heads. -/
theorem pass2_champion (size : Nat) (objs : List Obj) (d : List Bool)
    (i₀ : Nat)
    (hyoung : ∀ j, j ≠ i₀ → (objs.getD j default).isAliveHead = true →
      (objs.getD j default).blobName = (objs.getD i₀ default).blobName →
      (objs.getD j default).objectAge < (objs.getD i₀ default).objectAge)
    (hpair : ∀ i j, i ≠ j → (objs.getD i default).isAliveHead = true →
      (objs.getD j default).isAliveHead = true →
      (objs.getD i default).blobName = (objs.getD j default).blobName →
      i = i₀ ∨ j = i₀) :
    ∃ objs₂ d₂, pass2 size objs d = .ok (objs₂, d₂) ∧
      ∀ j, objs₂.getD j default = objs.getD j default ∨
        (j ≠ i₀ ∧ (objs.getD j default).isAliveHead = true ∧
          (objs.getD j default).blobName =
            (objs.getD i₀ default).blobName ∧
          objs₂.getD j default = resetObj size) := by
  have main := foldlM_ok_invariant (pass2Step size)
    (fun s rest =>
      s.1.1.length = objs.length ∧ rest.Nodup ∧
      (∀ j, s.1.1.getD j default = objs.getD j default ∨
        (j ≠ i₀ ∧ (objs.getD j default).isAliveHead = true ∧
          (objs.getD j default).blobName =
            (objs.getD i₀ default).blobName ∧
          s.1.1.getD j default = resetObj size)) ∧
      (∀ e ∈ s.2, (objs.getD e.2 default).isAliveHead = true ∧
        (objs.getD e.2 default).blobName = e.1 ∧ e.2 ∉ rest))
    (List.range objs.length) ((objs, d), [])
    ⟨rfl, List.nodup_range _, fun j => .inl rfl,
      fun e he => absurd he (List.not_mem_nil e)⟩
    ?step
  case step =>
    intro s a rest' hQ
    obtain ⟨q1, qN, q5, q6⟩ := hQ
    have hanotin : a ∉ rest' := (List.nodup_cons.mp qN).1
    have qN' : rest'.Nodup := (List.nodup_cons.mp qN).2
    by_cases h0 : (s.1.1.getD a default).objectAge = 0
    · refine ⟨s, ?_, q1, qN', q5, ?_⟩
      · simp only [pass2Step]
        rw [if_pos h0]
      · intro e he
        obtain ⟨e1, e2, e3⟩ := q6 e he
        exact ⟨e1, e2, fun hm => e3 (List.mem_cons_of_mem a hm)⟩
    by_cases hp : (s.1.1.getD a default).chunkPosInBlob ≠ 0
    · refine ⟨s, ?_, q1, qN', q5, ?_⟩
      · simp only [pass2Step]
        rw [if_neg h0, if_pos hp]
      · intro e he
        obtain ⟨e1, e2, e3⟩ := q6 e he
        exact ⟨e1, e2, fun hm => e3 (List.mem_cons_of_mem a hm)⟩
    -- the current record is a live head, of the current state and hence
    -- of the input
    have haliveCur : (s.1.1.getD a default).isAliveHead = true :=
      alive_of_flags h0 (by simpa using hp)
    have haeq : s.1.1.getD a default = objs.getD a default := by
      rcases q5 a with h | h
      · exact h
      · exfalso
        have hc := haliveCur
        rw [h.2.2.2, resetObj_isAliveHead] at hc
        exact Bool.noConfusion hc
    have haliveIn : (objs.getD a default).isAliveHead = true := by
      rw [← haeq]
      exact haliveCur
    have haltIn : a < objs.length := alive_lt_length objs a haliveIn
    cases hfind : s.2.find?
        (fun e => decide (e.1 = (s.1.1.getD a default).blobName)) with
    | none =>
      refine ⟨(s.1, ((s.1.1.getD a default).blobName, a) :: s.2), ?_, q1,
        qN', q5, ?_⟩
      · simp only [pass2Step, hfind]
        rw [if_neg h0, if_neg hp]
      · intro e he
        rcases List.mem_cons.mp he with rfl | he'
        · refine ⟨haliveIn, ?_, hanotin⟩
          show (objs.getD a default).blobName =
            (s.1.1.getD a default).blobName
          rw [haeq]
        · obtain ⟨e1, e2, e3⟩ := q6 e he'
          exact ⟨e1, e2, fun hm => e3 (List.mem_cons_of_mem a hm)⟩
    | some e =>
      have hemem := List.mem_of_find?_eq_some hfind
      obtain ⟨ealive, ename, enotin⟩ := q6 e hemem
      have hename : e.1 = (s.1.1.getD a default).blobName := by
        have := List.find?_some hfind
        simpa using this
      have hea : e.2 ≠ a := by
        intro hh
        exact enotin (by rw [hh]; exact List.mem_cons_self a rest')
      rcases q5 e.2 with hecur | hereset
      · -- the entry's record is still intact: two live input heads share
        -- the name, so the collision involves the champion i₀
        have hsame : (objs.getD e.2 default).blobName =
            (objs.getD a default).blobName := by
          rw [ename, hename, haeq]
        rcases hpair e.2 a hea ealive haliveIn hsame with he2i | hai
        · -- the entry is the champion: the current, older head is reset
          have hai0 : a ≠ i₀ := by
            intro haa
            exact hea (he2i.trans haa.symm)
          have hnamei : (objs.getD a default).blobName =
              (objs.getD i₀ default).blobName := by
            rw [← he2i]
            exact hsame.symm
          have hageslt : (objs.getD a default).objectAge <
              (objs.getD i₀ default).objectAge :=
            hyoung a hai0 haliveIn hnamei
          have hcura : (s.1.1.getD a default).objectAge =
              (objs.getD a default).objectAge := by rw [haeq]
          have hcure : (s.1.1.getD e.2 default).objectAge =
              (objs.getD i₀ default).objectAge := by rw [hecur, he2i]
          have hcne : ¬ ((s.1.1.getD a default).objectAge =
              (s.1.1.getD e.2 default).objectAge) := by omega
          have hclt : (s.1.1.getD a default).objectAge <
              (s.1.1.getD e.2 default).objectAge := by omega
          have hmod5 : ∀ j, (s.1.1.set a (resetObj size)).getD j default =
              objs.getD j default ∨
              (j ≠ i₀ ∧ (objs.getD j default).isAliveHead = true ∧
                (objs.getD j default).blobName =
                  (objs.getD i₀ default).blobName ∧
                (s.1.1.set a (resetObj size)).getD j default =
                  resetObj size) := by
            intro j
            by_cases hja : j = a
            · subst hja
              exact .inr ⟨hai0, haliveIn, hnamei,
                getD_set_self s.1.1 j (resetObj size) default (by omega)⟩
            · rw [getD_set_ne s.1.1 a j (resetObj size) default
                (fun hh => hja hh.symm)]
              exact q5 j
          refine ⟨((s.1.1.set a (resetObj size), s.1.2.set a true), s.2),
            ?_, by simp only [List.length_set]; exact q1, qN', hmod5, ?_⟩
          · simp only [pass2Step, hfind]
            rw [if_neg h0, if_neg hp, if_neg hcne, if_pos hclt]
          · intro e' he'
            obtain ⟨e1, e2, e3⟩ := q6 e' he'
            exact ⟨e1, e2, fun hm => e3 (List.mem_cons_of_mem a hm)⟩
        · -- the current head is the champion: the entry's older head is
          -- reset
          have he2i0 : e.2 ≠ i₀ := by
            rw [← hai]
            exact hea
          have hnamee : (objs.getD e.2 default).blobName =
              (objs.getD i₀ default).blobName := by
            rw [← hai]
            exact hsame
          have hageslt : (objs.getD e.2 default).objectAge <
              (objs.getD i₀ default).objectAge :=
            hyoung e.2 he2i0 ealive hnamee
          have hcura : (s.1.1.getD a default).objectAge =
              (objs.getD i₀ default).objectAge := by rw [haeq, hai]
          have hcure : (s.1.1.getD e.2 default).objectAge =
              (objs.getD e.2 default).objectAge := by rw [hecur]
          have hcne : ¬ ((s.1.1.getD a default).objectAge =
              (s.1.1.getD e.2 default).objectAge) := by omega
          have hcnlt : ¬ ((s.1.1.getD a default).objectAge <
              (s.1.1.getD e.2 default).objectAge) := by omega
          have he2lt : e.2 < objs.length := alive_lt_length objs e.2 ealive
          have hmod5 : ∀ j, (s.1.1.set e.2 (resetObj size)).getD j default =
              objs.getD j default ∨
              (j ≠ i₀ ∧ (objs.getD j default).isAliveHead = true ∧
                (objs.getD j default).blobName =
                  (objs.getD i₀ default).blobName ∧
                (s.1.1.set e.2 (resetObj size)).getD j default =
                  resetObj size) := by
            intro j
            by_cases hje : j = e.2
            · subst hje
              exact .inr ⟨he2i0, ealive, hnamee,
                getD_set_self s.1.1 e.2 (resetObj size) default (by omega)⟩
            · rw [getD_set_ne s.1.1 e.2 j (resetObj size) default
                (fun hh => hje hh.symm)]
              exact q5 j
          refine ⟨((s.1.1.set e.2 (resetObj size), s.1.2.set e.2 true),
            s.2), ?_, by simp only [List.length_set]; exact q1, qN',
            hmod5, ?_⟩
          · simp only [pass2Step, hfind]
            rw [if_neg h0, if_neg hp, if_neg hcne, if_neg hcnlt]
          · intro e' he'
            obtain ⟨e1, e2, e3⟩ := q6 e' he'
            exact ⟨e1, e2, fun hm => e3 (List.mem_cons_of_mem a hm)⟩
      · -- the entry's record was reset earlier: its age reads 0, so the
        -- (stale) entry's slot is harmlessly reset again
        obtain ⟨he2i0, ealive2, ename2, hereq⟩ := hereset
        have he2lt : e.2 < objs.length := alive_lt_length objs e.2 ealive2
        have hcure0 : (s.1.1.getD e.2 default).objectAge = 0 := by
          rw [hereq]
          rfl
        have hcne : ¬ ((s.1.1.getD a default).objectAge =
            (s.1.1.getD e.2 default).objectAge) := by omega
        have hcnlt : ¬ ((s.1.1.getD a default).objectAge <
            (s.1.1.getD e.2 default).objectAge) := by omega
        have hmod5 : ∀ j, (s.1.1.set e.2 (resetObj size)).getD j default =
            objs.getD j default ∨
            (j ≠ i₀ ∧ (objs.getD j default).isAliveHead = true ∧
              (objs.getD j default).blobName =
                (objs.getD i₀ default).blobName ∧
              (s.1.1.set e.2 (resetObj size)).getD j default =
                resetObj size) := by
          intro j
          by_cases hje : j = e.2
          · subst hje
            exact .inr ⟨he2i0, ealive2, ename2,
              getD_set_self s.1.1 e.2 (resetObj size) default (by omega)⟩
          · rw [getD_set_ne s.1.1 e.2 j (resetObj size) default
              (fun hh => hje hh.symm)]
            exact q5 j
        refine ⟨((s.1.1.set e.2 (resetObj size), s.1.2.set e.2 true),
          s.2), ?_, by simp only [List.length_set]; exact q1, qN',
          hmod5, ?_⟩
        · simp only [pass2Step, hfind]
          rw [if_neg h0, if_neg hp, if_neg hcne, if_neg hcnlt]
        · intro e' he'
          obtain ⟨e1, e2, e3⟩ := q6 e' he'
          exact ⟨e1, e2, fun hm => e3 (List.mem_cons_of_mem a hm)⟩
  obtain ⟨out, hfold, hq⟩ := main
  refine ⟨out.1.1, out.1.2, ?_, hq.2.2.1⟩
  show ((List.range objs.length).foldlM (pass2Step size)
      ((objs, d), [])).map (·.1) = .ok (out.1.1, out.1.2)
  rw [hfold]
  rfl

theorem nodup_getD_ne (l : List Nat) (hnd : l.Nodup) (k k' : Nat)
    (hk : k < l.length) (hk' : k' < l.length) (hne : k ≠ k') :
    l.getD k 0 ≠ l.getD k' 0 := by
  rw [List.getD_eq_getElem _ _ hk, List.getD_eq_getElem _ _ hk']
  intro he
  exact hne (hnd.getElem_inj_iff.mp he)

theorem fromSerialization_header (g : Geometry) (s : List Nat) (o : Obj)
    (h : fromSerialization g s = some o) :
    fromBytesLE (s.take YBLOB_MAGIC_S) = g.yblobMagic ∧
    fromBytesLE ((s.drop OBJECT_COUNT_IN_STORE_O).take
      OBJECT_COUNT_IN_STORE_S) = g.objectCountInStore ∧
    fromBytesLE ((s.drop STORE_ENCRYPTION_KEY_SLOT_O).take
      STORE_ENCRYPTION_KEY_SLOT_S) = g.storeEncryptionKeySlot := by
  simp only [fromSerialization] at h
  by_cases c1 : ¬ (s.all (· < 256) = true)
  · rw [if_pos c1] at h; exact Option.noConfusion h
  rw [if_neg c1] at h
  by_cases c2 : s.length < YBLOB_MAGIC_S
  · rw [if_pos c2] at h; exact Option.noConfusion h
  rw [if_neg c2] at h
  by_cases c3 : fromBytesLE (s.take YBLOB_MAGIC_S) ≠ g.yblobMagic
  · rw [if_pos c3] at h; exact Option.noConfusion h
  rw [if_neg c3] at h
  by_cases c4 : s.length < OBJECT_COUNT_IN_STORE_O + OBJECT_COUNT_IN_STORE_S
  · rw [if_pos c4] at h; exact Option.noConfusion h
  rw [if_neg c4] at h
  by_cases c5 : fromBytesLE
      ((s.drop OBJECT_COUNT_IN_STORE_O).take OBJECT_COUNT_IN_STORE_S)
      ≠ g.objectCountInStore
  · rw [if_pos c5] at h; exact Option.noConfusion h
  rw [if_neg c5] at h
  by_cases c6 : s.length <
      STORE_ENCRYPTION_KEY_SLOT_O + STORE_ENCRYPTION_KEY_SLOT_S
  · rw [if_pos c6] at h; exact Option.noConfusion h
  rw [if_neg c6] at h
  by_cases c7 : fromBytesLE
      ((s.drop STORE_ENCRYPTION_KEY_SLOT_O).take STORE_ENCRYPTION_KEY_SLOT_S)
      ≠ g.storeEncryptionKeySlot
  · rw [if_pos c7] at h; exact Option.noConfusion h
  exact ⟨not_not.mp c3, not_not.mp c5, not_not.mp c7⟩

/-- Reassembling the padded chunk payloads of a stored blob: the
concatenation is the payload followed by the final chunk's NUL
padding. -/
theorem chunks_flatten_nat (P : List Nat) (c b m : Nat)
    (hcover : P.length ≤ c + m * b)
    (hfull : ∀ k, k < m → c + k * b < P.length) :
    ∃ junk, (padRight (P.take c) c ::
      (List.range m).map (fun k =>
        padRight ((P.take (c + (k + 1) * b)).drop (c + k * b)) b)).flatten
      = P ++ junk := by
  cases m with
  | zero =>
    refine ⟨List.replicate (c - (P.take c).length) 0, ?_⟩
    simp only [List.range_zero, List.map_nil, List.flatten_cons,
      List.flatten_nil, List.append_nil, padRight]
    rw [List.take_of_length_le (by simpa using hcover)]
  | succ m' =>
    have hc : c < P.length := by
      have := hfull 0 (by omega)
      simpa using this
    have hheads : padRight (P.take c) c = P.take c :=
      padRight_eq_self _ _ (by simp only [List.length_take]; omega)
    have hmap : (List.range (m' + 1)).map (fun k =>
        padRight ((P.take (c + (k + 1) * b)).drop (c + k * b)) b) =
        ((List.range m').map (fun k =>
          (P.take (c + (k + 1) * b)).drop (c + k * b))) ++
        [padRight ((P.take (c + (m' + 1) * b)).drop (c + m' * b)) b] := by
      rw [List.range_succ, List.map_append]
      congr 1
      apply List.map_congr_left
      intro k hk
      have hklt : k < m' := by simpa using hk
      have hfull' : c + (k + 1) * b < P.length := hfull (k + 1) (by omega)
      have hmb : (k + 1) * b = k * b + b := by rw [Nat.succ_mul]
      apply padRight_eq_self
      rw [segment_length P (c + k * b) (c + (k + 1) * b) (by omega)
        (by omega)]
      omega
    refine ⟨List.replicate
      (b - ((P.take (c + (m' + 1) * b)).drop (c + m' * b)).length) 0, ?_⟩
    rw [List.flatten_cons, hheads, hmap, List.flatten_append,
      flatten_range_segments P c b m']
    simp only [List.flatten_cons, List.flatten_nil, List.append_nil,
      padRight]
    have hmb : (m' + 1) * b = m' * b + b := by rw [Nat.succ_mul]
    rw [← List.append_assoc, ← List.append_assoc,
      take_concat_drop_take P c (c + m' * b) (by omega),
      take_concat_drop_take P (c + m' * b) (c + (m' + 1) * b) (by omega),
      List.take_of_length_le (by omega)]

theorem fetchBlobCore_unfold (dev : List (List Nat)) (name : List Nat)
    (pin : Bool) (dec : List Nat → Option (List Nat)) (S St : Store)
    (i : Nat) (chunks : List (List Nat))
    (h1 : ¬ (name.length = 0 ∨ 255 < name.length))
    (h2 : loadStore dev = some S)
    (h3 : sanitizeE S = .ok St)
    (h4 : (List.range St.objects.length).find? (fun i =>
      let obj := St.objects.getD i default
      decide (obj.objectAge ≠ 0 ∧ obj.chunkPosInBlob = 0 ∧
        obj.blobName = name)) = some i)
    (h5 : fetchChunks St.objects sanFuel i = some chunks)
    (h6 : (St.objects.getD i default).blobEncryptionKeySlot = 0) :
    fetchBlobCore dev name pin dec =
      .ok (some (chunks.flatten.take
        (St.objects.getD i default).blobSize)) := by
  have h1' : ¬ (name = [] ∨ 255 < name.length) := by simpa using h1
  have h4' : List.find? (fun i =>
      !decide ((St.objects[i]?.getD default).objectAge = 0) &&
        (decide ((St.objects[i]?.getD default).chunkPosInBlob = 0) &&
          decide ((St.objects[i]?.getD default).blobName = name)))
      (List.range St.objects.length) = some i := by
    rw [← h4]
    congr 1
    funext j
    simp [List.getD_eq_getElem?_getD]
  have h6' : (St.objects[i]?.getD default).blobEncryptionKeySlot = 0 := by
    rw [← List.getD_eq_getElem?_getD]
    exact h6
  simp [fetchBlobCore, h1', h2, h3, h4', h5, h6']
  rfl

/-- Claim C1 (amended): storing a non-empty blob and fetching it back
returns exactly the stored payload.  `store_blob` with encryption
disabled followed by `fetch_blob` of the same name on the updated device
yields the payload, provided the payload is non-empty and no blob name
is carried by three live heads; payload-fits-capacity is the success of
the store operation itself.  Storing over an existing same-named blob is
covered: the new head is strictly the youngest carrier of the name, so
the fetch-side sanitize resets the older duplicate and the lookup finds
the fresh chain. -/
theorem store_then_fetch_returns_payload
    (dev : List (List Nat)) (name payload0 : List Nat) (mt : Nat)
    (S S₀ store' : Store) (writes : List (Nat × List Nat))
    (pin : Bool) (dec : List Nat → Option (List Nat))
    (hP : 1 ≤ payload0.length)
    (hbp : bytesOk payload0) (hbn : bytesOk name)
    (hload : loadStore dev = some S)
    (hsan : sanitizeE S = .ok S₀)
    (h3 : NoTripleName S.objects)
    (hok : storeBlobCore dev name payload0 false id mt =
      .ok (store', writes)) :
    fetchBlobCore (applyWrites dev writes) name pin dec =
      .ok (some payload0) := by
  classical
  -- Invert the store operation.
  obtain ⟨Sa, Sb, indexes, hname, hloada, hsana, halloc, hbuild, hsync⟩ :=
    storeBlobCore_inv dev name payload0 false id mt store' writes hok
  rw [hload] at hloada
  injection hloada with hSa
  subst hSa
  rw [hsan] at hsana
  injection hsana with hSb
  subst hSb
  have hpay : (if false = true then id payload0 else payload0) =
      payload0 := rfl
  rw [hpay] at halloc hbuild
  have hslot0 : (if false = true then S₀.geo.storeEncryptionKeySlot
      else 0) = 0 := rfl
  rw [hslot0] at hbuild
  -- Facts about the loaded and sanitized store.
  obtain ⟨hlenS, hdS, hageB⟩ := loadStore_wf dev S hload
  obtain ⟨r0, hr0dev, hgm, hr0m, hr0len, hszmin, hszmax, hr0cnt, hr0slot,
    hlobj, hdirty0, hage0⟩ := loadStore_inv dev S hload
  obtain ⟨hg0, hsage0, holen0, hdlen0, hmod0, hclean0, hOK0, hreach0,
    huniq0⟩ := sanitizeE_spec S S₀ hdS hlenS hsan
  have huniqS₀ : UniqueHeadNames S₀.objects := huniq0 h3
  have hd0 : S₀.dirty.length = S₀.objects.length := by omega
  have hcnt0 : S₀.objects.length = S.geo.objectCountInStore := by omega
  -- Allocation facts.
  obtain ⟨n, hn1, hn2, hout, hcover, hfull⟩ :=
    allocIndexes_spec _ _ _ _ _ halloc
  have hne : indexes ≠ [] := by
    rw [hout]
    intro hc
    have hlc := congrArg List.length hc
    simp only [List.length_take, List.length_nil] at hlc
    omega
  cases indexes with
  | nil => exact absurd rfl hne
  | cons i₀ rest =>
  have hsub : ∀ j ∈ i₀ :: rest, j ∈ freeIndexes S₀.objects := by
    intro j hj
    exact List.take_subset n (freeIndexes S₀.objects) (hout ▸ hj)
  have hbound : ∀ j ∈ i₀ :: rest, j < S₀.objects.length :=
    fun j hj => (freeIndexes_mem _ j (hsub j hj)).1
  have hfreeidx : ∀ j ∈ i₀ :: rest,
      (S₀.objects.getD j default).objectAge = 0 :=
    fun j hj => (freeIndexes_mem _ j (hsub j hj)).2
  have hnodup : (i₀ :: rest).Nodup := by
    rw [hout]
    exact (freeIndexes_nodup S₀.objects).sublist
      (List.take_sublist n (freeIndexes S₀.objects))
  have hinr : i₀ ∉ rest := (List.nodup_cons.mp hnodup).1
  have hndr : rest.Nodup := (List.nodup_cons.mp hnodup).2
  have hrl : rest.length = n - 1 := by
    have hlc := congrArg List.length hout
    simp only [List.length_cons, List.length_take] at hlc
    omega
  have havail : (freeIndexes S₀.objects).length ≤ S₀.objects.length := by
    simp only [freeIndexes]
    calc ((List.range S₀.objects.length).filter
          (fun i => decide ((S₀.objects.getD i default).objectAge = 0))).length
        ≤ (List.range S₀.objects.length).length :=
          List.length_filter_le _ _
      _ = S₀.objects.length := by simp
  -- Build facts.
  obtain ⟨hg', holen', hdlen', hsage', huntouch, hdirtyI0, hhead, hbodies,
    hgwf, hagelt, hutf, hnm0, hnm255, hslice, hmtB, hplB, heksB, husB⟩ :=
    buildChunks_head_spec payload0 _ _ mt 0 payload0.length name i₀ rest
      S₀ store' hbuild hbound hnodup hd0
  have hgeo' : store'.geo = S.geo := by rw [hg', hg0]
  have hcount256 : S.geo.objectCountInStore < 256 := by
    have hc := hgwf.2.1
    rw [hg0] at hc
    simpa using hc
  have holenC : store'.objects.length = S.geo.objectCountInStore := by
    omega
  have hi₀lt : i₀ < S₀.objects.length := hbound i₀ (by simp)
  have hcntpos : 0 < S.geo.objectCountInStore := by omega
  have hrestlt : rest.length < S.geo.objectCountInStore := by omega
  -- Capacity arithmetic (`ch` is the head capacity, `cb` the body one).
  have hcheq : (S₀.geo.objectSizeInStore : Int) -
      ((BLOB_NAME_O : Nat) + name.length) =
      (S₀.geo.objectSizeInStore : Int) - (BLOB_NAME_O : Nat) -
        name.length := by ring
  have hch0 : 0 ≤ (S₀.geo.objectSizeInStore : Int) - (BLOB_NAME_O : Nat) -
      name.length := by
    rw [← hcheq]
    calc (0 : Int) ≤ ((pySlice payload0 0 _).length : Int) := by positivity
      _ ≤ _ := hslice
  have hcb0 : rest ≠ [] → 0 < (S₀.geo.objectSizeInStore : Int) -
      (BLOB_MODIFICATION_TIME_O : Nat) := by
    intro hne'
    have hrpos : 0 < rest.length := List.length_pos.mpr hne'
    have hn2' : 2 ≤ n := by omega
    have hf := hfull (n - 2) (by omega)
    have h12 : ((n - 1 : Nat) : Int) = ((n - 2 : Nat) : Int) + 1 := by
      omega
    have hcast : ((n - 1 : Nat) : Int) *
        ((S₀.geo.objectSizeInStore : Int) -
          (BLOB_MODIFICATION_TIME_O : Nat)) =
        ((n - 2 : Nat) : Int) * ((S₀.geo.objectSizeInStore : Int) -
          (BLOB_MODIFICATION_TIME_O : Nat)) +
        ((S₀.geo.objectSizeInStore : Int) -
          (BLOB_MODIFICATION_TIME_O : Nat)) := by
      rw [h12]
      ring
    rw [hcast] at hcover
    omega
  -- Sync facts.
  obtain ⟨hw_mem, hw_complete, hw_nodup⟩ := syncWrites_spec store' writes hsync
  have hdirtyWrite : ∀ j, j < store'.objects.length →
      store'.dirty.getD j false = true →
      ∃ b, (j, b) ∈ writes ∧
        serializeO S.geo (store'.objects.getD j default) = some b := by
    intro j hj hdj
    obtain ⟨b, hb⟩ := hw_complete j hj hdj
    obtain ⟨-, -, hser⟩ := hw_mem (j, b) hb
    rw [hgeo'] at hser
    exact ⟨b, hb, hser⟩
  -- Decoded records of the original store are well-formed.
  have hSrecWF : ∀ j, j < S.objects.length →
      ObjWF S.geo (S.objects.getD j default) ∧
      ∀ p, S.objects.getD j default = .free p →
        p.length = S.geo.objectSizeInStore - CHUNK_POS_IN_BLOB_O := by
    intro j hj
    obtain ⟨raw, hraw, hrawlen, hdec⟩ := loadObjects_pointwise S.geo dev
      (List.range S.geo.objectCountInStore) S.objects hlobj j
      (by simpa using hj.trans_eq hlenS)
    exact fromSerialization_wf S.geo raw _ hrawlen hdec
  have hmem_idx : ∀ j ∈ rest, ∃ k, k < rest.length ∧ rest.getD k 0 = j := by
    intro j hj
    obtain ⟨k, hk, hkeq⟩ := List.mem_iff_getElem.mp hj
    exact ⟨k, hk, by rw [List.getD_eq_getElem _ _ hk]; exact hkeq⟩
  have hszeq : S₀.geo.objectSizeInStore = S.geo.objectSizeInStore := by
    rw [hg0]
  -- Every dirty record of the final store can be decoded back.
  have hclassify : ∀ i, i < store'.objects.length →
      store'.dirty.getD i false = true →
      ObjWF S.geo (store'.objects.getD i default) ∧
      (∀ p, store'.objects.getD i default = .free p →
        p.length = S.geo.objectSizeInStore - CHUNK_POS_IN_BLOB_O) ∧
      ((store'.objects.getD i default).isHead = true →
        (store'.objects.getD i default).blobSize ≠ 0) := by
    intro i hilt hdi
    by_cases him : i ∈ i₀ :: rest
    · rcases List.mem_cons.mp him with heqi | hmem
      · -- the freshly built head chunk
        rw [heqi]
        have hnxtlt : rest.getD 0 i₀ < S.geo.objectCountInStore := by
          by_cases h0 : 0 < rest.length
          · have hm := getD_mem rest 0 i₀ h0
            have := hbound _ (List.mem_cons_of_mem i₀ hm)
            omega
          · rw [List.getD_eq_default _ _ (by omega)]
            omega
        have h256n : 256 ^ NEXT_CHUNK_INDEX_IN_STORE_S = 256 := rfl
        have h256e : 256 ^ BLOB_ENCRYPTION_KEY_SLOT_S = 256 := rfl
        have hsz23 : (BLOB_NAME_O : Nat) + name.length ≤
            S.geo.objectSizeInStore := by
          have h0s : (0 : Int) ≤ (S₀.geo.objectSizeInStore : Int) -
              ((BLOB_NAME_O : Nat) + name.length) :=
            le_trans (by positivity) hslice
          omega
        refine ⟨?_, ?_, ?_⟩
        · rw [hhead]
          refine ⟨by omega, hagelt, by omega, hmtB, hplB, by omega, husB,
            hnm0, hnm255, hutf, hbn, hsz23, ?_, ?_⟩
          · rw [padRight_length _ _ (by omega)]
            omega
          · exact padRight_bytesOk _ _ (pySlice_bytesOk _ _ _ hbp)
        · intro p hp
          rw [hhead] at hp
          exact Obj.noConfusion hp
        · intro hh
          rw [hhead]
          simp only [Obj.blobSize]
          omega
      · -- a freshly built body chunk
        obtain ⟨k, hk, hkeq⟩ := hmem_idx i hmem
        rw [← hkeq]
        have hbody := (hbodies k hk).2
        have hrne : rest ≠ [] := by
          intro hcnil
          rw [hcnil] at hk
          simp at hk
        have hcbpos := hcb0 hrne
        have hklt : rest.getD k 0 < store'.objects.length := by
          have hm := getD_mem rest k 0 hk
          have := hbound _ (List.mem_cons_of_mem i₀ hm)
          omega
        obtain ⟨bser, hbmem, hser⟩ := hdirtyWrite (rest.getD k 0) hklt
          (hbodies k hk).1
        obtain ⟨-, hageb, -⟩ := serializeO_shape S.geo _ bser hser
        rw [hbody] at hageb
        simp only [Obj.objectAge] at hageb
        have h256p : 256 ^ CHUNK_POS_IN_BLOB_S = 256 := rfl
        have h256n : 256 ^ NEXT_CHUNK_INDEX_IN_STORE_S = 256 := rfl
        have hnmem : rest.getD (k + 1) (rest.getD k 0) ∈ rest := by
          by_cases hkk : k + 1 < rest.length
          · exact getD_mem rest (k + 1) _ hkk
          · rw [List.getD_eq_default _ _ (by omega)]
            exact getD_mem rest k 0 hk
        have hnxtlt := hbound _ (List.mem_cons_of_mem i₀ hnmem)
        have h11 : BLOB_MODIFICATION_TIME_O = 11 := rfl
        have hf := hfull k (by omega)
        have hkcb : (0 : Int) ≤ (k : Int) *
            ((S₀.geo.objectSizeInStore : Int) -
              (BLOB_MODIFICATION_TIME_O : Nat)) :=
          mul_nonneg (by positivity) hcbpos.le
        have hk1cb : (0 : Int) ≤ ((k : Int) + 1) *
            ((S₀.geo.objectSizeInStore : Int) -
              (BLOB_MODIFICATION_TIME_O : Nat)) :=
          mul_nonneg (by positivity) hcbpos.le
        have ha0 : (0 : Int) ≤ (S₀.geo.objectSizeInStore : Int) -
            (BLOB_NAME_O : Nat) - name.length + (k : Int) *
            ((S₀.geo.objectSizeInStore : Int) -
              (BLOB_MODIFICATION_TIME_O : Nat)) := by omega
        have hb0 : (0 : Int) ≤ (S₀.geo.objectSizeInStore : Int) -
            (BLOB_NAME_O : Nat) - name.length + ((k : Int) + 1) *
            ((S₀.geo.objectSizeInStore : Int) -
              (BLOB_MODIFICATION_TIME_O : Nat)) := by omega
        have haP : (S₀.geo.objectSizeInStore : Int) -
            (BLOB_NAME_O : Nat) - name.length + (k : Int) *
            ((S₀.geo.objectSizeInStore : Int) -
              (BLOB_MODIFICATION_TIME_O : Nat)) ≤
            (payload0.length : Int) := by omega
        have hdiff : (S₀.geo.objectSizeInStore : Int) -
            (BLOB_NAME_O : Nat) - name.length + ((k : Int) + 1) *
            ((S₀.geo.objectSizeInStore : Int) -
              (BLOB_MODIFICATION_TIME_O : Nat)) =
            ((S₀.geo.objectSizeInStore : Int) -
            (BLOB_NAME_O : Nat) - name.length + (k : Int) *
            ((S₀.geo.objectSizeInStore : Int) -
              (BLOB_MODIFICATION_TIME_O : Nat))) +
            ((S₀.geo.objectSizeInStore : Int) -
              (BLOB_MODIFICATION_TIME_O : Nat)) := by ring
        have hslice_le : (pySlice payload0
            ((S₀.geo.objectSizeInStore : Int) -
              (BLOB_NAME_O : Nat) - name.length + (k : Int) *
              ((S₀.geo.objectSizeInStore : Int) -
                (BLOB_MODIFICATION_TIME_O : Nat)))
            ((S₀.geo.objectSizeInStore : Int) -
              (BLOB_NAME_O : Nat) - name.length + ((k : Int) + 1) *
              ((S₀.geo.objectSizeInStore : Int) -
                (BLOB_MODIFICATION_TIME_O : Nat)))).length ≤
            ((S₀.geo.objectSizeInStore : Int) -
              (BLOB_MODIFICATION_TIME_O : Nat)).toNat := by
          rw [pySlice_nonneg payload0 _ _ ha0 hb0 haP, hdiff]
          simp only [List.length_drop, List.length_take]
          omega
        refine ⟨?_, ?_, ?_⟩
        · rw [hbody]
          refine ⟨by omega, hageb, by omega, by omega, by omega, by omega,
            ?_, ?_⟩
          · rw [padRight_length _ _ hslice_le]
            omega
          · exact padRight_bytesOk _ _ (pySlice_bytesOk _ _ _ hbp)
        · intro p hp
          rw [hbody] at hp
          exact Obj.noConfusion hp
        · intro hh
          rw [hbody] at hh
          simp [Obj.isHead] at hh
    · -- an untouched record: unchanged or reset by sanitize
      have hobjeq : store'.objects.getD i default =
          S₀.objects.getD i default := (huntouch i him).1
      rcases hmod0 i with hsame | hreset
      · have heq2 : store'.objects.getD i default =
            S.objects.getD i default := by rw [hobjeq, hsame]
        rw [heq2]
        have hiltS : i < S.objects.length := by omega
        obtain ⟨hwfS, hfreeS⟩ := hSrecWF i hiltS
        refine ⟨hwfS, hfreeS, ?_⟩
        intro hh
        obtain ⟨bser, hbmem, hser⟩ := hdirtyWrite i hilt hdi
        rw [heq2] at hser
        cases hobj : S.objects.getD i default with
        | free p =>
          rw [hobj] at hh
          simp [Obj.isHead] at hh
        | body a pos nxt p =>
          rw [hobj] at hh
          simp [Obj.isHead] at hh
        | head a nxt mtH bs eks us nm p =>
          rw [hobj] at hser
          have ha0 : 0 < a := by
            have hwfS2 := hwfS
            rw [hobj] at hwfS2
            exact hwfS2.1
          have hbsne := serializeO_bs S.geo a nxt mtH bs eks us nm p bser
            hser (by omega)
          simpa [Obj.blobSize] using hbsne
      · have heq2 : store'.objects.getD i default =
            resetObj S.geo.objectSizeInStore := by rw [hobjeq, hreset]
        rw [heq2]
        refine ⟨?_, ?_, ?_⟩
        · show bytesOk _
          exact bytesOk_replicate _ 0 (by omega)
        · intro p hp
          simp only [resetObj] at hp
          injection hp with hp
          rw [← hp]
          simp only [List.length_replicate]
          have h9 : CHUNK_POS_IN_BLOB_O = 9 := rfl
          have hMax : OBJECT_MAX_SIZE = 3052 := rfl
          omega
        · intro hh
          simp [resetObj, Obj.isHead] at hh
  -- Per-index decode facts for the updated device.
  have hdevlen : ∀ i, i < S.geo.objectCountInStore → i < dev.length := by
    intro i hi
    obtain ⟨raw, hraw, -, -⟩ := loadObjects_pointwise S.geo dev
      (List.range S.geo.objectCountInStore) S.objects hlobj i
      (by simpa using hi)
    rw [getD_range _ i hi] at hraw
    obtain ⟨hlt, -⟩ := List.getElem?_eq_some.mp hraw
    exact hlt
  have hdecode : ∀ i, i < S.geo.objectCountInStore →
      ∃ raw, (applyWrites dev writes)[i]? = some raw ∧
        raw.length = S.geo.objectSizeInStore ∧
        fromSerialization S.geo raw =
          some (store'.objects.getD i default) := by
    intro i hi
    have hilt' : i < store'.objects.length := by omega
    by_cases hdi : store'.dirty.getD i false = true
    · obtain ⟨b, hbmem, hser⟩ := hdirtyWrite i hilt' hdi
      obtain ⟨hwf, hfreelen, hbsne⟩ := hclassify i hilt' hdi
      have hgwfS : GeometryWF S.geo := by
        rw [← hg0]
        exact hgwf
      have hlenb : b.length = S.geo.objectSizeInStore :=
        serializeO_length S.geo _ b hser hwf (by
          have h9 : CHUNK_POS_IN_BLOB_O = 9 := rfl
          have h10 : OBJECT_MIN_SIZE = 10 := rfl
          omega) hfreelen
      have hdec : fromSerialization S.geo b =
          some (store'.objects.getD i default) :=
        serializeO_decode S.geo _ b hgwfS hwf hbsne hser
      have hget : (applyWrites dev writes)[i]? = some b :=
        applyWrites_mem dev writes i b hbmem hw_nodup (hdevlen i hi)
      exact ⟨b, hget, hlenb, hdec⟩
    · have hinotidx : i ∉ i₀ :: rest := by
        intro hmem
        rcases List.mem_cons.mp hmem with rfl | hmem2
        · exact hdi hdirtyI0
        · obtain ⟨k, hk, hkeq⟩ := hmem_idx i hmem2
          apply hdi
          rw [← hkeq]
          exact (hbodies k hk).1
      have hobjeq : store'.objects.getD i default =
          S₀.objects.getD i default := (huntouch i hinotidx).1
      have hdirteq : store'.dirty.getD i false = S₀.dirty.getD i false :=
        (huntouch i hinotidx).2
      have hS₀clean : S₀.dirty.getD i false = false := by
        rw [← hdirteq]
        simpa using hdi
      obtain ⟨hobjeq0, -⟩ := hclean0 i hS₀clean
      have hnow : ∀ w ∈ writes, w.1 ≠ i := by
        intro w hw hwi
        obtain ⟨hwlt, hwd, -⟩ := hw_mem w hw
        rw [hwi] at hwd
        exact hdi hwd
      have hget : (applyWrites dev writes)[i]? = dev[i]? :=
        applyWrites_notin dev writes i hnow
      obtain ⟨raw, hraw, hrawlen, hdec⟩ := loadObjects_pointwise S.geo dev
        (List.range S.geo.objectCountInStore) S.objects hlobj i
        (by simpa using hi)
      rw [getD_range _ i hi] at hraw
      refine ⟨raw, by rw [hget]; exact hraw, hrawlen, ?_⟩
      rw [hobjeq, hobjeq0]
      exact hdec
  -- Reload the device: it decodes to the final record array.
  have hreload : loadStore (applyWrites dev writes) =
      some ⟨S.geo, ((store'.objects.map Obj.objectAge).foldl max 0),
        store'.objects,
        List.replicate S.geo.objectCountInStore false⟩ := by
    obtain ⟨raw0, h0get, h0len, h0dec⟩ := hdecode 0 hcntpos
    obtain ⟨hh1, hh2, hh3⟩ := fromSerialization_header S.geo raw0 _ h0dec
    have hobjs' : loadObjects S.geo (applyWrites dev writes)
        (List.range S.geo.objectCountInStore) = some store'.objects := by
      have hexact := loadObjects_exact S.geo (applyWrites dev writes)
        (List.range S.geo.objectCountInStore)
        (fun i => store'.objects.getD i default)
        (fun i hi => hdecode i (by simpa using hi))
      have hmapeq : (List.range S.geo.objectCountInStore).map
          (fun i => store'.objects.getD i default) = store'.objects := by
        rw [show S.geo.objectCountInStore = store'.objects.length from
          holenC.symm]
        exact range_map_getD store'.objects default
      rw [hexact, hmapeq]
    exact loadStore_build (applyWrites dev writes) S.geo store'.objects
      raw0 h0get hgm hh1 h0len hszmin hszmax hh2 hh3 hobjs'
  -- The new chain's link structure.
  have hlink_next : (store'.objects.getD i₀ default).nextChunkIndexInStore
      = rest.headD i₀ := by
    rw [hhead, headD_eq_getD]
    rfl
  have hlink_hd : ∀ j, rest.head? = some j → j ≠ i₀ := by
    intro j hj hji
    have hjm : j ∈ rest := by
      cases rest with
      | nil => simp at hj
      | cons q t =>
        simp only [List.head?_cons, Option.some.injEq] at hj
        subst hj
        exact List.mem_cons_self _ _
    rw [hji] at hjm
    exact hinr hjm
  have hlink_links : ∀ k, k < rest.length →
      (store'.objects.getD (rest.getD k 0) default).nextChunkIndexInStore
        = rest.getD (k + 1) (rest.getD k 0) := by
    intro k hk
    rw [(hbodies k hk).2]
    rfl
  have hlink_dist : ∀ k, k + 1 < rest.length →
      rest.getD (k + 1) 0 ≠ rest.getD k 0 := by
    intro k hk
    exact nodup_getD_ne rest hndr (k + 1) k (by omega) (by omega) (by omega)
  have hfuel_ok : rest.length + 1 ≤ sanFuel := by
    have h24 : sanFuel = 16777216 := by norm_num [sanFuel]
    omega
  have hchain : chainListF store'.objects sanFuel i₀ = some (i₀ :: rest) :=
    chainListF_of_links store'.objects rest sanFuel i₀ hfuel_ok hlink_next
      hlink_hd hlink_links hlink_dist
  have hheadage : (store'.objects.getD i₀ default).objectAge =
      S₀.storeAge + 1 := by
    rw [hhead]
    rfl
  have hlink_fields : ∀ k, k < rest.length →
      rest.getD k 0 < S.geo.objectCountInStore ∧
      (store'.objects.getD (rest.getD k 0) default).objectAge =
        (S₀.storeAge + 1) + k + 1 ∧
      (store'.objects.getD (rest.getD k 0) default).chunkPosInBlob =
        0 + k + 1 := by
    intro k hk
    refine ⟨?_, ?_, ?_⟩
    · have hm : rest.getD k 0 ∈ rest := getD_mem rest k 0 hk
      have := hbound (rest.getD k 0) (List.mem_cons_of_mem i₀ hm)
      omega
    · rw [(hbodies k hk).2]
      simp only [Obj.objectAge]
      omega
    · rw [(hbodies k hk).2]
      simp only [Obj.chunkPosInBlob]
      omega
  have hHeadOKi₀ : HeadOK S.geo.objectCountInStore store'.objects i₀ := by
    show pass1Walk _ _ _ _ _ _ = .ok true
    refine pass1Walk_accepts S.geo.objectCountInStore store'.objects rest
      sanFuel i₀ ((store'.objects.getD i₀ default).objectAge) 0 hfuel_ok
      hlink_next hlink_hd hlink_links hlink_dist ?_
    intro k hk
    obtain ⟨hf1, hf2, hf3⟩ := hlink_fields k hk
    refine ⟨hf1, ?_, hf3⟩
    rw [hheadage]
    exact hf2
  have hAlive₀ : AliveHeadAt store'.objects i₀ := by
    refine ⟨by omega, ?_⟩
    rw [hhead]
    simp [Obj.isAliveHead, Obj.objectAge, Obj.chunkPosInBlob]
  -- Old heads keep their accepted chains.
  have htransfer : ∀ i, i ∉ i₀ :: rest → AliveHeadAt S₀.objects i →
      HeadOK S.geo.objectCountInStore store'.objects i ∧
      chainListF store'.objects sanFuel i =
        chainListF S₀.objects sanFuel i := by
    intro i hni hal
    have hOKi := hOK0 i hal
    refine headOK_transfer S.geo.objectCountInStore S₀.objects
      store'.objects i hOKi ?_
    intro p hc j hj
    obtain ⟨p', hc', hh', ht'⟩ := pass1Walk_path S.geo.objectCountInStore
      S₀.objects sanFuel i _ 0 hOKi
    rw [hc] at hc'
    injection hc' with hpp
    subst hpp
    rcases headMem_cases p i hh' j hj with rfl | hjt
    · exact (huntouch j hni).1
    · have hjfacts := ht' j hjt
      have hjni : j ∉ i₀ :: rest := by
        intro hm
        exact hjfacts.2.1 (hfreeidx j hm)
      exact (huntouch j hjni).1
  -- Pass-1 acceptance for every live head of the final array.
  have hOK' : ∀ i, AliveHeadAt store'.objects i →
      HeadOK S.geo.objectCountInStore store'.objects i := by
    intro i hal
    by_cases hni : i ∈ i₀ :: rest
    · rcases List.mem_cons.mp hni with rfl | hmem
      · exact hHeadOKi₀
      · exfalso
        obtain ⟨k, hk, hkeq⟩ := hmem_idx i hmem
        have hal2 := hal.2
        rw [← hkeq, (hbodies k hk).2] at hal2
        simp [Obj.isAliveHead, Obj.chunkPosInBlob] at hal2
    · have hal1 : i < store'.objects.length := hal.1
      have hal₀ : AliveHeadAt S₀.objects i := by
        refine ⟨by omega, ?_⟩
        rw [← (huntouch i hni).1]
        exact hal.2
      exact (htransfer i hni hal₀).1
  -- Unique head names in the final array.
  have hbn' : (store'.objects.getD i₀ default).blobName = name := by
    rw [hhead]
    rfl
  have hcases : ∀ x, AliveHeadAt store'.objects x →
      x = i₀ ∨ (x ∉ i₀ :: rest ∧ AliveHeadAt S₀.objects x) := by
    intro x hx
    by_cases hxm : x ∈ i₀ :: rest
    · rcases List.mem_cons.mp hxm with rfl | hmem
      · exact Or.inl rfl
      · exfalso
        obtain ⟨k, hk, hkeq⟩ := hmem_idx x hmem
        have hx2 := hx.2
        rw [← hkeq, (hbodies k hk).2] at hx2
        simp [Obj.isAliveHead, Obj.chunkPosInBlob] at hx2
    · have hx1 : x < store'.objects.length := hx.1
      refine Or.inr ⟨hxm, ⟨by omega, ?_⟩⟩
      rw [← (huntouch x hxm).1]
      exact hx.2
  -- Ages in the sanitized store never exceed its store age.
  have hage_le : ∀ j, (S₀.objects.getD j default).objectAge ≤
      S₀.storeAge := by
    intro j
    by_cases hj : j < S₀.objects.length
    · rcases hmod0 j with hsame | hreset
      · rw [hsame, hsage0, hage0]
        exact (le_foldl_max (S.objects.map Obj.objectAge) 0).2 _
          (List.mem_map_of_mem _ (getD_mem S.objects j default (by omega)))
      · rw [hreset, resetObj_not_alive_flags]
        exact Nat.zero_le _
    · rw [List.getD_eq_default _ _ (Nat.le_of_not_lt hj)]
      exact Nat.zero_le _
  -- The new head is strictly the youngest live head carrying its name.
  have hyoungC : ∀ j, j ≠ i₀ →
      (store'.objects.getD j default).isAliveHead = true →
      (store'.objects.getD j default).blobName =
        (store'.objects.getD i₀ default).blobName →
      (store'.objects.getD j default).objectAge <
        (store'.objects.getD i₀ default).objectAge := by
    intro j hji halj hnm
    have hjlt : j < store'.objects.length :=
      alive_lt_length store'.objects j halj
    rcases hcases j ⟨hjlt, halj⟩ with rfl | ⟨hjni, hjA⟩
    · exact absurd rfl hji
    · rw [(huntouch j hjni).1, hheadage]
      have := hage_le j
      omega
  -- Every same-name collision among live heads involves the new head.
  have hpairC : ∀ i j, i ≠ j →
      (store'.objects.getD i default).isAliveHead = true →
      (store'.objects.getD j default).isAliveHead = true →
      (store'.objects.getD i default).blobName =
        (store'.objects.getD j default).blobName →
      i = i₀ ∨ j = i₀ := by
    intro i j hij hi hj hnm
    rcases hcases i ⟨alive_lt_length store'.objects i hi, hi⟩ with
      rfl | ⟨hiI, hiA⟩
    · exact Or.inl rfl
    rcases hcases j ⟨alive_lt_length store'.objects j hj, hj⟩ with
      rfl | ⟨hjI, hjA⟩
    · exact Or.inr rfl
    exact absurd
      (by rw [← (huntouch i hiI).1, ← (huntouch j hjI).1]; exact hnm)
      (huniqS₀ i j hiA hjA hij)
  -- No blob name is carried by three live heads of the final array.
  have hNoTriple' : NoTripleName store'.objects := by
    intro i j k hi hj hk hij hik hjk hcon
    obtain ⟨hnm1, hnm2⟩ := hcon
    rcases hcases i hi with rfl | ⟨hiI, hiA⟩
    · rcases hcases j hj with rfl | ⟨hjI, hjA⟩
      · exact hij rfl
      · rcases hcases k hk with rfl | ⟨hkI, hkA⟩
        · exact hik rfl
        · exact huniqS₀ j k hjA hkA hjk
            (by rw [← (huntouch j hjI).1, ← (huntouch k hkI).1]; exact hnm2)
    · rcases hcases j hj with rfl | ⟨hjI, hjA⟩
      · rcases hcases k hk with rfl | ⟨hkI, hkA⟩
        · exact hjk rfl
        · refine huniqS₀ i k hiA hkA hik ?_
          rw [← (huntouch i hiI).1, ← (huntouch k hkI).1]
          exact hnm1.trans hnm2
      · exact huniqS₀ i j hiA hjA hij
          (by rw [← (huntouch i hiI).1, ← (huntouch j hjI).1]; exact hnm1)
  -- Run pass 2 on the reloaded array: the older duplicate (if any) is
  -- reset and the fresh chain kept.
  obtain ⟨objs₂, d₂, hp2run, hp2mod⟩ := pass2_champion
    S.geo.objectSizeInStore store'.objects
    (List.replicate S.geo.objectCountInStore false) i₀
    hyoungC hpairC
  obtain ⟨hl2a, hl2b, hmod2, hclean2, huniqimp⟩ := pass2_spec
    S.geo.objectSizeInStore store'.objects
    (List.replicate S.geo.objectCountInStore false)
    (by simp only [List.length_replicate]; omega) objs₂ d₂ hp2run
  have huniq₂ : UniqueHeadNames objs₂ := huniqimp hNoTriple'
  -- Pass 2 leaves the new chain untouched.
  have hchain2eq : ∀ j ∈ i₀ :: rest, objs₂.getD j default =
      store'.objects.getD j default := by
    intro j hj
    rcases hp2mod j with h | h
    · exact h
    · exfalso
      rcases List.mem_cons.mp hj with rfl | hmem
      · exact h.1 rfl
      · obtain ⟨k, hk, hkeq⟩ := hmem_idx j hmem
        have hja := h.2.1
        rw [← hkeq, (hbodies k hk).2] at hja
        simp [Obj.isAliveHead, Obj.chunkPosInBlob] at hja
  have hi₀2 : objs₂.getD i₀ default = store'.objects.getD i₀ default :=
    hchain2eq i₀ (List.mem_cons_self i₀ rest)
  -- Pass-2 survivors are untouched records of the final array.
  have hsurv2 : ∀ i, (objs₂.getD i default).isAliveHead = true →
      objs₂.getD i default = store'.objects.getD i default := by
    intro i hali
    rcases hp2mod i with h | h
    · exact h
    · exfalso
      rw [h.2.2.2, resetObj_isAliveHead] at hali
      exact Bool.noConfusion hali
  -- Every live head of the pass-2 output still walks clean.
  have hOK₂ : ∀ i, AliveHeadAt objs₂ i →
      HeadOK S.geo.objectCountInStore objs₂ i := by
    intro i hali
    have hi1 : i < objs₂.length := hali.1
    have heq := hsurv2 i hali.2
    have halS : AliveHeadAt store'.objects i := by
      refine ⟨by omega, ?_⟩
      rw [← heq]
      exact hali.2
    refine (headOK_transfer S.geo.objectCountInStore store'.objects objs₂
      i (hOK' i halS) ?_).1
    intro p hc j hj
    obtain ⟨p', hc', hh', ht'⟩ := pass1Walk_path S.geo.objectCountInStore
      store'.objects sanFuel i _ 0 (hOK' i halS)
    rw [hc] at hc'
    injection hc' with hpp
    subst hpp
    rcases headMem_cases p i hh' j hj with rfl | hjt
    · exact heq
    · have hjfacts := ht' j hjt
      rcases hp2mod j with h | h
      · exact h
      · exact absurd (flags_of_alive h.2.1).2 hjfacts.2.2
  -- Pass 3 on the deduplicated array.
  have hd2l : d₂.length = objs₂.length := by
    simp only [List.length_replicate] at hl2b
    omega
  have hlen₂ : objs₂.length = S.geo.objectCountInStore := by omega
  obtain ⟨objs₃, d₃, reach, hp3run, hl3a, hl3b, hreset3, hkeep3,
    hreachiff⟩ := pass3_spec S.geo.objectCountInStore
    S.geo.objectSizeInStore objs₂ d₂ hd2l hlen₂ hOK₂
  -- The fresh chain is reachable and survives pass 3 untouched.
  have hchain₂ : chainListF objs₂ sanFuel i₀ = some (i₀ :: rest) := by
    refine chainListF_of_links objs₂ rest sanFuel i₀ hfuel_ok ?_ hlink_hd
      ?_ hlink_dist
    · rw [hi₀2]
      exact hlink_next
    · intro k hk
      rw [hchain2eq (rest.getD k 0)
        (List.mem_cons_of_mem i₀ (getD_mem rest k 0 hk))]
      exact hlink_links k hk
  have hAlive₂ : AliveHeadAt objs₂ i₀ := by
    refine ⟨by omega, ?_⟩
    rw [hi₀2]
    exact hAlive₀.2
  have hreachchain : ∀ j ∈ i₀ :: rest, reach.getD j false = true :=
    fun j hj => (hreachiff j).mpr ⟨i₀, i₀ :: rest, hAlive₂, hchain₂, hj⟩
  have hchain3eq : ∀ j ∈ i₀ :: rest, objs₃.getD j default =
      store'.objects.getD j default := by
    intro j hj
    rw [(hkeep3 j (Or.inr (hreachchain j hj))).1]
    exact hchain2eq j hj
  have hhead3 : objs₃.getD i₀ default = store'.objects.getD i₀ default :=
    hchain3eq i₀ (List.mem_cons_self i₀ rest)
  -- The reloaded store sanitizes to the deduplicated array.
  have hp1run : pass1 S.geo.objectCountInStore S.geo.objectSizeInStore
      store'.objects (List.replicate S.geo.objectCountInStore false) =
      .ok (store'.objects,
        List.replicate S.geo.objectCountInStore false) :=
    pass1_id _ _ _ _ hOK'
  have hsanrun : sanitizeE
      ⟨S.geo, ((store'.objects.map Obj.objectAge).foldl max 0),
        store'.objects,
        List.replicate S.geo.objectCountInStore false⟩ =
      .ok ⟨S.geo, ((store'.objects.map Obj.objectAge).foldl max 0),
        objs₃, d₃⟩ := by
    simp only [sanitizeE, hp1run, except_bind_ok]
    simp only [hp2run, except_bind_ok]
    simp only [hp3run, except_bind_ok]
    rfl
  -- The fetch lookup on the sanitized array finds the fresh head.
  have hfind : (List.range objs₃.length).find? (fun i =>
      let obj := objs₃.getD i default
      decide (obj.objectAge ≠ 0 ∧ obj.chunkPosInBlob = 0 ∧
        obj.blobName = name)) = some i₀ := by
    apply find_range_unique
    · omega
    · simp only [decide_eq_true_eq]
      rw [hhead3]
      refine ⟨?_, ?_, hbn'⟩
      · rw [hheadage]
        omega
      · rw [hhead]
        rfl
    · intro j hjlt hpj
      simp only [decide_eq_true_eq] at hpj
      obtain ⟨hpa, hpp, hpn⟩ := hpj
      by_contra hji
      have halive3 : (objs₃.getD j default).isAliveHead = true :=
        alive_of_flags hpa hpp
      have h32 : objs₃.getD j default = objs₂.getD j default := by
        by_cases hage2 : (objs₂.getD j default).objectAge = 0
        · exact (hkeep3 j (Or.inl hage2)).1
        · by_cases hr : reach.getD j false = true
          · exact (hkeep3 j (Or.inr hr)).1
          · exfalso
            have hb := (hreset3 j hage2 (by simpa using hr)).1
            rw [hb, resetObj_isAliveHead] at halive3
            exact Bool.noConfusion halive3
      have halive2 : (objs₂.getD j default).isAliveHead = true := by
        rw [← h32]
        exact halive3
      have h21 : objs₂.getD j default = store'.objects.getD j default :=
        hsurv2 j halive2
      apply huniq₂ j i₀ ⟨by omega, halive2⟩
        ⟨by omega, by rw [hi₀2]; exact hAlive₀.2⟩ hji
      rw [h21, hi₀2, hbn']
      rw [h32, h21] at hpn
      exact hpn
  -- Chunk reassembly along the surviving chain.
  have hchain₃ : chainListF objs₃ sanFuel i₀ = some (i₀ :: rest) := by
    refine chainListF_of_links objs₃ rest sanFuel i₀ hfuel_ok ?_ hlink_hd
      ?_ hlink_dist
    · rw [hhead3]
      exact hlink_next
    · intro k hk
      rw [hchain3eq (rest.getD k 0)
        (List.mem_cons_of_mem i₀ (getD_mem rest k 0 hk))]
      exact hlink_links k hk
  have hfc3 : fetchChunks objs₃ sanFuel i₀ =
      some ((i₀ :: rest).map
        (fun j => (objs₃.getD j default).chunkPayload)) :=
    fetchChunks_of_chainList objs₃ sanFuel i₀ _ hchain₃
  have hmapsame : (i₀ :: rest).map
      (fun j => (objs₃.getD j default).chunkPayload) =
      (i₀ :: rest).map
        (fun j => (store'.objects.getD j default).chunkPayload) :=
    List.map_congr_left (fun j hj => by rw [hchain3eq j hj])
  have hflat : ∃ junk, (((i₀ :: rest).map
      (fun j => (store'.objects.getD j default).chunkPayload)).flatten)
      = payload0 ++ junk := by
    have hmapchunks : (i₀ :: rest).map
        (fun j => (store'.objects.getD j default).chunkPayload) =
        (store'.objects.getD i₀ default).chunkPayload ::
          (List.range rest.length).map (fun k =>
            (store'.objects.getD (rest.getD k 0) default).chunkPayload) := by
      simp only [List.map_cons]
      congr 1
      exact map_eq_range_map rest 0 _ _ (fun k hk => rfl)
    obtain ⟨chI, hchI⟩ : ∃ x : Int, (S₀.geo.objectSizeInStore : Int) -
        (BLOB_NAME_O : Nat) - name.length = x := ⟨_, rfl⟩
    rw [hchI] at hch0 hcover hfull hcheq hbodies
    rw [hcheq] at hhead hslice
    rw [hchI] at hhead
    obtain ⟨cbI, hcbI⟩ : ∃ x : Int, (S₀.geo.objectSizeInStore : Int) -
        (BLOB_MODIFICATION_TIME_O : Nat) = x := ⟨_, rfl⟩
    rw [hcbI] at hcover hfull hbodies hcb0
    obtain ⟨c, hc⟩ : ∃ c : Nat, chI = (c : Int) :=
      ⟨chI.toNat, (Int.toNat_of_nonneg hch0).symm⟩
    subst hc
    have hheadchunk : (store'.objects.getD i₀ default).chunkPayload =
        padRight (payload0.take c) c := by
      rw [hhead]
      simp only [Obj.chunkPayload]
      rw [pySlice_nonneg payload0 0 _ le_rfl hch0 (by positivity)]
      rw [Int.toNat_natCast]
      rfl
    rcases eq_or_ne rest [] with hrnil | hrne
    · have hn1' : n = 1 := by
        rw [hrnil] at hrl
        simp at hrl
        omega
      rw [hn1'] at hcover
      norm_num at hcover
      refine ⟨List.replicate (c - payload0.length) 0, ?_⟩
      simp only [hrnil, List.map_cons, List.map_nil, List.flatten_cons,
        List.flatten_nil, List.append_nil]
      rw [hheadchunk, List.take_of_length_le (by omega)]
      rfl
    · have hcbpos := hcb0 hrne
      obtain ⟨b, hb⟩ : ∃ b : Nat, cbI = (b : Int) :=
        ⟨cbI.toNat, (Int.toNat_of_nonneg hcbpos.le).symm⟩
      subst hb
      have hbpos : 0 < b := by exact_mod_cast hcbpos
      have hcovN : payload0.length ≤ c + rest.length * b := by
        have hx : ((n - 1 : Nat) : Int) * (b : Int) =
            (((n - 1) * b : Nat) : Int) := by push_cast; ring
        rw [hx] at hcover
        rw [hrl]
        omega
      have hfulN : ∀ k, k < rest.length → c + k * b < payload0.length := by
        intro k hk
        have hf := hfull k (by omega)
        have hx : ((k : Nat) : Int) * (b : Int) = ((k * b : Nat) : Int) := by
          push_cast; ring
        rw [hx] at hf
        omega
      have hbodychunk : ∀ k, k < rest.length →
          (store'.objects.getD (rest.getD k 0) default).chunkPayload =
          padRight ((payload0.take (c + (k + 1) * b)).drop (c + k * b))
            b := by
        intro k hk
        rw [(hbodies k hk).2]
        simp only [Obj.chunkPayload]
        have ha0 : (0 : Int) ≤ (c : Int) + (k : Int) * (b : Int) := by
          positivity
        have hb0 : (0 : Int) ≤ (c : Int) + ((k : Int) + 1) * (b : Int) := by
          positivity
        have haP : (c : Int) + (k : Int) * (b : Int) ≤
            (payload0.length : Int) := by
          have hfk := hfulN k hk
          rw [show (k : Int) * (b : Int) = ((k * b : Nat) : Int) from by
            push_cast; ring]
          have : ((c + k * b : Nat) : Int) ≤ (payload0.length : Int) := by
            exact_mod_cast hfk.le
          push_cast at this ⊢
          omega
        rw [pySlice_nonneg payload0 _ _ ha0 hb0 haP]
        have ht1 : ((c : Int) + (k : Int) * (b : Int)).toNat = c + k * b := by
          rw [show (c : Int) + (k : Int) * (b : Int) =
            ((c + k * b : Nat) : Int) from by push_cast; ring]
          exact Int.toNat_natCast _
        have ht2 : ((c : Int) + ((k : Int) + 1) * (b : Int)).toNat =
            c + (k + 1) * b := by
          rw [show (c : Int) + ((k : Int) + 1) * (b : Int) =
            ((c + (k + 1) * b : Nat) : Int) from by push_cast; ring]
          exact Int.toNat_natCast _
        rw [ht1, ht2, Int.toNat_natCast]
      obtain ⟨junk, hjunk⟩ :=
        chunks_flatten_nat payload0 c b rest.length hcovN hfulN
      refine ⟨junk, ?_⟩
      rw [hmapchunks, hheadchunk,
        List.map_congr_left (fun k hk => hbodychunk k (by simpa using hk))]
      exact hjunk
  obtain ⟨junk, hjunk⟩ := hflat
  have hmain := fetchBlobCore_unfold (applyWrites dev writes) name pin dec
    ⟨S.geo, ((store'.objects.map Obj.objectAge).foldl max 0),
      store'.objects, List.replicate S.geo.objectCountInStore false⟩
    ⟨S.geo, ((store'.objects.map Obj.objectAge).foldl max 0),
      objs₃, d₃⟩
    i₀ ((i₀ :: rest).map
      (fun j => (objs₃.getD j default).chunkPayload))
    hname hreload hsanrun hfind hfc3
    (by show (objs₃.getD i₀ default).blobEncryptionKeySlot = 0
        rw [hhead3, hhead]
        rfl)
  rw [hmain]
  have hbs : (objs₃.getD i₀ default).blobSize = payload0.length := by
    rw [hhead3, hhead]
    rfl
  show Except.ok (some ((((i₀ :: rest).map
    (fun j => (objs₃.getD j default).chunkPayload)).flatten).take
      (objs₃.getD i₀ default).blobSize)) = Except.ok (some payload0)
  rw [hmapsame, hbs, hjunk,
    take_append_len payload0 junk payload0.length rfl]

/-- The round-trip theorem at a concrete store: a 60-byte payload under
the name "ab" on a fresh three-record device is stored across two chunks
and fetched back intact. -/
theorem store_then_fetch_returns_payload_witness :
    ∃ (st : Store) (ws : List (Nat × List Nat)),
      storeBlobCore devFresh3 [97, 98] p60 false id 1000 = .ok (st, ws) ∧
      fetchBlobCore (applyWrites devFresh3 ws) [97, 98] false
        (fun _ => none) = .ok (some p60) := by
  have hnohead : ∀ (i : Nat), ¬ AliveHeadAt storeFresh3.objects i := by
    rintro i ⟨hi, hh⟩
    have hlen3 : storeFresh3.objects.length = 3 := by rfl
    rw [hlen3] at hi
    interval_cases i <;> exact absurd hh (by decide)
  refine ⟨_, _, rfl, store_then_fetch_returns_payload devFresh3 [97, 98]
    p60 1000 storeFresh3 storeFresh3San _ _ false (fun _ => none)
    (by decide) (by decide) (by decide) rfl rfl
    (fun i j k hi _ _ _ _ _ => absurd hi (hnohead i)) rfl⟩

end Yb
